import Mathlib

/-!
Verification development for the C2P configuration library: a shallow
embedding of its text-scanning layer (`text_utils.hpp`), its `ValueTree`
data structure (`value_tree.hpp`), and its JSON and INI engines
(`json.cpp`, `ini.cpp`), together with theorems settling the behavioural
claims about those components.

Modelling conventions:
* C++ `std::string` text is modelled as `List Nat` of byte values
  (`Str`); string comparison and map ordering are byte-lexicographic,
  matching `std::char_traits<char>` (unsigned byte) comparison.
* The engine's `double` scalar is modelled by `NumberValue`, an exact
  rational in lowest terms with a positive denominator.  All rational
  arithmetic is implemented with plain `Nat`/`Int` operations so that
  every definition evaluates inside the kernel.
* C++ in-place cursor mutation is modelled by explicit state passing:
  an operation `bool f(PositionInText&)` becomes a Lean function
  returning `Bool × PositionInText`.
* Unbounded C++ loops are modelled by fuel recursion; callers pass fuel
  that dominates the loop's iteration count (every loop advances the
  cursor or consumes input, so text length plus a constant suffices).
-/

namespace C2P

/-- Text is a list of byte values, mirroring `std::string`. -/
abbrev Str := List Nat

/-- Byte list of an ASCII Lean string literal (used for concrete inputs). -/
def strBytes (s : String) : Str := s.data.map Char.toNat

/-- Character classification `std::isspace` in the C locale:
space, tab, newline, vertical tab, form feed, carriage return. -/
def isspace (c : Nat) : Bool :=
  c == 32 || c == 9 || c == 10 || c == 11 || c == 12 || c == 13

/-- Character classification `std::isdigit`. -/
def isdigit (c : Nat) : Bool := 48 ≤ c && c ≤ 57

/-- Character classification `std::isxdigit`. -/
def isxdigit (c : Nat) : Bool :=
  isdigit c || (97 ≤ c && c ≤ 102) || (65 ≤ c && c ≤ 70)

/-- Byte of `text` at absolute index `i` (reads in the engine are always
in range; out-of-range defaults to 0). -/
def charAt (text : Str) (i : Nat) : Nat := text.getD i 0

/-- Fuel-driven Euclidean algorithm (kernel-reducible). -/
def gcdF : Nat → Nat → Nat → Nat
  | 0, _, n => n
  | _ + 1, 0, n => n
  | f + 1, m + 1, n => gcdF f (n % (m + 1)) (m + 1)

/-- Greatest common divisor via `gcdF` with sufficient fuel. -/
def natGcd (m n : Nat) : Nat := gcdF (m + 1) m n

theorem gcdF_eq_gcd : ∀ (f m n : Nat), m < f → gcdF f m n = Nat.gcd m n := by
  intro f
  induction f with
  | zero => intro m n h; omega
  | succ f ih =>
    intro m n h
    match m with
    | 0 => simp [gcdF, Nat.gcd]
    | m + 1 =>
      have hlt : n % (m + 1) < f := by
        have := Nat.mod_lt n (show 0 < m + 1 by omega)
        omega
      rw [gcdF, ih _ _ hlt]
      exact (Nat.gcd_rec _ _).symm

theorem natGcd_eq_gcd (m n : Nat) : natGcd m n = Nat.gcd m n :=
  gcdF_eq_gcd _ _ _ (Nat.lt_succ_self m)

/-- Exact rational model of the engine's `double` scalar (`NumberValue`
in `value_tree.hpp`): numerator carrying the sign, positive denominator,
in lowest terms whenever produced by `mkNum`. -/
structure NumberValue where
  num : Int
  den : Nat
deriving DecidableEq, Repr

/-- Normalizing constructor: the rational `n / d` in lowest terms. -/
def mkNum (n : Int) (d : Nat) : NumberValue :=
  if d = 0 then ⟨0, 1⟩
  else
    let g := natGcd n.natAbs d
    ⟨if n < 0 then -(Int.ofNat (n.natAbs / g)) else Int.ofNat (n.natAbs / g),
      d / g⟩

/-- Rational value denoted by a `NumberValue` (proof-side semantics). -/
def NumberValue.toRat (q : NumberValue) : ℚ := (q.num : ℚ) / (q.den : ℚ)

/-- Record `PositionInText` of `text_utils.hpp`: a cursor with absolute
offset, line index, column, and a validity flag. -/
structure PositionInText where
  valid : Bool
  pos : Nat
  lineIdx : Nat
  linePos : Nat
deriving DecidableEq, Repr

/-- Record `LineInText` of `text_utils.hpp`. -/
structure LineInText where
  pos : Nat
  len : Nat
  lenExcludingBreaks : Nat
deriving DecidableEq, Repr

/-- Loop body of `splitLines`: iterates over the characters of `text`
exactly like the C++ range-for (`rest` is the remaining suffix), carrying
the current line start `pos`, the running lengths, and the accumulator.
The carriage-return branch looks one byte ahead in the full text; note
that, as in the source, the loop does not skip the following newline
after consuming it into `len`. -/
def splitLinesGo (text : Str) : List Nat → Nat → Nat → Nat →
    List LineInText → List LineInText
  | [], pos, len, lenEx, acc =>
      if len > 0 then acc ++ [⟨pos, len, lenEx⟩] else acc
  | c :: rest, pos, len, lenEx, acc =>
      let len1 := len + 1
      if c == 10 then
        splitLinesGo text rest (pos + len1) 0 0 (acc ++ [⟨pos, len1, lenEx⟩])
      else if c == 13 then
        let newPos := pos + len1
        let len2 :=
          if newPos < text.length && charAt text newPos == 10 then len1 + 1
          else len1
        splitLinesGo text rest (pos + len2) 0 0 (acc ++ [⟨pos, len2, lenEx⟩])
      else
        splitLinesGo text rest pos len1 (lenEx + 1) acc

/-- Function `splitLines` of `text_utils.hpp`: split text into lines,
allowing newline, carriage return, and the two-byte sequence as breaks. -/
def splitLines (text : Str) : List LineInText :=
  splitLinesGo text text 0 0 0 []

/-- Record `TextContext` of `text_utils.hpp`: the input text together
with its line table. -/
structure TextContext where
  text : Str
  lines : List LineInText

/-- Constructor `TextContext(text)`: computes the line table once. -/
def mkContext (text : Str) : TextContext := ⟨text, splitLines text⟩

/-- Line record at index `idx` (in-range in every engine use). -/
def lineAt (ctx : TextContext) (idx : Nat) : LineInText :=
  ctx.lines.getD idx ⟨0, 0, 0⟩

/-- Method `TextContext::moveForward(pos)`: advance one character, also
across line boundaries; at end of input the position is marked invalid
(coordinates unchanged) and the call fails. -/
def moveForward (ctx : TextContext) (p : PositionInText) :
    Bool × PositionInText :=
  if !p.valid then (false, p)
  else if p.linePos + 1 < (lineAt ctx p.lineIdx).len then
    (true, { p with linePos := p.linePos + 1, pos := p.pos + 1 })
  else if p.lineIdx + 1 < ctx.lines.length then
    (true, { p with lineIdx := p.lineIdx + 1,
                    pos := (lineAt ctx (p.lineIdx + 1)).pos, linePos := 0 })
  else (false, { p with valid := false })

/-- Method `TextContext::moveForward(pos, count)`: apply single steps,
stopping at the first failure. -/
def moveForwardN (ctx : TextContext) : Nat → PositionInText →
    Bool × PositionInText
  | 0, p => (true, p)
  | n + 1, p =>
      let r := moveForward ctx p
      if r.1 then moveForwardN ctx n r.2 else (false, r.2)

/-- Method `TextContext::moveForwardInLine(pos)`: advance one character
but refuse (cursor unchanged) at the end of the current line. -/
def moveForwardInLine (ctx : TextContext) (p : PositionInText) :
    Bool × PositionInText :=
  if !p.valid then (false, p)
  else if p.linePos + 1 < (lineAt ctx p.lineIdx).len then
    (true, { p with linePos := p.linePos + 1, pos := p.pos + 1 })
  else (false, p)

/-- Method `TextContext::atLineEnd(pos)`: the cursor addresses the last
character of its current line. -/
def atLineEnd (ctx : TextContext) (p : PositionInText) : Bool :=
  p.valid && (p.linePos + 1 == (lineAt ctx p.lineIdx).len)

/-- Method `TextContext::moveToLineStart(pos)`. -/
def moveToLineStart (ctx : TextContext) (p : PositionInText) :
    Bool × PositionInText :=
  if !p.valid then (false, p)
  else (true, { p with pos := (lineAt ctx p.lineIdx).pos, linePos := 0 })

/-- Method `TextContext::moveToLineEnd(pos)`. -/
def moveToLineEnd (ctx : TextContext) (p : PositionInText) :
    Bool × PositionInText :=
  if !p.valid then (false, p)
  else
    (true, { p with
      pos := (lineAt ctx p.lineIdx).pos + (lineAt ctx p.lineIdx).len - 1,
      linePos := (lineAt ctx p.lineIdx).len - 1 })

/-- Method `TextContext::moveToLineEndExcludingBreaks(pos)`. -/
def moveToLineEndExcludingBreaks (ctx : TextContext) (p : PositionInText) :
    Bool × PositionInText :=
  if !p.valid then (false, p)
  else
    (true, { p with
      pos := (lineAt ctx p.lineIdx).pos
        + (lineAt ctx p.lineIdx).lenExcludingBreaks - 1,
      linePos := (lineAt ctx p.lineIdx).lenExcludingBreaks - 1 })

/-- Method `TextContext::moveToNextLine(pos)`: jump to the start of the
next line; with no next line, park at the last character and invalidate. -/
def moveToNextLine (ctx : TextContext) (p : PositionInText) :
    Bool × PositionInText :=
  if !p.valid then (false, p)
  else if p.lineIdx + 1 < ctx.lines.length then
    (true, { p with lineIdx := p.lineIdx + 1,
                    pos := (lineAt ctx (p.lineIdx + 1)).pos, linePos := 0 })
  else
    (false, { p with valid := false, pos := ctx.text.length - 1,
                     linePos := (lineAt ctx p.lineIdx).len - 1 })

/-- Method `TextContext::slice(start, len)`: zero-copy view modelled as
a byte-list slice; empty when `start` is invalid. -/
def slice (ctx : TextContext) (start : PositionInText) (len : Nat) : Str :=
  if !start.valid then [] else (ctx.text.drop start.pos).take len

/-- Method `TextContext::slice(start, end)`: slice between positions;
extends to the end of input when `end` is invalid. -/
def sliceTo (ctx : TextContext) (start e : PositionInText) : Str :=
  if !start.valid then []
  else if !e.valid then ctx.text.drop start.pos
  else (ctx.text.drop start.pos).take (e.pos - start.pos)

/-- Function `unicodeToUtf8` of `text_utils.hpp`: encode a code point as
UTF-8 bytes (empty beyond the Unicode range). -/
def unicodeToUtf8 (cp : Nat) : Str :=
  if cp ≤ 0x7F then [cp]
  else if cp ≤ 0x7FF then
    [0xC0 ||| ((cp >>> 6) &&& 0x1F), 0x80 ||| (cp &&& 0x3F)]
  else if cp ≤ 0xFFFF then
    [0xE0 ||| ((cp >>> 12) &&& 0x0F), 0x80 ||| ((cp >>> 6) &&& 0x3F),
      0x80 ||| (cp &&& 0x3F)]
  else if cp ≤ 0x10FFFF then
    [0xF0 ||| ((cp >>> 18) &&& 0x07), 0x80 ||| ((cp >>> 12) &&& 0x3F),
      0x80 ||| ((cp >>> 6) &&& 0x3F), 0x80 ||| (cp &&& 0x3F)]
  else []

/-- Enumeration `TypeTag` of `value_tree.hpp` (scalar kind). -/
inductive TypeTag where
  | NONE
  | BOOL
  | NUMBER
  | STRING
deriving DecidableEq, Repr

/-- Scalar `Value` variant of `value_tree.hpp`:
`std::variant<NoneValue, BoolValue, NumberValue, StringValue>`. -/
inductive Value where
  | none
  | bool (b : Bool)
  | number (q : NumberValue)
  | string (s : Str)
deriving DecidableEq, Repr

/-- TypeTag of a scalar value (`ValueNode::typeTag`). -/
def Value.typeTag : Value → TypeTag
  | .none => .NONE
  | .bool _ => .BOOL
  | .number _ => .NUMBER
  | .string _ => .STRING

/-- Enumeration `ValueTree::State`. -/
inductive State where
  | EMPTY
  | VALUE
  | ARRAY
  | OBJECT
deriving DecidableEq, Repr

/-- The `ValueTree` class of `value_tree.hpp`, viewed as the tagged
union its `State` discriminant describes: a node is `EMPTY`, wraps a
scalar `ValueNode`, an `ArrayNode` (`std::vector<ValueTree>`), or an
`ObjectNode` (`std::map<std::string, ValueTree>`, represented as an
association list that engine operations keep sorted by key, matching
`std::map` iteration order).  The C++ object stores all three payloads
side by side, but `clear()` resets the inactive ones, so only the
active payload ever carries content. -/
inductive ValueTree where
  | empty
  | value (v : Value)
  | array (elems : List ValueTree)
  | object (entries : List (Str × ValueTree))

mutual

/-- Structural equality test for trees (used to derive decidable
equality; two C++ trees are equal when states and contents agree). -/
def ValueTree.beq : ValueTree → ValueTree → Bool
  | .empty, .empty => true
  | .value v, .value w => v == w
  | .array xs, .array ys => ValueTree.beqList xs ys
  | .object es, .object fs => ValueTree.beqObj es fs
  | _, _ => false

/-- Pointwise `beq` on child lists. -/
def ValueTree.beqList : List ValueTree → List ValueTree → Bool
  | [], [] => true
  | x :: xs, y :: ys => ValueTree.beq x y && ValueTree.beqList xs ys
  | _, _ => false

/-- Pointwise `beq` on object entry lists. -/
def ValueTree.beqObj : List (Str × ValueTree) → List (Str × ValueTree) → Bool
  | [], [] => true
  | (k, x) :: xs, (l, y) :: ys =>
      k == l && ValueTree.beq x y && ValueTree.beqObj xs ys
  | _, _ => false

end

mutual

theorem ValueTree.beq_iff : ∀ a b : ValueTree, ValueTree.beq a b = true ↔ a = b
  | .empty, .empty => by simp [ValueTree.beq]
  | .empty, .value _ | .empty, .array _ | .empty, .object _
  | .value _, .empty | .value _, .array _ | .value _, .object _
  | .array _, .empty | .array _, .value _ | .array _, .object _
  | .object _, .empty | .object _, .value _ | .object _, .array _ => by
      simp [ValueTree.beq]
  | .value v, .value w => by
      simp [ValueTree.beq, beq_iff_eq]
  | .array xs, .array ys => by
      simp [ValueTree.beq, ValueTree.beqList_iff xs ys]
  | .object es, .object fs => by
      simp [ValueTree.beq, ValueTree.beqObj_iff es fs]

theorem ValueTree.beqList_iff : ∀ xs ys : List ValueTree,
    ValueTree.beqList xs ys = true ↔ xs = ys
  | [], [] => by simp [ValueTree.beqList]
  | [], _ :: _ | _ :: _, [] => by simp [ValueTree.beqList]
  | x :: xs, y :: ys => by
      simp [ValueTree.beqList, Bool.and_eq_true, ValueTree.beq_iff x y,
        ValueTree.beqList_iff xs ys]

theorem ValueTree.beqObj_iff : ∀ es fs : List (Str × ValueTree),
    ValueTree.beqObj es fs = true ↔ es = fs
  | [], [] => by simp [ValueTree.beqObj]
  | [], _ :: _ | _ :: _, [] => by simp [ValueTree.beqObj]
  | (k, x) :: es, (l, y) :: fs => by
      simp [ValueTree.beqObj, Bool.and_eq_true, beq_iff_eq,
        ValueTree.beq_iff x y, ValueTree.beqObj_iff es fs, Prod.ext_iff,
        and_assoc]

end

instance : DecidableEq ValueTree :=
  fun a b => decidable_of_iff _ (ValueTree.beq_iff a b)

/-- Method `ValueTree::state()`. -/
def ValueTree.state : ValueTree → State
  | .empty => .EMPTY
  | .value _ => .VALUE
  | .array _ => .ARRAY
  | .object _ => .OBJECT

/-- Method `ValueTree::isEmpty()`. -/
def ValueTree.isEmpty (t : ValueTree) : Bool := t.state == .EMPTY

/-- Method `ValueTree::isValue()`. -/
def ValueTree.isValue (t : ValueTree) : Bool := t.state == .VALUE

/-- Method `ValueTree::isArray()`. -/
def ValueTree.isArray (t : ValueTree) : Bool := t.state == .ARRAY

/-- Method `ValueTree::isObject()`. -/
def ValueTree.isObject (t : ValueTree) : Bool := t.state == .OBJECT

/-- Method `ValueTree::asValue()`: if the node is not in the `VALUE`
state, `clear()` it and switch; returns the resulting node (whose scalar
payload the C++ caller receives as a mutable reference, `NONE` after a
coercion). -/
def ValueTree.asValue : ValueTree → ValueTree
  | .value v => .value v
  | _ => .value .none

/-- Method `ValueTree::asArray()`: destructively coerce to the `ARRAY`
state (fresh empty array unless already an array). -/
def ValueTree.asArray : ValueTree → ValueTree
  | .array xs => .array xs
  | _ => .array []

/-- Method `ValueTree::asObject()`: destructively coerce to the
`OBJECT` state (fresh empty object unless already an object). -/
def ValueTree.asObject : ValueTree → ValueTree
  | .object es => .object es
  | _ => .object []

/-- Lexicographic byte-order on keys, matching `std::string::operator<`
(`std::char_traits<char>` compares as unsigned bytes). -/
def keyLt : Str → Str → Bool
  | [], [] => false
  | [], _ :: _ => true
  | _ :: _, [] => false
  | a :: as, b :: bs => if a < b then true else if b < a then false else keyLt as bs

/-- Insertion (or overwrite) into the sorted association list that
models `std::map<std::string, ValueTree>`: `map[key] = value`. -/
def mapInsert (k : Str) (v : ValueTree) :
    List (Str × ValueTree) → List (Str × ValueTree)
  | [] => [(k, v)]
  | (k1, v1) :: rest =>
      if keyLt k k1 then (k, v) :: (k1, v1) :: rest
      else if keyLt k1 k then (k1, v1) :: mapInsert k v rest
      else (k, v) :: rest

/-- Lookup in the association list modelling `std::map::find`. -/
def mapFind (k : Str) : List (Str × ValueTree) → Option ValueTree
  | [] => Option.none
  | (k1, v1) :: rest => if k = k1 then some v1 else mapFind k rest

/-- Little-endian decimal digit bytes of `n` (fuel-driven; empty at 0). -/
def digitsRevF : Nat → Nat → List Nat
  | 0, _ => []
  | f + 1, n => if n == 0 then [] else (n % 10 + 48) :: digitsRevF f (n / 10)

/-- Decimal digit bytes of `n`, most significant first. -/
def natToDigits (n : Nat) : Str :=
  if n == 0 then [48] else (digitsRevF n n).reverse

/-- Decimal exponent of the positive rational `N / D`: the unique `e`
with `10 ^ e ≤ N / D < 10 ^ (e + 1)`. -/
def qexpPos (N D : Nat) : Int :=
  if D ≤ N then Int.ofNat ((natToDigits (N / D)).length - 1)
  else
    let d := (natToDigits (D / N)).length
    if D ≤ 10 ^ (d - 1) * N then -(Int.ofNat (d - 1)) else -(Int.ofNat d)

/-- Round `N / D` (with `D > 0`) to the nearest natural number, ties to
even — the rounding applied when formatting a `double` in decimal. -/
def roundNat (N D : Nat) : Nat :=
  let f := N / D
  let r2 := 2 * (N % D)
  if r2 < D then f
  else if D < r2 then f + 1
  else if f % 2 = 0 then f else f + 1

/-- Drop trailing zero digit bytes. -/
def stripZeros (s : Str) : Str :=
  (s.reverse.dropWhile (fun c => c == 48)).reverse

/-- Exponent suffix of scientific formatting: always signed, at least
two digits (printf style `e+06`). -/
def expDigits (e : Int) : Str :=
  let ds := natToDigits e.natAbs
  (if e < 0 then [45] else [43]) ++ (if ds.length < 2 then 48 :: ds else ds)

/-- Render the 6-significant-digit mantissa `m` (in `[10^5, 10^6)`) with
decimal exponent `e` in printf `%g` style with precision 6: scientific
for `e < -4` or `e ≥ 6`, fixed otherwise, trailing fraction zeros
stripped. -/
def fmtDigits6 (m : Nat) (e : Int) : Str :=
  let ds := natToDigits m
  if e < -4 ∨ 6 ≤ e then
    let frac := stripZeros (ds.drop 1)
    ds.take 1 ++ (if frac.isEmpty then [] else 46 :: frac) ++ 101 :: expDigits e
  else if 0 ≤ e then
    let ip := ds.take (e.toNat + 1)
    let fp := stripZeros (ds.drop (e.toNat + 1))
    ip ++ (if fp.isEmpty then [] else 46 :: fp)
  else
    [48, 46] ++ List.replicate (e.natAbs - 1) 48 ++ stripZeros ds

/-- Decimal rendering of the engine's numeric scalar: models
`stream << someDouble` under the default stream state, which is printf
`%g` with precision 6 — round the magnitude to 6 significant decimal
digits (ties to even) and render per `fmtDigits6`. -/
def fmtNumber (q : NumberValue) : Str :=
  if q.num = 0 then [48]
  else
    let N := q.num.natAbs
    let D := q.den
    let e := qexpPos N D
    let k : Int := 5 - e
    let m0 :=
      if 0 ≤ k then roundNat (N * 10 ^ k.toNat) D
      else roundNat N (D * 10 ^ (-k).toNat)
    let me := if m0 = 10 ^ 6 then (10 ^ 5, e + 1) else (m0, e)
    (if q.num < 0 then [45] else []) ++ fmtDigits6 me.1 me.2

/-- Value of a string of decimal digit bytes. -/
def digitsVal (s : Str) : Nat := s.foldl (fun a c => a * 10 + (c - 48)) 0

/-- Value denoted by a decimal floating literal (optional sign, integer
digits, optional fraction, optional exponent).  Models `std::stod` as
the exact rational value of the literal; `stod` rounds this value to the
nearest `double`, and all literals these theorems evaluate denote
exactly representable values. -/
def litVal (s : Str) : NumberValue :=
  let sgnNeg := s.head? == some 45
  let s1 := if s.head? == some 45 || s.head? == some 43 then s.drop 1 else s
  let ip := s1.takeWhile (fun c => isdigit c)
  let r1 := s1.drop ip.length
  let fp :=
    if r1.head? == some 46 then (r1.drop 1).takeWhile (fun c => isdigit c)
    else []
  let r2 := if r1.head? == some 46 then (r1.drop 1).drop fp.length else r1
  let hasExp := r2.head? == some 101 || r2.head? == some 69
  let r3 := if hasExp then r2.drop 1 else r2
  let expNeg := r3.head? == some 45
  let r4 := if r3.head? == some 45 || r3.head? == some 43 then r3.drop 1 else r3
  let ed := if hasExp then r4.takeWhile (fun c => isdigit c) else []
  let mant : Nat := digitsVal ip * 10 ^ fp.length + digitsVal fp
  let ex : Int :=
    (if expNeg then -(Int.ofNat (digitsVal ed)) else Int.ofNat (digitsVal ed))
      - Int.ofNat fp.length
  let n : Int := if sgnNeg then -(Int.ofNat mant) else Int.ofNat mant
  if 0 ≤ ex then mkNum (n * 10 ^ ex.toNat) 1 else mkNum n (10 ^ (-ex).toNat)

example : fmtNumber (mkNum 1234567 1) = strBytes "1.23457e+06" := by decide
example : fmtNumber (mkNum 3 1) = strBytes "3" := by decide
example : fmtNumber (mkNum (-1) 2) = strBytes "-0.5" := by decide
example : fmtNumber (mkNum 1 20) = strBytes "0.05" := by decide
example : fmtNumber (mkNum 12345 10) = strBytes "1234.5" := by decide
example : fmtNumber (mkNum 1000000 1) = strBytes "1e+06" := by decide
example : fmtNumber (mkNum 100000 1) = strBytes "100000" := by decide
example : litVal (strBytes "1.23457e+06") = mkNum 1234570 1 := by decide
example : litVal (strBytes "0.05") = mkNum 1 20 := by decide
example : litVal (strBytes "-0.5") = mkNum (-1) 2 := by decide

/-- Severity of a diagnostic: which `Logger` callback slot receives it. -/
inductive Severity where
  | error
  | warning
  | info
deriving DecidableEq, Repr

/-- Diagnostic event: severity plus the base message text (position
prefixes and caret excerpts added by `_logErrorAtPos` are elided — they
do not affect which callback is invoked). -/
structure LogEvent where
  sev : Severity
  msg : String
deriving DecidableEq, Repr

/-- Value of a string of hexadecimal digit bytes
(`std::stoul(..., nullptr, 16)` on a validated digit string). -/
def hexDigitVal (c : Nat) : Nat :=
  if 48 ≤ c ∧ c ≤ 57 then c - 48
  else if 97 ≤ c ∧ c ≤ 102 then c - 87
  else if 65 ≤ c ∧ c ≤ 70 then c - 55
  else 0

/-- Accumulated value of a hex digit string. -/
def stoulHex (s : Str) : Nat := s.foldl (fun a c => a * 16 + hexDigitVal c) 0

/-- Look-ahead loop of the `u`/`U` escape cases: advance `aheadPos`
within the line `k` times, requiring a hex digit at each new position;
fails (like the source, which reports `InvalidUnicodeEscape`) when the
line ends first or a non-hex byte appears. -/
def hexAhead (ctx : TextContext) : Nat → PositionInText → Option PositionInText
  | 0, p => some p
  | k + 1, p =>
      let r := moveForwardInLine ctx p
      if !r.1 then Option.none
      else if !(isxdigit (charAt ctx.text r.2.pos)) then Option.none
      else hexAhead ctx k r.2

/-- Scanning loop shared verbatim by `json::_parseString` and
`ini::_parseQuotedString`: starting just after the opening quote,
accumulate bytes until the closing quote or the end of the line,
decoding backslash escapes (`\" \\ \/ \b \f \n \r \t`, `\u` + 4 hex,
`\U` + 8 hex re-encoded as UTF-8).  Returns the accumulated bytes and
the exit position; `Option.none` models the error paths. -/
def quotedStringLoop (ctx : TextContext) :
    Nat → PositionInText → Str → Option (Str × PositionInText)
  | 0, _, _ => Option.none
  | fuel + 1, p, acc =>
      if charAt ctx.text p.pos != 34 && !(atLineEnd ctx p) then
        if charAt ctx.text p.pos == 92 then
          let r := moveForwardInLine ctx p
          if !r.1 then Option.none
          else
            let p1 := r.2
            let c := charAt ctx.text p1.pos
            if c == 34 then
              quotedStringLoop ctx fuel (moveForwardInLine ctx p1).2 (acc ++ [34])
            else if c == 92 then
              quotedStringLoop ctx fuel (moveForwardInLine ctx p1).2 (acc ++ [92])
            else if c == 47 then
              quotedStringLoop ctx fuel (moveForwardInLine ctx p1).2 (acc ++ [47])
            else if c == 98 then
              quotedStringLoop ctx fuel (moveForwardInLine ctx p1).2 (acc ++ [8])
            else if c == 102 then
              quotedStringLoop ctx fuel (moveForwardInLine ctx p1).2 (acc ++ [12])
            else if c == 110 then
              quotedStringLoop ctx fuel (moveForwardInLine ctx p1).2 (acc ++ [10])
            else if c == 114 then
              quotedStringLoop ctx fuel (moveForwardInLine ctx p1).2 (acc ++ [13])
            else if c == 116 then
              quotedStringLoop ctx fuel (moveForwardInLine ctx p1).2 (acc ++ [9])
            else if c == 117 then
              match hexAhead ctx 4 p1 with
              | Option.none => Option.none
              | some ahead =>
                  let p2 := (moveForwardInLine ctx p1).2
                  quotedStringLoop ctx fuel (moveForwardInLine ctx ahead).2
                    (acc ++ unicodeToUtf8 (stoulHex (slice ctx p2 4)))
            else if c == 85 then
              match hexAhead ctx 8 p1 with
              | Option.none => Option.none
              | some ahead =>
                  let p2 := (moveForwardInLine ctx p1).2
                  quotedStringLoop ctx fuel (moveForwardInLine ctx ahead).2
                    (acc ++ unicodeToUtf8 (stoulHex (slice ctx p2 8)))
            else Option.none
        else
          quotedStringLoop ctx fuel (moveForwardInLine ctx p).2
            (acc ++ [charAt ctx.text p.pos])
      else some (acc, p)

/-- Function `json::_parseString`: skip the opening quote (failing when
the line ends), run the scanning loop, require the closing quote, skip
it with a full `moveForward`, and yield the string scalar. -/
def jsonParseString (ctx : TextContext) (p : PositionInText) :
    Option (ValueTree × PositionInText) :=
  let r := moveForwardInLine ctx p
  if !r.1 then Option.none
  else
    match quotedStringLoop ctx (ctx.text.length + 2) r.2 [] with
    | Option.none => Option.none
    | some (s, pe) =>
        if charAt ctx.text pe.pos != 34 then Option.none
        else some (.value (.string s), (moveForward ctx pe).2)

/-- Digit-scan loop `while (pos.valid && isdigit) moveForward`. -/
def scanDigits (ctx : TextContext) : Nat → PositionInText → PositionInText
  | 0, p => p
  | f + 1, p =>
      if p.valid && isdigit (charAt ctx.text p.pos) then
        scanDigits ctx f (moveForward ctx p).2
      else p

/-- Exponent tail of `json::_parseNumber` plus the final conversion of
the scanned slice via `std::stod` (modelled by `litVal`). -/
def jsonNumberExp (ctx : TextContext) (startPos p : PositionInText) :
    Option (ValueTree × PositionInText) :=
  let n2 := ctx.text.length + 2
  if p.valid && (charAt ctx.text p.pos == 101 || charAt ctx.text p.pos == 69) then
    let r := moveForward ctx p
    let p1 :=
      if r.1 && (charAt ctx.text r.2.pos == 43 || charAt ctx.text r.2.pos == 45)
      then (moveForward ctx r.2).2 else r.2
    if !p1.valid || !(isdigit (charAt ctx.text p1.pos)) then Option.none
    else
      let p2 := scanDigits ctx n2 p1
      some (.value (.number (litVal (sliceTo ctx startPos p2))), p2)
  else some (.value (.number (litVal (sliceTo ctx startPos p))), p)

/-- Function `json::_parseNumber`: optional sign, `0` or a nonzero
digit run, optional fraction, optional exponent; the accepted slice is
converted by `std::stod`. -/
def jsonParseNumber (ctx : TextContext) (p : PositionInText) :
    Option (ValueTree × PositionInText) :=
  let n2 := ctx.text.length + 2
  let startPos := p
  let pa :=
    if charAt ctx.text p.pos == 43 || charAt ctx.text p.pos == 45 then
      (moveForward ctx p).2
    else p
  if !pa.valid then Option.none
  else
    let ipart : Option PositionInText :=
      if charAt ctx.text pa.pos == 48 then some (moveForward ctx pa).2
      else if !(isdigit (charAt ctx.text pa.pos)) then Option.none
      else some (scanDigits ctx n2 pa)
    match ipart with
    | Option.none => Option.none
    | some pb =>
        if pb.valid && charAt ctx.text pb.pos == 46 then
          let pc := (moveForward ctx pb).2
          if !pc.valid || !(isdigit (charAt ctx.text pc.pos)) then Option.none
          else jsonNumberExp ctx startPos (scanDigits ctx n2 pc)
        else jsonNumberExp ctx startPos pb

/-- Function `json::_parseTrue`. -/
def jsonParseTrue (ctx : TextContext) (p : PositionInText) :
    Option (ValueTree × PositionInText) :=
  if slice ctx p 4 ≠ strBytes "true" then Option.none
  else some (.value (.bool true), (moveForwardN ctx 4 p).2)

/-- Function `json::_parseFalse`. -/
def jsonParseFalse (ctx : TextContext) (p : PositionInText) :
    Option (ValueTree × PositionInText) :=
  if slice ctx p 5 ≠ strBytes "false" then Option.none
  else some (.value (.bool false), (moveForwardN ctx 5 p).2)

/-- Function `json::_parseNull` (`tree = NONE` puts the node in the
scalar state holding `NONE`). -/
def jsonParseNull (ctx : TextContext) (p : PositionInText) :
    Option (ValueTree × PositionInText) :=
  if slice ctx p 4 ≠ strBytes "null" then Option.none
  else some (.value .none, (moveForwardN ctx 4 p).2)

/-- Function `json::_parseWhitespace`: consume one whitespace byte. -/
def jsonParseWhitespaceStep (ctx : TextContext) (p : PositionInText) :
    Bool × PositionInText :=
  if !p.valid || !(isspace (charAt ctx.text p.pos)) then (false, p)
  else (true, (moveForward ctx p).2)

/-- Function `json::_parseComment`: on `//`, jump to the next line. -/
def jsonParseCommentStep (ctx : TextContext) (p : PositionInText) :
    Bool × PositionInText :=
  let r := moveForward ctx p
  if !r.1 || charAt ctx.text p.pos != 47 || charAt ctx.text r.2.pos != 47 then
    (false, p)
  else (true, (moveToNextLine ctx p).2)

/-- Loop of `json::_skipWhitespace`. -/
def jsonSkipWhitespaceGo (ctx : TextContext) :
    Nat → PositionInText → PositionInText
  | 0, p => p
  | f + 1, p =>
      let r1 := jsonParseWhitespaceStep ctx p
      if r1.1 then jsonSkipWhitespaceGo ctx f r1.2
      else
        let r2 := jsonParseCommentStep ctx r1.2
        if r2.1 then jsonSkipWhitespaceGo ctx f r2.2 else r2.2

/-- Function `json::_skipWhitespace`: whitespace and `//` comments are
interchangeable separators (fuel dominates the iteration count). -/
def jsonSkipWhitespace (ctx : TextContext) (p : PositionInText) :
    PositionInText :=
  jsonSkipWhitespaceGo ctx (ctx.text.length + 2) p

mutual

/-- Function `json::_parseValue`: dispatch on the lookahead byte.  The
`t0` argument is the tree node the C++ caller passes by reference (its
prior content matters for the object/array cases, whose `as` coercions
preserve a matching state). -/
def jsonParseValue (ctx : TextContext) :
    Nat → ValueTree → PositionInText → Option (ValueTree × PositionInText)
  | 0, _, _ => Option.none
  | fuel + 1, t0, p =>
      let ch := charAt ctx.text p.pos
      if ch == 123 then jsonParseObject ctx fuel t0 p
      else if ch == 91 then jsonParseArray ctx fuel t0 p
      else if ch == 34 then jsonParseString ctx p
      else if ch == 116 then jsonParseTrue ctx p
      else if ch == 102 then jsonParseFalse ctx p
      else if ch == 110 then jsonParseNull ctx p
      else if ch == 43 || ch == 45 || isdigit ch then jsonParseNumber ctx p
      else Option.none

/-- Function `json::_parseObject` up to its member loop: coerce the
node to the object state, skip the brace and separators, and either
close an empty object or enter the loop. -/
def jsonParseObject (ctx : TextContext) :
    Nat → ValueTree → PositionInText → Option (ValueTree × PositionInText)
  | 0, _, _ => Option.none
  | fuel + 1, t0, p =>
      let es0 := match t0.asObject with | .object es => es | _ => []
      let p2 := jsonSkipWhitespace ctx (moveForward ctx p).2
      if p2.valid && charAt ctx.text p2.pos == 125 then
        some (.object es0, (moveForward ctx p2).2)
      else jsonParseObjectLoop ctx fuel es0 p2

/-- Member loop of `json::_parseObject`: quoted key, `:`, recursive
value into the slot `object[key]`, then `,` (tolerating a trailing
comma) or `}`. -/
def jsonParseObjectLoop (ctx : TextContext) :
    Nat → List (Str × ValueTree) → PositionInText →
    Option (ValueTree × PositionInText)
  | 0, _, _ => Option.none
  | fuel + 1, es, p =>
      if !p.valid then Option.none
      else
        let p1 := jsonSkipWhitespace ctx p
        if charAt ctx.text p1.pos != 34 then Option.none
        else
          match jsonParseString ctx p1 with
          | Option.none => Option.none
          | some (keyT, p2) =>
              let key := match keyT with | .value (.string s) => s | _ => []
              let p3 := jsonSkipWhitespace ctx p2
              if !p3.valid || charAt ctx.text p3.pos != 58 then Option.none
              else
                let p4 := jsonSkipWhitespace ctx (moveForward ctx p3).2
                let slot := (mapFind key es).getD .empty
                match jsonParseValue ctx fuel slot p4 with
                | Option.none => Option.none
                | some (v, p5) =>
                    let es1 := mapInsert key v es
                    let p6 := jsonSkipWhitespace ctx p5
                    if p6.valid && charAt ctx.text p6.pos == 125 then
                      some (.object es1, (moveForward ctx p6).2)
                    else if !p6.valid || charAt ctx.text p6.pos != 44 then
                      Option.none
                    else
                      let p7 := jsonSkipWhitespace ctx (moveForward ctx p6).2
                      if p7.valid && charAt ctx.text p7.pos == 125 then
                        some (.object es1, (moveForward ctx p7).2)
                      else jsonParseObjectLoop ctx fuel es1 p7

/-- Function `json::_parseArray` up to its element loop. -/
def jsonParseArray (ctx : TextContext) :
    Nat → ValueTree → PositionInText → Option (ValueTree × PositionInText)
  | 0, _, _ => Option.none
  | fuel + 1, t0, p =>
      let xs0 := match t0.asArray with | .array xs => xs | _ => []
      let p2 := jsonSkipWhitespace ctx (moveForward ctx p).2
      if p2.valid && charAt ctx.text p2.pos == 93 then
        some (.array xs0, (moveForward ctx p2).2)
      else jsonParseArrayLoop ctx fuel xs0 p2

/-- Element loop of `json::_parseArray`: each iteration pushes a fresh
node and parses into it, then requires `,` (trailing comma tolerated)
or `]`. -/
def jsonParseArrayLoop (ctx : TextContext) :
    Nat → List ValueTree → PositionInText →
    Option (ValueTree × PositionInText)
  | 0, _, _ => Option.none
  | fuel + 1, xs, p =>
      if !p.valid then Option.none
      else
        let p1 := jsonSkipWhitespace ctx p
        match jsonParseValue ctx fuel .empty p1 with
        | Option.none => Option.none
        | some (v, p2) =>
            let xs1 := xs ++ [v]
            let p3 := jsonSkipWhitespace ctx p2
            if p3.valid && charAt ctx.text p3.pos == 93 then
              some (.array xs1, (moveForward ctx p3).2)
            else if !p3.valid || charAt ctx.text p3.pos != 44 then Option.none
            else
              let p4 := jsonSkipWhitespace ctx (moveForward ctx p3).2
              if p4.valid && charAt ctx.text p4.pos == 93 then
                some (.array xs1, (moveForward ctx p4).2)
              else jsonParseArrayLoop ctx fuel xs1 p4

end

/-- Top-level `json::parse` of `json.cpp` (`ValueTree` revision): fail
on empty input; otherwise skip separators, parse one value (the fuel
dominates the source's recursion and loop counts: every dispatch chain
`_parseValue` → `_parseObject`/`_parseArray` → member loop spends at
most three fuel units before consuming at least one input byte, so
`3 * length + 8` strictly dominates every run), skip separators, and
report any remaining characters.  The event list models the diagnostics
the top-level function itself emits; the nested parse functions report
exclusively through `_logErrorAtPos`, i.e. the error callback — no code
path of this engine invokes the warning callback. -/
def jsonParse (json : Str) : ValueTree × List LogEvent :=
  if json.isEmpty then (.empty, [⟨.error, "Empty JSON."⟩])
  else
    let ctx := mkContext json
    let p1 := jsonSkipWhitespace ctx ⟨true, 0, 0, 0⟩
    match jsonParseValue ctx (3 * json.length + 8) .empty p1 with
    | Option.none => (.empty, [⟨.error, "Failed to parse JSON."⟩])
    | some (tree, p2) =>
        let p3 := jsonSkipWhitespace ctx p2
        if p3.valid then (tree, [⟨.error, "Extra characters after JSON."⟩])
        else (tree, [])

/-- Escape of one byte in `json::_escapeString`. -/
def escapeChar (c : Nat) : Str :=
  if c == 34 then [92, 34]
  else if c == 92 then [92, 92]
  else if c == 8 then [92, 98]
  else if c == 12 then [92, 102]
  else if c == 10 then [92, 110]
  else if c == 13 then [92, 114]
  else if c == 9 then [92, 116]
  else [c]

/-- Function `json::_escapeString`. -/
def escapeString (s : Str) : Str := s.foldr (fun c acc => escapeChar c ++ acc) []

/-- Scalar rendering of `json::_dump` (the `VALUE` case). -/
def jsonDumpScalar : Value → Str
  | .none => strBytes "null"
  | .bool b => if b then strBytes "true" else strBytes "false"
  | .number q => fmtNumber q
  | .string s => 34 :: escapeString s ++ [34]

mutual

/-- Recursive renderer `json::_dump`: `EMPTY` renders as nothing,
scalars per `jsonDumpScalar`, arrays and objects via their member
loops; `pretty` inserts newline-and-indent before each member and
before the closing bracket when at least one member was printed. -/
def jsonDumpTree (pretty : Bool) (indent istep : Nat) : ValueTree → Str
  | .empty => []
  | .value v => jsonDumpScalar v
  | .array xs =>
      91 :: jsonDumpElems pretty (indent + istep) istep true xs
        ++ (if pretty && xs.any (fun t => !t.isEmpty) then
              10 :: List.replicate indent 32 else [])
        ++ [93]
  | .object es =>
      123 :: jsonDumpMembers pretty (indent + istep) istep true es
        ++ (if pretty && es.any (fun e => !e.2.isEmpty) then
              10 :: List.replicate indent 32 else [])
        ++ [125]

/-- Array loop of `json::_dump`: skip `EMPTY` elements, comma-separate
the rest (`first` tracks whether a separator is due). -/
def jsonDumpElems (pretty : Bool) (ni istep : Nat) (first : Bool) :
    List ValueTree → Str
  | [] => []
  | t :: rest =>
      if t.isEmpty then jsonDumpElems pretty ni istep first rest
      else
        (if first then [] else [44])
          ++ (if pretty then 10 :: List.replicate ni 32 else [])
          ++ jsonDumpTree pretty ni istep t
          ++ jsonDumpElems pretty ni istep false rest

/-- Object loop of `json::_dump`: skip `EMPTY` members; compact mode
writes the key raw between quotes followed by `:`, pretty mode renders
the key as an escaped string scalar followed by a spaced colon. -/
def jsonDumpMembers (pretty : Bool) (ni istep : Nat) (first : Bool) :
    List (Str × ValueTree) → Str
  | [] => []
  | (k, t) :: rest =>
      if t.isEmpty then jsonDumpMembers pretty ni istep first rest
      else
        (if first then [] else [44])
          ++ (if pretty then
                10 :: List.replicate ni 32 ++ (34 :: escapeString k ++ [34])
                  ++ [58, 32]
              else 34 :: k ++ [34, 58])
          ++ jsonDumpTree pretty ni istep t
          ++ jsonDumpMembers pretty ni istep false rest

end

/-- Top-level `json::dump` (defaults: compact, indent step 2). -/
def jsonDump (t : ValueTree) (pretty : Bool := false) (istep : Nat := 2) :
    Str :=
  jsonDumpTree pretty 0 istep t

/-- A byte that `json::_escapeString` passes through unchanged. -/
def byteClean (c : Nat) : Bool :=
  !(c == 34 || c == 92 || c == 8 || c == 12 || c == 10 || c == 13 || c == 9)

/-- Strictly ascending key order — the invariant `std::map` maintains
for every object the C++ engine can ever hold. -/
def sortedKeys : List (Str × ValueTree) → Bool
  | [] => true
  | [_] => true
  | (k1, v1) :: (k2, v2) :: rest =>
      keyLt k1 k2 && sortedKeys ((k2, v2) :: rest)

mutual

/-- The tree class of the round-trip property: built from scalars,
arrays and objects only (no `EMPTY` children), object keys kept in
`std::map` order with only escape-neutral bytes. -/
def cleanT : ValueTree → Bool
  | .empty => false
  | .value _ => true
  | .array xs => cleanL xs
  | .object es => sortedKeys es && cleanM es

def cleanL : List ValueTree → Bool
  | [] => true
  | t :: rest => cleanT t && cleanL rest

def cleanM : List (Str × ValueTree) → Bool
  | [] => true
  | (k, t) :: rest => k.all byteClean && cleanT t && cleanM rest

end

mutual

/-- Requantization along a JSON round trip: every number is replaced by
the exact value of its 6-significant-digit rendering; everything else
is preserved. -/
def reQ : ValueTree → ValueTree
  | .empty => .empty
  | .value (.number q) => .value (.number (litVal (fmtNumber q)))
  | .value v => .value v
  | .array xs => .array (reQL xs)
  | .object es => .object (reQM es)

def reQL : List ValueTree → List ValueTree
  | [] => []
  | t :: rest => reQ t :: reQL rest

def reQM : List (Str × ValueTree) → List (Str × ValueTree)
  | [] => []
  | (k, t) :: rest => (k, reQ t) :: reQM rest

end

mutual

/-- Fuel needed by `jsonParseValue` on the dump of a tree: one unit per
dispatch into `_parseObject`/`_parseArray` and per member-loop turn. -/
def szV : ValueTree → Nat
  | .empty => 1
  | .value _ => 1
  | .array xs => 2 + szL xs
  | .object es => 2 + szM es

def szL : List ValueTree → Nat
  | [] => 0
  | t :: rest => 1 + max (szV t) (szL rest)

def szM : List (Str × ValueTree) → Nat
  | [] => 0
  | (_, t) :: rest => 1 + max (szV t) (szM rest)

end

mutual

/-- All numbers in the tree are fixed points of requantization: their
rendered form denotes them exactly. -/
def numsStable : ValueTree → Bool
  | .empty => true
  | .value (.number q) => litVal (fmtNumber q) == q
  | .value _ => true
  | .array xs => numsStableL xs
  | .object es => numsStableM es

def numsStableL : List ValueTree → Bool
  | [] => true
  | t :: rest => numsStable t && numsStableL rest

def numsStableM : List (Str × ValueTree) → Bool
  | [] => true
  | (_, t) :: rest => numsStable t && numsStableM rest

end

/-- One decoded segment of a decimal floating literal as the number
scanner of `json::_parseNumber` accepts it: optional minus, integer
digits, optional fraction, optional signed exponent. -/
structure NumTok where
  neg : Bool
  I : Str
  F : Str
  eSgn : Option Bool
  eD : Str

/-- Sign prefix of a numeric token. -/
def numTokSign : Bool → Str
  | true => [45]
  | false => []

/-- Fraction segment of a numeric token (dot plus digits, or nothing). -/
def numTokFrac : Str → Str
  | [] => []
  | c :: r => 46 :: c :: r

/-- Exponent segment of a numeric token. -/
def numTokExp : Option Bool → Str → Str
  | Option.none, _ => []
  | some b, eD => 101 :: (if b then 45 else 43) :: eD

/-- Byte rendering of the token. -/
def NumTok.bytes (t : NumTok) : Str :=
  numTokSign t.neg ++ t.I ++ numTokFrac t.F ++ numTokExp t.eSgn t.eD

/-- Structural conditions under which the scanner consumes exactly the
token: nonempty digit-only integer part that is `0` only when it is
exactly `[0]`, digit-only fraction, nonempty digit-only exponent. -/
def NumTok.wf (t : NumTok) : Prop :=
  t.I ≠ [] ∧ (∀ c ∈ t.I, isdigit c = true) ∧ (t.I.headI = 48 → t.I = [48])
    ∧ (∀ c ∈ t.F, isdigit c = true)
    ∧ (t.eSgn.isSome → t.eD ≠ [] ∧ (∀ c ∈ t.eD, isdigit c = true))

/-- The rounded 6-digit mantissa chosen by `fmtNumber` (named for the
tokenization lemmas; the rendering itself inlines this computation). -/
def fmtM (q : NumberValue) : Nat :=
  let N := q.num.natAbs
  let D := q.den
  let e := qexpPos N D
  let k : Int := 5 - e
  let m0 :=
    if 0 ≤ k then roundNat (N * 10 ^ k.toNat) D
    else roundNat N (D * 10 ^ (-k).toNat)
  if m0 = 10 ^ 6 then 10 ^ 5 else m0

/-- The decimal exponent paired with `fmtM`. -/
def fmtE (q : NumberValue) : Int :=
  let N := q.num.natAbs
  let D := q.den
  let e := qexpPos N D
  let k : Int := 5 - e
  let m0 :=
    if 0 ≤ k then roundNat (N * 10 ^ k.toNat) D
    else roundNat N (D * 10 ^ (-k).toNat)
  if m0 = 10 ^ 6 then e + 1 else e

/-- Function `ini::_parseWhitespaceInLine`: consume one whitespace byte
unless the cursor sits on the last character of its line. -/
def iniWhitespaceStep (ctx : TextContext) (p : PositionInText) :
    Bool × PositionInText :=
  if atLineEnd ctx p || !(isspace (charAt ctx.text p.pos)) then (false, p)
  else (true, (moveForwardInLine ctx p).2)

/-- Function `ini::_parseCommentInLine`: on `;` or `#` (not at the line
end), jump to the end of the line. -/
def iniCommentStep (ctx : TextContext) (p : PositionInText) :
    Bool × PositionInText :=
  if atLineEnd ctx p
      || (charAt ctx.text p.pos != 59 && charAt ctx.text p.pos != 35) then
    (false, p)
  else (true, (moveToLineEnd ctx p).2)

/-- Loop of `ini::_skipWhitespaceInLine`. -/
def iniSkipWsGo (ctx : TextContext) : Nat → PositionInText → PositionInText
  | 0, p => p
  | f + 1, p =>
      let r1 := iniWhitespaceStep ctx p
      if r1.1 then iniSkipWsGo ctx f r1.2
      else
        let r2 := iniCommentStep ctx r1.2
        if r2.1 then iniSkipWsGo ctx f r2.2 else r2.2

/-- Function `ini::_skipWhitespaceInLine` (fuel dominates the loop). -/
def iniSkipWs (ctx : TextContext) (p : PositionInText) : PositionInText :=
  iniSkipWsGo ctx (ctx.text.length + 2) p

/-- Function `ini::_parseQuotedString`: same scanning loop as the JSON
string parser; the closing quote is skipped with `moveForwardInLine`. -/
def iniParseQuotedString (ctx : TextContext) (p : PositionInText) :
    Option (Str × PositionInText) :=
  let r := moveForwardInLine ctx p
  if !r.1 then Option.none
  else
    match quotedStringLoop ctx (ctx.text.length + 2) r.2 [] with
    | Option.none => Option.none
    | some (s, pe) =>
        if charAt ctx.text pe.pos != 34 then Option.none
        else some (s, (moveForwardInLine ctx pe).2)

/-- Scanning loop of `ini::_parseNoQuotedHeaderString`: run to `]`,
rejecting comments and the end of the line, tracking the start of a
possible trailing-whitespace run in `wsp`. -/
def iniHeaderGo (ctx : TextContext) :
    Nat → PositionInText → PositionInText → PositionInText →
    Option (PositionInText × PositionInText)
  | 0, _, _, _ => Option.none
  | f + 1, startP, wsp, p =>
      if charAt ctx.text p.pos == 93 then some (wsp, p)
      else if charAt ctx.text p.pos == 59 || charAt ctx.text p.pos == 35 then
        Option.none
      else if atLineEnd ctx p then Option.none
      else
        let wsp1 :=
          if isspace (charAt ctx.text p.pos) then
            if wsp.pos == startP.pos then p else wsp
          else startP
        iniHeaderGo ctx f startP wsp1 (moveForwardInLine ctx p).2

/-- Function `ini::_parseNoQuotedHeaderString`: unquoted section header
text trimmed of trailing whitespace before `]`. -/
def iniParseNoQuotedHeaderString (ctx : TextContext) (p : PositionInText) :
    Option (Str × PositionInText) :=
  match iniHeaderGo ctx (ctx.text.length + 2) p p p with
  | Option.none => Option.none
  | some (wsp, pe) =>
      some (sliceTo ctx p (if wsp.pos == p.pos then pe else wsp), pe)

/-- Scanning loop of `ini::_parseNoQuotedKeyString`: run to `=`. -/
def iniKeyGo (ctx : TextContext) :
    Nat → PositionInText → PositionInText → PositionInText →
    Option (PositionInText × PositionInText)
  | 0, _, _, _ => Option.none
  | f + 1, startP, wsp, p =>
      if charAt ctx.text p.pos == 61 then some (wsp, p)
      else if charAt ctx.text p.pos == 59 || charAt ctx.text p.pos == 35 then
        Option.none
      else if atLineEnd ctx p then Option.none
      else
        let wsp1 :=
          if isspace (charAt ctx.text p.pos) then
            if wsp.pos == startP.pos then p else wsp
          else startP
        iniKeyGo ctx f startP wsp1 (moveForwardInLine ctx p).2

/-- Function `ini::_parseNoQuotedKeyString`: unquoted key up to `=`,
trailing whitespace trimmed, empty keys rejected. -/
def iniParseNoQuotedKeyString (ctx : TextContext) (p : PositionInText) :
    Option (Str × PositionInText) :=
  match iniKeyGo ctx (ctx.text.length + 2) p p p with
  | Option.none => Option.none
  | some (wsp, pe) =>
      if p.pos == pe.pos then Option.none
      else some (sliceTo ctx p (if wsp.pos == p.pos then pe else wsp), pe)

/-- Scanning loop of `ini::_parseNoQuotedValueString`: run to `;`/`#`
or the end of the line; when the line ends with no trailing-whitespace
run, the `wsp` marker is invalidated so that the slice extends to the
scan position. -/
def iniValueGo (ctx : TextContext) :
    Nat → PositionInText → PositionInText → PositionInText →
    PositionInText × PositionInText
  | 0, _, wsp, p => (wsp, p)
  | f + 1, startP, wsp, p =>
      if charAt ctx.text p.pos == 59 || charAt ctx.text p.pos == 35 then
        (wsp, p)
      else
        let wsp1 :=
          if isspace (charAt ctx.text p.pos) then
            if wsp.pos == startP.pos then p else wsp
          else startP
        let r := moveForwardInLine ctx p
        if r.1 then iniValueGo ctx f startP wsp1 r.2
        else
          (if wsp1.pos == startP.pos then { p with valid := false } else wsp1,
            p)

/-- Function `ini::_parseNoQuotedValueString`: unquoted value text up
to a comment marker or the end of the line, trailing whitespace trimmed
(interior whitespace preserved).  The source's signature is fallible
but this function has no failure path. -/
def iniParseNoQuotedValueString (ctx : TextContext) (p : PositionInText) :
    Str × PositionInText :=
  let r := iniValueGo ctx (ctx.text.length + 2) p p p
  (sliceTo ctx p (if r.1.valid && r.1.pos == p.pos then r.2 else r.1), r.2)

/-- Function `ini::_parseSectionHeader`: `[`, optional whitespace,
quoted or unquoted header text (empty unquoted header rejected), `]`,
then only whitespace or comment to the end of the line. -/
def iniParseSectionHeader (ctx : TextContext) (p : PositionInText) :
    Option (Str × PositionInText) :=
  let r := moveForwardInLine ctx p
  if !r.1 then Option.none
  else
    let p1 := iniSkipWs ctx r.2
    if charAt ctx.text p1.pos == 93 then Option.none
    else if atLineEnd ctx p1 then Option.none
    else
      let hdr :=
        if charAt ctx.text p1.pos == 34 then iniParseQuotedString ctx p1
        else iniParseNoQuotedHeaderString ctx p1
      match hdr with
      | Option.none => Option.none
      | some (h, p2) =>
          let p3 := iniSkipWs ctx p2
          if charAt ctx.text p3.pos != 93 then Option.none
          else
            let p5 := iniSkipWs ctx (moveForwardInLine ctx p3).2
            if !(atLineEnd ctx p5) then Option.none
            else some (h, p5)

/-- Function `ini::_parseEntry`: quoted or unquoted key, `=`, then an
empty value when nothing or only whitespace remains on the line, else a
quoted or unquoted value. -/
def iniParseEntry (ctx : TextContext) (p : PositionInText) :
    Option ((Str × Str) × PositionInText) :=
  let keyRes : Option (Str × PositionInText) :=
    if charAt ctx.text p.pos == 34 then
      match iniParseQuotedString ctx p with
      | Option.none => Option.none
      | some (k, p1) =>
          let p2 := iniSkipWs ctx p1
          if charAt ctx.text p2.pos != 61 then Option.none
          else some (k, p2)
    else iniParseNoQuotedKeyString ctx p
  match keyRes with
  | Option.none => Option.none
  | some (k, p2) =>
      let r := moveForwardInLine ctx p2
      if !r.1 then some ((k, []), p2)
      else
        let p3 := iniSkipWs ctx r.2
        if atLineEnd ctx p3 && isspace (charAt ctx.text p3.pos) then
          some ((k, []), p3)
        else if charAt ctx.text p3.pos == 34 then
          match iniParseQuotedString ctx p3 with
          | Option.none => Option.none
          | some (v, p4) => some ((k, v), p4)
        else
          let r2 := iniParseNoQuotedValueString ctx p3
          some ((k, r2.1), r2.2)

/-- Effect of a parsed section header line on the document state:
`section = &(tree[header]); section->asObject();` — the root is coerced
to an object, the header slot is created if absent, and the slot is
coerced to an object (preserving it when it already is one). -/
def iniOpenSection (t : ValueTree) (h : Str) : ValueTree :=
  let es := match t.asObject with | .object es => es | _ => []
  let cur := (mapFind h es).getD .empty
  .object (mapInsert h cur.asObject es)

/-- Effect of a parsed entry line on the document state:
`(*section)[key] = value` — insert under the current section (the root
when no header has been seen), overwriting an existing key.  The C++
`section` pointer always designates the root or the object node at a
root-level header key, modelled here by an optional key path. -/
def iniInsertEntry (t : ValueTree) (sect : Option Str) (k : Str) (v : Str) :
    ValueTree :=
  match sect with
  | Option.none =>
      let es := match t.asObject with | .object es => es | _ => []
      .object (mapInsert k (.value (.string v)) es)
  | some h =>
      let es := match t.asObject with | .object es => es | _ => []
      let cur := (mapFind h es).getD .empty
      let ces := match cur.asObject with | .object ces => ces | _ => []
      .object (mapInsert h (.object (mapInsert k (.value (.string v)) ces)) es)

/-- Document loop of `ini::parse`: per line, skip whitespace and
comments; a blank remainder is skipped, `[` opens a section, anything
else is an entry inserted under the current section; any line failure
aborts the whole parse (`Option.none`).  The loop advances with
`moveToNextLine` until it fails at the last line. -/
def iniParseLoop (ctx : TextContext) :
    Nat → PositionInText → ValueTree → Option Str → Option ValueTree
  | 0, _, tree, _ => some tree
  | fuel + 1, p, tree, sect =>
      let p1 := iniSkipWs ctx p
      if atLineEnd ctx p1 && isspace (charAt ctx.text p1.pos) then
        let r := moveToNextLine ctx p1
        if r.1 then iniParseLoop ctx fuel r.2 tree sect else some tree
      else if charAt ctx.text p1.pos == 91 then
        match iniParseSectionHeader ctx p1 with
        | Option.none => Option.none
        | some (h, p2) =>
            let tree1 := iniOpenSection tree h
            let r := moveToNextLine ctx p2
            if r.1 then iniParseLoop ctx fuel r.2 tree1 (some h) else some tree1
      else
        match iniParseEntry ctx p1 with
        | Option.none => Option.none
        | some ((k, v), p2) =>
            let tree1 := iniInsertEntry tree sect k v
            let r := moveToNextLine ctx p2
            if r.1 then iniParseLoop ctx fuel r.2 tree1 sect else some tree1

/-- Top-level `ini::parse`: empty input yields an empty tree (after an
`EmptyInput` error); a failure on any line yields an empty tree. -/
def iniParse (ini : Str) : ValueTree :=
  if ini.isEmpty then .empty
  else
    match iniParseLoop (mkContext ini) (ini.length + 2) ⟨true, 0, 0, 0⟩
        .empty Option.none with
    | some t => t
    | Option.none => .empty

/-- Byte rendering inside `ini::_dumpString` (comment markers kept raw
but forcing quotes; quotes, backslashes and control characters escaped). -/
def iniEscChar (c : Nat) : Str :=
  if c == 59 then [59]
  else if c == 35 then [35]
  else if c == 34 then [92, 34]
  else if c == 92 then [92, 92]
  else if c == 8 then [92, 98]
  else if c == 12 then [92, 102]
  else if c == 10 then [92, 110]
  else if c == 13 then [92, 114]
  else if c == 9 then [92, 116]
  else [c]

/-- Bytes that set `needQuote` in `ini::_dumpString`. -/
def iniNeedQuote (c : Nat) : Bool :=
  c == 59 || c == 35 || c == 34 || c == 92 || c == 8 || c == 12 || c == 10
    || c == 13 || c == 9

/-- Function `ini::_dumpString`: empty strings render as a quoted empty
string; otherwise the escaped body, wrapped in quotes when any byte
demanded it. -/
def iniDumpString (s : Str) : Str :=
  if s.isEmpty then [34, 34]
  else
    let body := s.foldr (fun c acc => iniEscChar c ++ acc) []
    if s.any iniNeedQuote then 34 :: body ++ [34] else body

/-- Function `ini::_dumpEntry`: `key=value` plus a newline, scalars
rendered per their tag (`stream << double` for numbers). -/
def iniDumpEntry (k : Str) (v : Value) : Str :=
  iniDumpString k ++ [61]
    ++ (match v with
        | .none => strBytes "null"
        | .bool b => if b then strBytes "true" else strBytes "false"
        | .number q => fmtNumber q
        | .string s => iniDumpString s)
    ++ [10]

/-- First loop of `ini::dump`: stream the root-level scalar entries in
map order, skip `EMPTY` values, fail on arrays, and collect map-valued
entries as sections (their order is the sorted root order, matching the
`std::map` the source collects them into). -/
def iniDumpGlobals :
    List (Str × ValueTree) → Option (Str × List (Str × List (Str × ValueTree)))
  | [] => some ([], [])
  | (k, v) :: rest =>
      match v with
      | .empty => iniDumpGlobals rest
      | .array _ => Option.none
      | .object ces =>
          match iniDumpGlobals rest with
          | Option.none => Option.none
          | some (s, secs) => some (s, (k, ces) :: secs)
      | .value sc =>
          match iniDumpGlobals rest with
          | Option.none => Option.none
          | some (s, secs) => some (iniDumpEntry k sc ++ s, secs)

/-- Member loop of the second phase of `ini::dump`: every non-`EMPTY`
section member must be a scalar entry. -/
def iniDumpSectionBody : List (Str × ValueTree) → Option Str
  | [] => some []
  | (k, v) :: rest =>
      match v with
      | .empty => iniDumpSectionBody rest
      | .value sc =>
          match iniDumpSectionBody rest with
          | Option.none => Option.none
          | some r => some (iniDumpEntry k sc ++ r)
      | _ => Option.none

/-- Second loop of `ini::dump`: blank line, `[header]` line, then the
section's entries. -/
def iniDumpSections : List (Str × List (Str × ValueTree)) → Option Str
  | [] => some []
  | (h, ces) :: rest =>
      match iniDumpSectionBody ces with
      | Option.none => Option.none
      | some b =>
          match iniDumpSections rest with
          | Option.none => Option.none
          | some r =>
              some (10 :: (91 :: iniDumpString h ++ [93, 10]) ++ b ++ r)

/-- Top-level `ini::dump`: empty result for an empty or non-object
tree, and for any structural failure (arrays anywhere, non-flat
sections) detected by the two loops. -/
def iniDump (t : ValueTree) : Str :=
  match t with
  | .object es =>
      match iniDumpGlobals es with
      | Option.none => []
      | some (g, secs) =>
          match iniDumpSections secs with
          | Option.none => []
          | some s => g ++ s
  | _ => []

/-- Exact-partition check for a line table: the first line starts at
offset 0, each line starts where the previous one ends, line lengths
sum to the text length, and `lenExcludingBreaks ≤ len` throughout. -/
def linesPartitionB (text : Str) : Bool :=
  ((splitLines text).foldl
    (fun (st : Option Nat) l =>
      match st with
      | Option.none => Option.none
      | some off =>
          if l.pos == off && l.lenExcludingBreaks ≤ l.len then
            some (off + l.len)
          else Option.none)
    (some 0)) == some text.length

/-- Claim C5: each coercion accessor leaves the node in exactly the
requested state; when the node was already in that state its content is
unchanged (the very same node results), and otherwise all prior content
is discarded in favour of fresh content (`NONE` scalar, empty array,
empty object respectively). -/
theorem claim_C5 (t : ValueTree) :
    t.asValue.state = .VALUE ∧ t.asArray.state = .ARRAY
      ∧ t.asObject.state = .OBJECT
      ∧ (t.state = .VALUE → t.asValue = t)
      ∧ (t.state ≠ .VALUE → t.asValue = .value .none)
      ∧ (t.state = .ARRAY → t.asArray = t)
      ∧ (t.state ≠ .ARRAY → t.asArray = .array [])
      ∧ (t.state = .OBJECT → t.asObject = t)
      ∧ (t.state ≠ .OBJECT → t.asObject = .object []) := by
  cases t <;>
    simp [ValueTree.asValue, ValueTree.asArray, ValueTree.asObject,
      ValueTree.state]

/-- Witness for C5 at concrete nodes: a scalar node is preserved by the
matching accessor and destructively reset by a mismatched one. -/
theorem claim_C5_witness :
    (ValueTree.value (.bool true)).state = .VALUE
      ∧ (ValueTree.value (.bool true)).asValue = .value (.bool true)
      ∧ (ValueTree.value (.bool true)).state ≠ .ARRAY
      ∧ (ValueTree.value (.bool true)).asArray = .array [] :=
  ⟨by decide, (claim_C5 (.value (.bool true))).2.2.2.1 (by decide),
    by decide, (claim_C5 (.value (.bool true))).2.2.2.2.2.2.1 (by decide)⟩

/-- Claim C10 (code bug): on the input `"a\r\nb"` the `splitLines` line
table does not partition the text — the newline of the two-byte break
is both absorbed into the first line's length and then processed again
as a line of its own, so the table reads
`[(0,3,1), (3,1,0), (4,1,1)]`: the lengths sum to 5, not 4, and the
last recorded line starts past the end of the text. -/
theorem claim_C10 :
    splitLines (strBytes "a\r\nb")
        = [⟨0, 3, 1⟩, ⟨3, 1, 0⟩, ⟨4, 1, 1⟩]
      ∧ linesPartitionB (strBytes "a\r\nb") = false
      ∧ ((splitLines (strBytes "a\r\nb")).map LineInText.len).sum = 5
      ∧ (strBytes "a\r\nb").length = 4 := by
  decide

/-- Claim C4 (code bug): on `"1 x"` the single top-level value parses
as the number 1 and non-whitespace trails; the current engine reports
`Extra characters after JSON.` through `_logErrorAtPos`, i.e. the error
callback — not the warning callback the spec (and the earlier revisions
of `json.cpp`, which call `logger.logWarning` here) prescribe — while
still returning the successfully parsed tree rather than an empty one. -/
theorem claim_C4 :
    jsonParse (strBytes "1 x")
      = (.value (.number (mkNum 1 1)),
          [⟨Severity.error, "Extra characters after JSON."⟩]) := by
  decide

theorem keyLt_irrefl : ∀ k : Str, keyLt k k = false := by
  intro k
  induction k with
  | nil => rfl
  | cons a as ih => simp [keyLt, ih]

theorem keyLt_eq_of_not_lt :
    ∀ {a b : Str}, keyLt a b = false → keyLt b a = false → a = b := by
  intro a
  induction a with
  | nil =>
    intro b h1 _
    cases b with
    | nil => rfl
    | cons x xs => simp [keyLt] at h1
  | cons x xs ih =>
    intro b h1 h2
    cases b with
    | nil => simp [keyLt] at h2
    | cons y ys =>
      rw [keyLt] at h1 h2
      by_cases hxy : x < y
      · simp [hxy] at h1
      · by_cases hyx : y < x
        · simp [hyx, hxy] at h2
        · have hx : x = y := by omega
          subst hx
          simp [hxy] at h1 h2
          rw [ih h1 h2]

theorem mapFind_insert_self (k : Str) (v : ValueTree) :
    ∀ es, mapFind k (mapInsert k v es) = some v := by
  intro es
  induction es with
  | nil => simp [mapInsert, mapFind]
  | cons hd tl ih =>
    obtain ⟨k1, v1⟩ := hd
    by_cases h1 : keyLt k k1 = true
    · simp [mapInsert, h1, mapFind]
    · by_cases h2 : keyLt k1 k = true
      · have hne : k ≠ k1 := by
          intro he; subst he; rw [keyLt_irrefl] at h2; exact absurd h2 (by simp)
        simp [mapInsert, h1, h2, mapFind, hne, ih]
      · simp [mapInsert, h1, h2, mapFind]

theorem mapFind_insert_of_ne (j k : Str) (v : ValueTree) (hne : j ≠ k) :
    ∀ es, mapFind j (mapInsert k v es) = mapFind j es := by
  intro es
  induction es with
  | nil => simp [mapInsert, mapFind, hne]
  | cons hd tl ih =>
    obtain ⟨k1, v1⟩ := hd
    by_cases h1 : keyLt k k1 = true
    · simp [mapInsert, h1, mapFind, hne]
    · by_cases h2 : keyLt k1 k = true
      · simp [mapInsert, h1, h2, mapFind, ih]
      · have he : k = k1 := keyLt_eq_of_not_lt (by simpa using h1) (by simpa using h2)
        subst he
        simp [mapInsert, h1, h2, mapFind, hne]

/-- Canonical cursor of a one-line context of length `n`: valid at
index `i < n`, otherwise the invalidated ran-off-the-end state parked
at the last character. -/
def posAt (n i : Nat) : PositionInText :=
  if i < n then ⟨true, i, 0, i⟩ else ⟨false, n - 1, 0, n - 1⟩

theorem splitLinesGo_nobreak (text : Str) :
    ∀ (rest : List Nat) (pos len lenEx : Nat) (acc : List LineInText),
      (∀ c ∈ rest, c ≠ 10 ∧ c ≠ 13) →
      splitLinesGo text rest pos len lenEx acc =
        if 0 < len + rest.length then
          acc ++ [⟨pos, len + rest.length, lenEx + rest.length⟩]
        else acc := by
  intro rest
  induction rest with
  | nil =>
    intro pos len lenEx acc _
    simp [splitLinesGo]
  | cons c r ih =>
    intro pos len lenEx acc hnb
    obtain ⟨hc10, hc13⟩ := hnb c (List.mem_cons_self _ _)
    have hr : ∀ x ∈ r, x ≠ 10 ∧ x ≠ 13 :=
      fun x hx => hnb x (List.mem_cons_of_mem _ hx)
    rw [splitLinesGo]
    simp only [show (c == 10) = false by simpa using hc10,
      show (c == 13) = false by simpa using hc13, Bool.false_eq_true,
      if_false]
    rw [ih _ _ _ _ hr]
    have e1 : len + 1 + r.length = len + (r.length + 1) := by omega
    have e2 : lenEx + 1 + r.length = lenEx + (r.length + 1) := by omega
    rw [e1, e2]
    simp

theorem splitLinesGo_nobreak_nl (text : Str) :
    ∀ (rest : List Nat) (pos len lenEx : Nat) (acc : List LineInText),
      (∀ c ∈ rest, c ≠ 10 ∧ c ≠ 13) →
      splitLinesGo text (rest ++ [10]) pos len lenEx acc =
        acc ++ [⟨pos, len + rest.length + 1, lenEx + rest.length⟩] := by
  intro rest
  induction rest with
  | nil =>
    intro pos len lenEx acc _
    rw [List.nil_append, splitLinesGo]
    simp [splitLinesGo]
  | cons c r ih =>
    intro pos len lenEx acc hnb
    obtain ⟨hc10, hc13⟩ := hnb c (List.mem_cons_self _ _)
    have hr : ∀ x ∈ r, x ≠ 10 ∧ x ≠ 13 :=
      fun x hx => hnb x (List.mem_cons_of_mem _ hx)
    rw [List.cons_append, splitLinesGo]
    simp only [show (c == 10) = false by simpa using hc10,
      show (c == 13) = false by simpa using hc13, Bool.false_eq_true,
      if_false]
    rw [ih _ _ _ _ hr]
    have e1 : len + 1 + r.length = len + (r.length + 1) := by omega
    have e2 : lenEx + 1 + r.length = lenEx + (r.length + 1) := by omega
    rw [e1, e2]
    simp

/-- Line table of a nonempty break-free text: one line covering it. -/
theorem splitLines_nobreak (s : Str) (hnb : ∀ c ∈ s, c ≠ 10 ∧ c ≠ 13)
    (hne : s ≠ []) : splitLines s = [⟨0, s.length, s.length⟩] := by
  rw [splitLines, splitLinesGo_nobreak s s 0 0 0 [] hnb]
  have : 0 < s.length := List.length_pos.mpr hne
  simp [this]

/-- Line table of a break-free text terminated by a newline. -/
theorem splitLines_nobreak_nl (s : Str) (hnb : ∀ c ∈ s, c ≠ 10 ∧ c ≠ 13) :
    splitLines (s ++ [10]) = [⟨0, s.length + 1, s.length⟩] := by
  rw [splitLines, splitLinesGo_nobreak_nl (s ++ [10]) s 0 0 0 [] hnb]
  simp

theorem posAt_pos (n i : Nat) (hi : i < n) : posAt n i = ⟨true, i, 0, i⟩ := by
  simp [posAt, hi]

theorem posAt_ge (n i : Nat) (hi : ¬ i < n) :
    posAt n i = ⟨false, n - 1, 0, n - 1⟩ := by
  simp [posAt, hi]

section OneLine

variable {s : Str} {E : Nat}

theorem oneLine_pos (h : splitLines s = [⟨0, s.length, E⟩]) :
    0 < s.length := by
  rcases hs : s with _ | ⟨c, r⟩
  · rw [hs] at h
    simp [splitLines, splitLinesGo] at h
  · simp

theorem ol_lineAt (h : splitLines s = [⟨0, s.length, E⟩]) :
    lineAt (mkContext s) 0 = ⟨0, s.length, E⟩ := by
  simp [lineAt, mkContext, h]

theorem ol_lines_len (h : splitLines s = [⟨0, s.length, E⟩]) :
    (mkContext s).lines.length = 1 := by
  simp [mkContext, h]

theorem ol_moveForward (h : splitLines s = [⟨0, s.length, E⟩]) (i : Nat) :
    moveForward (mkContext s) (posAt s.length i) =
      (decide (i + 1 < s.length), posAt s.length (i + 1)) := by
  have hn := oneLine_pos h
  by_cases hi : i < s.length
  · rw [posAt_pos _ _ hi, moveForward]
    simp only [ol_lineAt h, ol_lines_len h]
    by_cases h2 : i + 1 < s.length
    · simp [h2, posAt_pos _ _ h2]
    · have h3 : ¬ (0 + 1 < 1) := by omega
      simp [h2, h3, posAt_ge _ _ h2]
      omega
  · have h2 : ¬ (i + 1 < s.length) := by omega
    rw [posAt_ge _ _ hi, posAt_ge _ _ h2, moveForward]
    simp [h2]

theorem ol_moveForwardInLine (h : splitLines s = [⟨0, s.length, E⟩])
    (i : Nat) :
    moveForwardInLine (mkContext s) (posAt s.length i) =
      (decide (i + 1 < s.length),
        posAt s.length (if i + 1 < s.length then i + 1 else i)) := by
  by_cases hi : i < s.length
  · rw [posAt_pos _ _ hi, moveForwardInLine]
    simp only [ol_lineAt h]
    by_cases h2 : i + 1 < s.length
    · simp [h2, posAt_pos _ _ h2]
    · simp [h2, posAt_pos _ _ hi]
  · have h2 : ¬ (i + 1 < s.length) := by omega
    rw [posAt_ge _ _ hi, moveForwardInLine]
    simp [h2, posAt_ge _ _ hi]

theorem ol_atLineEnd (h : splitLines s = [⟨0, s.length, E⟩]) (i : Nat) :
    atLineEnd (mkContext s) (posAt s.length i) = decide (i + 1 = s.length) := by
  by_cases hi : i < s.length
  · rw [posAt_pos _ _ hi, atLineEnd]
    simp [ol_lineAt h, beq_eq_decide]
  · have h2 : ¬ (i + 1 = s.length) := by omega
    rw [posAt_ge _ _ hi, atLineEnd]
    simp [h2]

theorem ol_moveToNextLine (h : splitLines s = [⟨0, s.length, E⟩]) (i : Nat) :
    moveToNextLine (mkContext s) (posAt s.length i) =
      (false, posAt s.length s.length) := by
  have hn := oneLine_pos h
  have h2 : ¬ (s.length < s.length) := by omega
  by_cases hi : i < s.length
  · rw [posAt_pos _ _ hi, moveToNextLine]
    have h3 : ¬ (0 + 1 < 1) := by omega
    simp only [ol_lineAt h, ol_lines_len h]
    simp [h3, posAt_ge _ _ h2, mkContext]
  · rw [posAt_ge _ _ hi, moveToNextLine]
    simp [posAt_ge _ _ h2]

theorem ol_moveToLineEnd (h : splitLines s = [⟨0, s.length, E⟩]) (i : Nat)
    (hi : i < s.length) :
    moveToLineEnd (mkContext s) (posAt s.length i) =
      (true, posAt s.length (s.length - 1)) := by
  have hn := oneLine_pos h
  rw [posAt_pos _ _ hi, moveToLineEnd]
  have h2 : s.length - 1 < s.length := by omega
  simp [ol_lineAt h, posAt_pos _ _ h2]

theorem ol_pos (i : Nat) (hn : 0 < s.length) :
    (posAt s.length i).pos = min i (s.length - 1) := by
  by_cases hi : i < s.length
  · rw [posAt_pos _ _ hi]; simp; omega
  · rw [posAt_ge _ _ hi]; simp; omega

theorem ol_pos_lt (i : Nat) (hi : i < s.length) :
    (posAt s.length i).pos = i := by
  rw [posAt_pos _ _ hi]

theorem ol_valid (i : Nat) :
    (posAt s.length i).valid = decide (i < s.length) := by
  by_cases hi : i < s.length
  · rw [posAt_pos _ _ hi]; simp [hi]
  · rw [posAt_ge _ _ hi]; simp [hi]

theorem ol_slice (i len : Nat) (hi : i < s.length) :
    slice (mkContext s) (posAt s.length i) len = (s.drop i).take len := by
  rw [posAt_pos _ _ hi, slice]
  simp [mkContext]

theorem ol_sliceTo (i j : Nat) (hi : i < s.length) (hj : j < s.length) :
    sliceTo (mkContext s) (posAt s.length i) (posAt s.length j) =
      (s.drop i).take (j - i) := by
  rw [posAt_pos _ _ hi, posAt_pos _ _ hj, sliceTo]
  simp [mkContext]

theorem ol_sliceTo_invalid (i : Nat) (hi : i < s.length)
    (e : PositionInText) (he : e.valid = false) :
    sliceTo (mkContext s) (posAt s.length i) e = s.drop i := by
  rw [posAt_pos _ _ hi, sliceTo]
  simp [mkContext, he]

end OneLine

theorem mkContext_text (s : Str) : (mkContext s).text = s := rfl

theorem mkContext_lines (s : Str) : (mkContext s).lines = splitLines s := rfl

theorem isxdigit_ne_break {c : Nat} (h : isxdigit c = true) :
    c ≠ 10 ∧ c ≠ 13 := by
  rw [isxdigit, isdigit] at h
  simp only [Bool.or_eq_true, Bool.and_eq_true, decide_eq_true_eq] at h
  omega

section QuotedLoop

variable {s : Str} {E : Nat}

theorem hexAhead_ok (h : splitLines s = [⟨0, s.length, E⟩]) :
    ∀ (k i : Nat), i + k < s.length →
      (∀ j, 1 ≤ j → j ≤ k → isxdigit (charAt s (i + j)) = true) →
      hexAhead (mkContext s) k (posAt s.length i) =
        some (posAt s.length (i + k)) := by
  intro k
  induction k with
  | zero => intro i _ _; simp [hexAhead]
  | succ k ih =>
    intro i hik hx
    rw [hexAhead, ol_moveForwardInLine h]
    have h1 : i + 1 < s.length := by omega
    have hx1 : isxdigit (charAt s ((posAt s.length (i + 1)).pos)) = true := by
      rw [ol_pos_lt _ h1]
      exact hx 1 (by omega) (by omega)
    simp only [h1, if_true, decide_eq_true_eq, mkContext_text, hx1,
      Bool.not_true, Bool.false_eq_true, if_false]
    rw [ih (i + 1) (by omega) (fun j hj1 hj2 => by
      have := hx (j + 1) (by omega) (by omega)
      rwa [show i + 1 + j = i + (j + 1) by omega])]
    rw [show i + 1 + k = i + (k + 1) by omega]
    simp

theorem hexAhead_off_end (h : splitLines s = [⟨0, s.length, E⟩]) :
    ∀ (k i : Nat), i < s.length → s.length ≤ i + k →
      hexAhead (mkContext s) k (posAt s.length i) = Option.none := by
  intro k
  induction k with
  | zero => intro i hi hik; omega
  | succ k ih =>
    intro i hi hik
    rw [hexAhead, ol_moveForwardInLine h]
    by_cases h1 : i + 1 < s.length
    · simp only [h1, if_true, decide_eq_true_eq, mkContext_text]
      by_cases hx : isxdigit (charAt s ((posAt s.length (i + 1)).pos)) = true
      · simp only [hx, Bool.not_true, Bool.false_eq_true, if_false]
        exact ih (i + 1) h1 (by omega)
      · rw [Bool.not_eq_true] at hx
        simp [hx]
    · simp [h1]

theorem qsl_exit (i : Nat) (hi : i < s.length) (hq : charAt s i = 34)
    (f : Nat) (acc : Str) :
    quotedStringLoop (mkContext s) (f + 1) (posAt s.length i) acc =
      some (acc, posAt s.length i) := by
  rw [quotedStringLoop]
  have hpos : (posAt s.length i).pos = i := ol_pos_lt _ hi
  simp only [mkContext_text, hpos, hq]
  simp

theorem qsl_raw (h : splitLines s = [⟨0, s.length, E⟩]) (i : Nat)
    (hi : i + 1 < s.length) (hq : charAt s i ≠ 34) (hb : charAt s i ≠ 92)
    (f : Nat) (acc : Str) :
    quotedStringLoop (mkContext s) (f + 1) (posAt s.length i) acc =
      quotedStringLoop (mkContext s) f (posAt s.length (i + 1))
        (acc ++ [charAt s i]) := by
  rw [quotedStringLoop]
  have hpos : (posAt s.length i).pos = i := ol_pos_lt _ (by omega)
  have hle := ol_atLineEnd h (E := E) i
  have hmf := ol_moveForwardInLine h (E := E) i
  have hne : ¬ (i + 1 = s.length) := by omega
  simp only [mkContext_text, hpos, hle, hmf]
  simp [hne, hq, hb, hi, bne_iff_ne]

theorem qsl_u (h : splitLines s = [⟨0, s.length, E⟩]) (i : Nat)
    (hi : i + 1 < s.length) (hesc : charAt s i = 92)
    (hu : charAt s (i + 1) = 117)
    (hhex : ∀ j, 2 ≤ j → j ≤ 5 → isxdigit (charAt s (i + j)) = true)
    (hend : i + 6 < s.length) (f : Nat) (acc : Str) :
    quotedStringLoop (mkContext s) (f + 1) (posAt s.length i) acc =
      quotedStringLoop (mkContext s) f (posAt s.length (i + 6))
        (acc ++ unicodeToUtf8 (stoulHex ((s.drop (i + 2)).take 4))) := by
  have hpos : (posAt s.length i).pos = i := ol_pos_lt _ (by omega)
  have hle := ol_atLineEnd h (E := E) i
  have hmf := ol_moveForwardInLine h (E := E) i
  have hmf1 := ol_moveForwardInLine h (E := E) (i + 1)
  have hmf5 := ol_moveForwardInLine h (E := E) (i + 5)
  have hne : ¬ (i + 1 = s.length) := by omega
  have hp1 : (posAt s.length (i + 1)).pos = i + 1 := ol_pos_lt _ (by omega)
  have hahead : hexAhead (mkContext s) 4 (posAt s.length (i + 1)) =
      some (posAt s.length (i + 5)) := by
    rw [hexAhead_ok h 4 (i + 1) (by omega) (fun j hj1 hj2 => by
      have := hhex (j + 1) (by omega) (by omega)
      rwa [show i + 1 + j = i + (j + 1) by omega])]
  have h12 : i + 1 + 1 < s.length := by omega
  have h56 : i + 5 + 1 < s.length := by omega
  have hslice : slice (mkContext s) (posAt s.length (i + 2)) 4 =
      (s.drop (i + 2)).take 4 := ol_slice _ _ (by omega)
  simp only [mkContext_text] at hpos hle hmf hmf1 hmf5 hp1 hahead hslice ⊢
  rw [quotedStringLoop]
  simp only [mkContext_text, hpos, hesc, hle, hmf]
  simp only [show ((92 : Nat) != 34) = true by decide,
    show ((92 : Nat) == 92) = true by decide, hne, decide_eq_false hne,
    Bool.not_false, Bool.and_true, if_true, hi, decide_eq_true hi,
    if_true]
  simp only [hp1, hu]
  simp only [show ((117 : Nat) == 34) = false by decide,
    show ((117 : Nat) == 92) = false by decide,
    show ((117 : Nat) == 47) = false by decide,
    show ((117 : Nat) == 98) = false by decide,
    show ((117 : Nat) == 102) = false by decide,
    show ((117 : Nat) == 110) = false by decide,
    show ((117 : Nat) == 114) = false by decide,
    show ((117 : Nat) == 116) = false by decide,
    show ((117 : Nat) == 117) = true by decide,
    Bool.false_eq_true, if_false, if_true, hahead, Bool.not_true]
  rw [hmf1]
  simp only [h12, if_true, decide_eq_true h12]
  rw [hmf5]
  simp only [h56, if_true]
  rw [hslice]
  rw [show i + 1 + 1 = i + 2 by omega, show i + 5 + 1 = i + 6 by omega]
  simp

theorem qsl_U (h : splitLines s = [⟨0, s.length, E⟩]) (i : Nat)
    (hi : i + 1 < s.length) (hesc : charAt s i = 92)
    (hU : charAt s (i + 1) = 85)
    (hhex : ∀ j, 2 ≤ j → j ≤ 9 → isxdigit (charAt s (i + j)) = true)
    (hend : i + 10 < s.length) (f : Nat) (acc : Str) :
    quotedStringLoop (mkContext s) (f + 1) (posAt s.length i) acc =
      quotedStringLoop (mkContext s) f (posAt s.length (i + 10))
        (acc ++ unicodeToUtf8 (stoulHex ((s.drop (i + 2)).take 8))) := by
  have hpos : (posAt s.length i).pos = i := ol_pos_lt _ (by omega)
  have hle := ol_atLineEnd h (E := E) i
  have hmf := ol_moveForwardInLine h (E := E) i
  have hmf1 := ol_moveForwardInLine h (E := E) (i + 1)
  have hmf9 := ol_moveForwardInLine h (E := E) (i + 9)
  have hne : ¬ (i + 1 = s.length) := by omega
  have hp1 : (posAt s.length (i + 1)).pos = i + 1 := ol_pos_lt _ (by omega)
  have hahead : hexAhead (mkContext s) 8 (posAt s.length (i + 1)) =
      some (posAt s.length (i + 9)) := by
    rw [hexAhead_ok h 8 (i + 1) (by omega) (fun j hj1 hj2 => by
      have := hhex (j + 1) (by omega) (by omega)
      rwa [show i + 1 + j = i + (j + 1) by omega])]
  have h12 : i + 1 + 1 < s.length := by omega
  have h910 : i + 9 + 1 < s.length := by omega
  have hslice : slice (mkContext s) (posAt s.length (i + 2)) 8 =
      (s.drop (i + 2)).take 8 := ol_slice _ _ (by omega)
  simp only [mkContext_text] at hpos hle hmf hmf1 hmf9 hp1 hahead hslice ⊢
  rw [quotedStringLoop]
  simp only [mkContext_text, hpos, hesc, hle, hmf]
  simp only [show ((92 : Nat) != 34) = true by decide,
    show ((92 : Nat) == 92) = true by decide, hne, decide_eq_false hne,
    Bool.not_false, Bool.and_true, if_true, hi, decide_eq_true hi,
    if_true]
  simp only [hp1, hU]
  simp only [show ((85 : Nat) == 34) = false by decide,
    show ((85 : Nat) == 92) = false by decide,
    show ((85 : Nat) == 47) = false by decide,
    show ((85 : Nat) == 98) = false by decide,
    show ((85 : Nat) == 102) = false by decide,
    show ((85 : Nat) == 110) = false by decide,
    show ((85 : Nat) == 114) = false by decide,
    show ((85 : Nat) == 116) = false by decide,
    show ((85 : Nat) == 117) = false by decide,
    show ((85 : Nat) == 85) = true by decide,
    Bool.false_eq_true, if_false, if_true, hahead, Bool.not_true]
  rw [hmf1]
  simp only [h12, if_true, decide_eq_true h12]
  rw [hmf9]
  simp only [h910, if_true]
  rw [hslice]
  rw [show i + 1 + 1 = i + 2 by omega, show i + 9 + 1 = i + 10 by omega]
  simp

theorem qsl_u_fail (h : splitLines s = [⟨0, s.length, E⟩]) (i : Nat)
    (hi : i + 1 < s.length) (hesc : charAt s i = 92)
    (hu : charAt s (i + 1) = 117) (hoff : s.length ≤ i + 5)
    (f : Nat) (acc : Str) :
    quotedStringLoop (mkContext s) (f + 1) (posAt s.length i) acc =
      Option.none := by
  have hpos : (posAt s.length i).pos = i := ol_pos_lt _ (by omega)
  have hle := ol_atLineEnd h (E := E) i
  have hmf := ol_moveForwardInLine h (E := E) i
  have hne : ¬ (i + 1 = s.length) := by omega
  have hp1 : (posAt s.length (i + 1)).pos = i + 1 := ol_pos_lt _ (by omega)
  have hahead : hexAhead (mkContext s) 4 (posAt s.length (i + 1)) =
      Option.none := hexAhead_off_end h 4 (i + 1) (by omega) (by omega)
  simp only [mkContext_text] at hpos hle hmf hp1 hahead ⊢
  rw [quotedStringLoop]
  simp only [mkContext_text, hpos, hesc, hle, hmf]
  simp only [show ((92 : Nat) != 34) = true by decide,
    show ((92 : Nat) == 92) = true by decide, hne, decide_eq_false hne,
    Bool.not_false, Bool.and_true, if_true, hi, decide_eq_true hi,
    if_true]
  simp only [hp1, hu]
  simp only [show ((117 : Nat) == 34) = false by decide,
    show ((117 : Nat) == 92) = false by decide,
    show ((117 : Nat) == 47) = false by decide,
    show ((117 : Nat) == 98) = false by decide,
    show ((117 : Nat) == 102) = false by decide,
    show ((117 : Nat) == 110) = false by decide,
    show ((117 : Nat) == 114) = false by decide,
    show ((117 : Nat) == 116) = false by decide,
    show ((117 : Nat) == 117) = true by decide,
    Bool.false_eq_true, if_false, if_true, hahead, Bool.not_true]
  simp

end QuotedLoop

theorem stoulHex_four (a b c d : Nat) :
    stoulHex [a, b, c, d] =
      4096 * hexDigitVal a + 256 * hexDigitVal b + 16 * hexDigitVal c
        + hexDigitVal d := by
  simp [stoulHex]
  ring

theorem stoulHex_eight (a b c d e f g h : Nat) :
    stoulHex [a, b, c, d, e, f, g, h] =
      268435456 * hexDigitVal a + 16777216 * hexDigitVal b
        + 1048576 * hexDigitVal c + 65536 * hexDigitVal d
        + 4096 * hexDigitVal e + 256 * hexDigitVal f + 16 * hexDigitVal g
        + hexDigitVal h := by
  simp [stoulHex]
  ring

theorem isspace_small {c : Nat} (h : isspace c = true) :
    c ≠ 59 ∧ c ≠ 35 ∧ c ≠ 34 ∧ c ≠ 91 ∧ c ≠ 61 := by
  rw [isspace] at h
  simp only [Bool.or_eq_true, beq_iff_eq] at h
  omega

section IniScan

variable {s : Str} {E : Nat}

/-- The INI in-line whitespace skipper does not move when the cursor is
at the end of its line or on a byte that is neither whitespace nor a
comment marker. -/
theorem iniSkipWsGo_noop (h : splitLines s = [⟨0, s.length, E⟩]) (j : Nat)
    (hj : j < s.length)
    (hc : j + 1 = s.length ∨
      (isspace (charAt s j) = false ∧ charAt s j ≠ 59 ∧ charAt s j ≠ 35)) :
    ∀ f, iniSkipWsGo (mkContext s) f (posAt s.length j) = posAt s.length j := by
  intro f
  cases f with
  | zero => rfl
  | succ f =>
    have hle := ol_atLineEnd h (E := E) j
    have hpos : (posAt s.length j).pos = j := ol_pos_lt _ hj
    rcases hc with hc | ⟨h1, h2, h3⟩
    · rw [iniSkipWsGo, iniWhitespaceStep, iniCommentStep]
      simp [hle, hpos, hc, mkContext_text]
    · rw [iniSkipWsGo, iniWhitespaceStep, iniCommentStep]
      simp [hle, hpos, h1, h2, h3, mkContext_text]

/-- The INI in-line whitespace skipper runs over a whitespace run that
extends to the last character of the line and stops there. -/
theorem iniSkipWsGo_to_end (h : splitLines s = [⟨0, s.length, E⟩]) :
    ∀ (m f j : Nat), j + m + 1 = s.length → m < f →
      (∀ l, l < m → isspace (charAt s (j + l)) = true) →
      iniSkipWsGo (mkContext s) f (posAt s.length j) =
        posAt s.length (s.length - 1) := by
  intro m
  induction m with
  | zero =>
    intro f j hj hf _
    rw [iniSkipWsGo_noop h j (by omega) (Or.inl (by omega))]
    congr 1
    omega
  | succ m ih =>
    intro f j hj hf hws
    cases f with
    | zero => omega
    | succ f =>
      have hw0 : isspace (charAt s (j + 0)) = true := hws 0 (by omega)
      rw [Nat.add_zero] at hw0
      obtain ⟨h59, h35, _, _, _⟩ := isspace_small hw0
      have hle := ol_atLineEnd h (E := E) j
      have hpos : (posAt s.length j).pos = j := ol_pos_lt _ (by omega)
      have hmf := ol_moveForwardInLine h (E := E) j
      have hne : ¬ (j + 1 = s.length) := by omega
      have hj1 : j + 1 < s.length := by omega
      rw [iniSkipWsGo, iniWhitespaceStep]
      simp only [mkContext_text, hle, hpos, hw0, hmf, hne, decide_eq_false hne,
        Bool.false_eq_true, if_false, Bool.not_false, Bool.and_self, if_true,
        hj1, if_true, decide_eq_true hj1]
      norm_num
      rw [ih f (j + 1) (by omega) (by omega) (fun l hl => by
        have := hws (l + 1) (by omega)
        rwa [show j + 1 + l = j + (l + 1) by omega])]

/-- The unquoted-key scanner consumes a run of plain bytes and halts on
the terminating `=`, leaving the whitespace marker at the start. -/
theorem iniKeyGo_plain (h : splitLines s = [⟨0, s.length, E⟩])
    (startP : PositionInText) :
    ∀ (m f j : Nat), m < f → j + m < s.length →
      (∀ l, l < m → isspace (charAt s (j + l)) = false ∧
        charAt s (j + l) ≠ 61 ∧ charAt s (j + l) ≠ 59 ∧
        charAt s (j + l) ≠ 35) →
      charAt s (j + m) = 61 →
      iniKeyGo (mkContext s) f startP startP (posAt s.length j) =
        some (startP, posAt s.length (j + m)) := by
  intro m
  induction m with
  | zero =>
    intro f j hf hj hpl heq
    cases f with
    | zero => omega
    | succ f =>
      rw [iniKeyGo]
      have hpos : (posAt s.length j).pos = j := ol_pos_lt _ (by omega)
      rw [Nat.add_zero] at heq
      simp only [mkContext_text, hpos, heq]
      simp
  | succ m ih =>
    intro f j hf hj hpl heq
    cases f with
    | zero => omega
    | succ f =>
      obtain ⟨hws0, h61, h59, h35⟩ := by
        have := hpl 0 (by omega)
        rwa [Nat.add_zero] at this
      have hpos : (posAt s.length j).pos = j := ol_pos_lt _ (by omega)
      have hle := ol_atLineEnd h (E := E) j
      have hmf := ol_moveForwardInLine h (E := E) j
      have hne : ¬ (j + 1 = s.length) := by omega
      have hj1 : j + 1 < s.length := by omega
      rw [iniKeyGo]
      simp only [mkContext_text, hpos, hle, hmf]
      simp only [show (charAt s j == 61) = false by simpa using h61,
        show (charAt s j == 59) = false by simpa using h59,
        show (charAt s j == 35) = false by simpa using h35,
        hne, decide_eq_false hne, hws0, Bool.false_eq_true, if_false,
        Bool.or_self, hj1, if_true, decide_eq_true hj1]
      rw [ih f (j + 1) (by omega) (by omega) (fun l hl => by
        have := hpl (l + 1) (by omega)
        rwa [show j + 1 + l = j + (l + 1) by omega])
        (by rwa [show j + 1 + m = j + (m + 1) by omega])]
      rw [show j + 1 + m = j + (m + 1) by omega]
      simp

/-- The unquoted-value scanner walks over a block of non-comment bytes
whose last byte is not whitespace; afterwards the trailing-whitespace
marker is back at the start position. -/
theorem iniValueGo_block (h : splitLines s = [⟨0, s.length, E⟩])
    (startP : PositionInText) :
    ∀ (m f j : Nat) (wsp : PositionInText), 0 < m → j + m < s.length →
      (∀ l, l < m → charAt s (j + l) ≠ 59 ∧ charAt s (j + l) ≠ 35) →
      isspace (charAt s (j + m - 1)) = false →
      iniValueGo (mkContext s) (m + f) startP wsp (posAt s.length j) =
        iniValueGo (mkContext s) f startP startP (posAt s.length (j + m)) := by
  intro m
  induction m with
  | zero => intro f j wsp hm; omega
  | succ m ih =>
    intro f j wsp _ hj hcl hlast
    obtain ⟨h59, h35⟩ := by have := hcl 0 (by omega); rwa [Nat.add_zero] at this
    have hpos : (posAt s.length j).pos = j := ol_pos_lt _ (by omega)
    have hmf := ol_moveForwardInLine h (E := E) j
    have hj1 : j + 1 < s.length := by omega
    rw [show m + 1 + f = (m + f) + 1 by omega, iniValueGo]
    simp only [mkContext_text, hpos, hmf]
    simp only [show (charAt s j == 59) = false by simpa using h59,
      show (charAt s j == 35) = false by simpa using h35, Bool.or_self,
      Bool.false_eq_true, if_false, hj1, if_true, decide_eq_true hj1]
    norm_num
    cases m with
    | zero =>
      have hns : isspace (charAt s j) = false := by
        simpa using hlast
      simp [hns]
    | succ m =>
      rw [ih f (j + 1) _ (by omega) (by omega) (fun l hl => by
        have := hcl (l + 1) (by omega)
        rwa [show j + 1 + l = j + (l + 1) by omega]) (by
        have : j + 1 + (m + 1) - 1 = j + (m + 1 + 1) - 1 := by omega
        rwa [this])]
      rw [show j + 1 + (m + 1) = j + (m + 1 + 1) by omega]

/-- The unquoted-value scanner preserves a pending trailing-whitespace
marker across a whitespace run that reaches the end of the line, and
stops on the line's last character. -/
theorem iniValueGo_keep_to_end (h : splitLines s = [⟨0, s.length, E⟩])
    (startP : PositionInText) :
    ∀ (m f j : Nat) (wsp : PositionInText), wsp.pos ≠ startP.pos →
      j + m + 1 = s.length →
      (∀ l, l ≤ m → isspace (charAt s (j + l)) = true) →
      m < f →
      iniValueGo (mkContext s) f startP wsp (posAt s.length j) =
        (wsp, posAt s.length (s.length - 1)) := by
  intro m
  induction m with
  | zero =>
    intro f j wsp hw hj hws hf
    cases f with
    | zero => omega
    | succ f =>
      have hs0 : isspace (charAt s j) = true := by
        have := hws 0 (by omega); rwa [Nat.add_zero] at this
      obtain ⟨h59, h35, _, _, _⟩ := isspace_small hs0
      have hpos : (posAt s.length j).pos = j := ol_pos_lt _ (by omega)
      have hmf := ol_moveForwardInLine h (E := E) j
      have hne : ¬ (j + 1 < s.length) := by omega
      rw [iniValueGo]
      simp only [mkContext_text, hpos, hmf]
      simp only [show (charAt s j == 59) = false by simpa using h59,
        show (charAt s j == 35) = false by simpa using h35, Bool.or_self,
        Bool.false_eq_true, if_false, hs0, if_true, hne,
        decide_eq_false hne]
      have hwn : (wsp.pos == startP.pos) = false := by simpa using hw
      simp only [hwn, Bool.false_eq_true, if_false]
      have : j = s.length - 1 := by omega
      rw [this]
      simp
  | succ m ih =>
    intro f j wsp hw hj hws hf
    cases f with
    | zero => omega
    | succ f =>
      have hs0 : isspace (charAt s j) = true := by
        have := hws 0 (by omega); rwa [Nat.add_zero] at this
      obtain ⟨h59, h35, _, _, _⟩ := isspace_small hs0
      have hpos : (posAt s.length j).pos = j := ol_pos_lt _ (by omega)
      have hmf := ol_moveForwardInLine h (E := E) j
      have hj1 : j + 1 < s.length := by omega
      rw [iniValueGo]
      simp only [mkContext_text, hpos, hmf]
      simp only [show (charAt s j == 59) = false by simpa using h59,
        show (charAt s j == 35) = false by simpa using h35, Bool.or_self,
        Bool.false_eq_true, if_false, hs0, if_true, hj1,
        decide_eq_true hj1]
      have hwn : (wsp.pos == startP.pos) = false := by simpa using hw
      simp only [hwn, Bool.false_eq_true, if_false]
      exact ih f (j + 1) wsp hw (by omega) (fun l hl => by
        have := hws (l + 1) (by omega)
        rwa [show j + 1 + l = j + (l + 1) by omega]) (by omega)

/-- The unquoted-value scanner preserves a pending trailing-whitespace
marker across a whitespace run and breaks on a comment marker. -/
theorem iniValueGo_keep_to_comment (h : splitLines s = [⟨0, s.length, E⟩])
    (startP : PositionInText) :
    ∀ (m f j : Nat) (wsp : PositionInText), wsp.pos ≠ startP.pos →
      j + m < s.length →
      (∀ l, l < m → isspace (charAt s (j + l)) = true) →
      (charAt s (j + m) = 59 ∨ charAt s (j + m) = 35) →
      m < f →
      iniValueGo (mkContext s) f startP wsp (posAt s.length j) =
        (wsp, posAt s.length (j + m)) := by
  intro m
  induction m with
  | zero =>
    intro f j wsp hw hj hws hcm hf
    cases f with
    | zero => omega
    | succ f =>
      have hpos : (posAt s.length j).pos = j := ol_pos_lt _ (by omega)
      rw [iniValueGo]
      simp only [mkContext_text, hpos]
      rw [Nat.add_zero] at hcm
      rcases hcm with hcm | hcm <;> simp [hcm]
  | succ m ih =>
    intro f j wsp hw hj hws hcm hf
    cases f with
    | zero => omega
    | succ f =>
      have hs0 : isspace (charAt s j) = true := by
        have := hws 0 (by omega); rwa [Nat.add_zero] at this
      obtain ⟨h59, h35, _, _, _⟩ := isspace_small hs0
      have hpos : (posAt s.length j).pos = j := ol_pos_lt _ (by omega)
      have hmf := ol_moveForwardInLine h (E := E) j
      have hj1 : j + 1 < s.length := by omega
      rw [iniValueGo]
      simp only [mkContext_text, hpos, hmf]
      simp only [show (charAt s j == 59) = false by simpa using h59,
        show (charAt s j == 35) = false by simpa using h35, Bool.or_self,
        Bool.false_eq_true, if_false, hs0, if_true, hj1,
        decide_eq_true hj1]
      have hwn : (wsp.pos == startP.pos) = false := by simpa using hw
      simp only [hwn, Bool.false_eq_true, if_false]
      rw [ih f (j + 1) wsp hw (by omega) (fun l hl => by
        have := hws (l + 1) (by omega)
        rwa [show j + 1 + l = j + (l + 1) by omega])
        (by rwa [show j + 1 + m = j + (m + 1) by omega]) (by omega)]
      rw [show j + 1 + m = j + (m + 1) by omega]
      simp

/-- Starting on a whitespace run (with the start marker strictly before
it) that extends to the end of the line, the value scanner records the
run's start as the trailing-whitespace position and stops on the line's
last character. -/
theorem iniValueGo_ws_to_end (h : splitLines s = [⟨0, s.length, E⟩])
    (startP : PositionInText) :
    ∀ (m f j : Nat), startP.pos ≠ j → j + m + 1 = s.length →
      (∀ l, l ≤ m → isspace (charAt s (j + l)) = true) →
      m + 1 < f →
      iniValueGo (mkContext s) f startP startP (posAt s.length j) =
        (posAt s.length j, posAt s.length (s.length - 1)) := by
  intro m f j hne hj hws hf
  cases f with
  | zero => omega
  | succ f =>
    have hs0 : isspace (charAt s j) = true := by
      have := hws 0 (by omega); rwa [Nat.add_zero] at this
    obtain ⟨h59, h35, _, _, _⟩ := isspace_small hs0
    have hpos : (posAt s.length j).pos = j := ol_pos_lt _ (by omega)
    have hmf := ol_moveForwardInLine h (E := E) j
    rw [iniValueGo]
    simp only [mkContext_text, hpos, hmf]
    simp only [show (charAt s j == 59) = false by simpa using h59,
      show (charAt s j == 35) = false by simpa using h35, Bool.or_self,
      Bool.false_eq_true, if_false, hs0, if_true, beq_self_eq_true]
    have hxp : ((posAt s.length j).pos == startP.pos) = false := by
      rw [hpos]
      exact beq_eq_false_iff_ne.mpr (fun e => hne e.symm)
    cases m with
    | zero =>
      have hn1 : ¬ (j + 1 < s.length) := by omega
      simp only [hn1, decide_eq_false hn1, Bool.false_eq_true, if_false,
        hxp]
      rw [show j = s.length - 1 by omega]
      simp
    | succ m =>
      have hj1 : j + 1 < s.length := by omega
      simp only [hj1, if_true, decide_eq_true hj1]
      norm_num
      exact iniValueGo_keep_to_end h startP m f (j + 1) (posAt s.length j)
        (by rw [hpos]; exact fun e => hne e.symm) (by omega)
        (fun l hl => by
          have := hws (l + 1) (by omega)
          rwa [show j + 1 + l = j + (l + 1) by omega]) (by omega)

/-- Starting on a whitespace run (with the start marker strictly before
it) followed by a comment marker on the same line, the value scanner
records the run's start and stops on the comment marker. -/
theorem iniValueGo_ws_to_comment (h : splitLines s = [⟨0, s.length, E⟩])
    (startP : PositionInText) :
    ∀ (m f j : Nat), 0 < m → startP.pos ≠ j → j + m < s.length →
      (∀ l, l < m → isspace (charAt s (j + l)) = true) →
      (charAt s (j + m) = 59 ∨ charAt s (j + m) = 35) →
      m < f →
      iniValueGo (mkContext s) f startP startP (posAt s.length j) =
        (posAt s.length j, posAt s.length (j + m)) := by
  intro m f j hm hne hj hws hcm hf
  cases f with
  | zero => omega
  | succ f =>
    have hs0 : isspace (charAt s j) = true := by
      have := hws 0 (by omega); rwa [Nat.add_zero] at this
    obtain ⟨h59, h35, _, _, _⟩ := isspace_small hs0
    have hpos : (posAt s.length j).pos = j := ol_pos_lt _ (by omega)
    have hmf := ol_moveForwardInLine h (E := E) j
    rw [iniValueGo]
    simp only [mkContext_text, hpos, hmf]
    simp only [show (charAt s j == 59) = false by simpa using h59,
      show (charAt s j == 35) = false by simpa using h35, Bool.or_self,
      Bool.false_eq_true, if_false, hs0, if_true, beq_self_eq_true]
    have hj1 : j + 1 < s.length := by omega
    simp only [hj1, if_true, decide_eq_true hj1]
    norm_num
    cases m with
    | zero => omega
    | succ m =>
      rw [iniValueGo_keep_to_comment h startP m f (j + 1) (posAt s.length j)
        (by rw [hpos]; exact fun e => hne e.symm) (by omega)
        (fun l hl => by
          have := hws (l + 1) (by omega)
          rwa [show j + 1 + l = j + (l + 1) by omega])
        (by rwa [show j + 1 + m = j + (m + 1) by omega]) (by omega)]
      rw [show j + 1 + m = j + (m + 1) by omega]

/-- A comment marker under the cursor stops the value scanner at once. -/
theorem iniValueGo_at_comment (h : splitLines s = [⟨0, s.length, E⟩])
    (startP wsp : PositionInText) (f j : Nat) (hj : j < s.length)
    (hcm : charAt s j = 59 ∨ charAt s j = 35) (hf : 0 < f) :
    iniValueGo (mkContext s) f startP wsp (posAt s.length j) =
      (wsp, posAt s.length j) := by
  cases f with
  | zero => omega
  | succ f =>
    have hpos : (posAt s.length j).pos = j := ol_pos_lt _ hj
    rw [iniValueGo]
    simp only [mkContext_text, hpos]
    rcases hcm with hcm | hcm <;> simp [hcm]

theorem charAt_append_left (pre post : Str) (l : Nat) (hl : l < pre.length) :
    charAt (pre ++ post) l = charAt pre l := by
  rw [charAt, charAt, List.getD_eq_getElem _ 0 (by simpa using Nat.lt_of_lt_of_le hl (by simp)),
    List.getD_eq_getElem _ 0 hl]
  exact List.getElem_append_left hl

theorem charAt_append_right (pre post : Str) (l : Nat) (hl : l < post.length) :
    charAt (pre ++ post) (pre.length + l) = charAt post l := by
  rw [charAt, charAt, List.getD_eq_getElem _ 0 (by simp; omega),
    List.getD_eq_getElem _ 0 hl]
  rw [List.getElem_append_right (by omega)]
  congr 1
  omega

theorem charAt_mem (t : Str) (l : Nat) (hl : l < t.length) :
    charAt t l ∈ t := by
  rw [charAt, List.getD_eq_getElem t 0 hl]
  exact List.getElem_mem hl

/-- The unquoted-key parser on a line starting with a plain key followed
by `=` returns the key bytes with the cursor on the `=`. -/
theorem iniKey_plain_result (h : splitLines s = [⟨0, s.length, E⟩])
    (klen : Nat) (hkl : 0 < klen) (hklt : klen < s.length)
    (hk : ∀ l, l < klen → isspace (charAt s l) = false ∧
      charAt s l ≠ 61 ∧ charAt s l ≠ 59 ∧ charAt s l ≠ 35)
    (heq : charAt s klen = 61) :
    iniParseNoQuotedKeyString (mkContext s) (posAt s.length 0) =
      some (s.take klen, posAt s.length klen) := by
  have hn : 0 < s.length := oneLine_pos h
  have hkg := iniKeyGo_plain h (posAt s.length 0) klen
    ((mkContext s).text.length + 2) 0
    (by rw [mkContext_text]; omega) (by omega)
    (fun l hl => by have := hk l hl; rwa [Nat.zero_add])
    (by rwa [Nat.zero_add])
  rw [Nat.zero_add] at hkg
  rw [iniParseNoQuotedKeyString, hkg]
  have hp0 : (posAt s.length 0).pos = 0 := ol_pos_lt _ hn
  have hpk : (posAt s.length klen).pos = klen := ol_pos_lt _ hklt
  have hne : ((posAt s.length 0).pos == (posAt s.length klen).pos) = false := by
    rw [hp0, hpk]
    exact beq_eq_false_iff_ne.mpr (by omega)
  simp only [hne, Bool.false_eq_true, if_false, beq_self_eq_true, if_true]
  rw [ol_sliceTo 0 klen hn hklt]
  simp

/-- Function `ini::_parseEntry` on a one-line text `key=` optionally
followed by whitespace only: the value is the empty string; the cursor
ends on the `=` when nothing follows it, else on the line's last
character. -/
theorem iniEntry_empty (h : splitLines s = [⟨0, s.length, E⟩])
    (klen : Nat) (hkl : 0 < klen) (hklt : klen < s.length)
    (h34 : charAt s 0 ≠ 34)
    (hk : ∀ l, l < klen → isspace (charAt s l) = false ∧
      charAt s l ≠ 61 ∧ charAt s l ≠ 59 ∧ charAt s l ≠ 35)
    (heq : charAt s klen = 61)
    (hws : ∀ l, klen < l → l < s.length → isspace (charAt s l) = true) :
    iniParseEntry (mkContext s) (posAt s.length 0) =
      some ((s.take klen, []),
        posAt s.length
          (if klen + 1 = s.length then klen else s.length - 1)) := by
  have hn : 0 < s.length := oneLine_pos h
  have hp0 : (posAt s.length 0).pos = 0 := ol_pos_lt _ hn
  rw [iniParseEntry]
  simp only [mkContext_text, hp0,
    show (charAt s 0 == 34) = false from beq_eq_false_iff_ne.mpr h34,
    Bool.false_eq_true, if_false]
  rw [iniKey_plain_result h klen hkl hklt hk heq]
  have hmf := ol_moveForwardInLine h (E := E) klen
  by_cases hend : klen + 1 = s.length
  · have hlt : ¬ (klen + 1 < s.length) := by omega
    simp only [hmf, hlt, if_false, decide_eq_false hlt, Bool.not_false,
      if_true, hend]
    simp [hend]
  · have hlt : klen + 1 < s.length := by omega
    simp only [hmf, hlt, if_true, decide_eq_true hlt, Bool.not_true,
      Bool.false_eq_true, if_false]
    have hskip : iniSkipWs (mkContext s) (posAt s.length (klen + 1)) =
        posAt s.length (s.length - 1) := by
      rw [iniSkipWs, mkContext_text]
      exact iniSkipWsGo_to_end h (s.length - klen - 2) (s.length + 2)
        (klen + 1) (by omega) (by omega)
        (fun l hl => hws (klen + 1 + l) (by omega) (by omega))
    rw [hskip]
    have hle := ol_atLineEnd h (E := E) (s.length - 1)
    have hpe : (posAt s.length (s.length - 1)).pos = s.length - 1 :=
      ol_pos_lt _ (by omega)
    have hwe : isspace (charAt s (s.length - 1)) = true :=
      hws (s.length - 1) (by omega) (by omega)
    simp only [hle, hpe, hwe, Bool.and_true,
      show s.length - 1 + 1 = s.length by omega, decide_True, if_true, hend]
    simp [hend]

/-- Function `ini::_parseEntry` on a one-line text `key=value` with a
trailing whitespace run reaching the end of the line: the value is the
slice between `=` and the whitespace run (trailing whitespace trimmed,
interior bytes kept verbatim), and the cursor ends on the line's last
character. -/
theorem iniEntry_value_eol (h : splitLines s = [⟨0, s.length, E⟩])
    (klen vlen wlen : Nat) (hkl : 0 < klen) (hvl : 0 < vlen) (hwl : 0 < wlen)
    (hlen : klen + 1 + vlen + wlen = s.length)
    (h34 : charAt s 0 ≠ 34)
    (hk : ∀ l, l < klen → isspace (charAt s l) = false ∧
      charAt s l ≠ 61 ∧ charAt s l ≠ 59 ∧ charAt s l ≠ 35)
    (heq : charAt s klen = 61)
    (hv : ∀ l, l < vlen →
      charAt s (klen + 1 + l) ≠ 59 ∧ charAt s (klen + 1 + l) ≠ 35)
    (hv0 : isspace (charAt s (klen + 1)) = false)
    (hv34 : charAt s (klen + 1) ≠ 34)
    (hvlast : isspace (charAt s (klen + vlen)) = false)
    (hw : ∀ l, l < wlen → isspace (charAt s (klen + 1 + vlen + l)) = true) :
    iniParseEntry (mkContext s) (posAt s.length 0) =
      some ((s.take klen, (s.drop (klen + 1)).take vlen),
        posAt s.length (s.length - 1)) := by
  have hn : 0 < s.length := oneLine_pos h
  have hp0 : (posAt s.length 0).pos = 0 := ol_pos_lt _ hn
  rw [iniParseEntry]
  simp only [mkContext_text, hp0,
    show (charAt s 0 == 34) = false from beq_eq_false_iff_ne.mpr h34,
    Bool.false_eq_true, if_false]
  rw [iniKey_plain_result h klen hkl (by omega) hk heq]
  have hmf := ol_moveForwardInLine h (E := E) klen
  have hlt : klen + 1 < s.length := by omega
  simp only [hmf, hlt, if_true, decide_eq_true hlt, Bool.not_true,
    Bool.false_eq_true, if_false]
  have hv59 : charAt s (klen + 1) ≠ 59 := by
    have := (hv 0 hvl).1; rwa [Nat.add_zero] at this
  have hv35 : charAt s (klen + 1) ≠ 35 := by
    have := (hv 0 hvl).2; rwa [Nat.add_zero] at this
  have hskip : iniSkipWs (mkContext s) (posAt s.length (klen + 1)) =
      posAt s.length (klen + 1) := by
    rw [iniSkipWs]
    exact iniSkipWsGo_noop h (klen + 1) hlt (Or.inr ⟨hv0, hv59, hv35⟩) _
  rw [hskip]
  have hle := ol_atLineEnd h (E := E) (klen + 1)
  have hpk1 : (posAt s.length (klen + 1)).pos = klen + 1 := ol_pos_lt _ hlt
  simp only [hle, hpk1, hv0, Bool.and_false, Bool.false_eq_true, if_false,
    show (charAt s (klen + 1) == 34) = false from beq_eq_false_iff_ne.mpr hv34]
  rw [iniParseNoQuotedValueString]
  simp only [mkContext_text]
  rw [show s.length + 2 = vlen + (s.length + 2 - vlen) from by omega]
  rw [iniValueGo_block h (posAt s.length (klen + 1)) vlen
    (s.length + 2 - vlen) (klen + 1) (posAt s.length (klen + 1)) hvl
    (by omega) (fun l hl => hv l hl)
    (by rwa [show klen + 1 + vlen - 1 = klen + vlen from by omega])]
  rw [iniValueGo_ws_to_end h (posAt s.length (klen + 1)) (wlen - 1)
    (s.length + 2 - vlen) (klen + 1 + vlen)
    (by rw [hpk1]; omega) (by omega)
    (fun l hl => hw l (by omega)) (by omega)]
  have hq : (posAt s.length (klen + 1 + vlen)).pos = klen + 1 + vlen :=
    ol_pos_lt _ (by omega)
  have hvv : (posAt s.length (klen + 1 + vlen)).valid = true := by
    rw [ol_valid]
    simp
    omega
  have hnq : ((posAt s.length (klen + 1 + vlen)).pos ==
      (posAt s.length (klen + 1)).pos) = false := by
    rw [hq, hpk1]
    exact beq_eq_false_iff_ne.mpr (by omega)
  simp only [hvv, hnq, Bool.true_and, Bool.false_eq_true, if_false]
  rw [ol_sliceTo (klen + 1) (klen + 1 + vlen) hlt (by omega)]
  rw [show klen + 1 + vlen - (klen + 1) = vlen from by omega]
  simp

/-- Function `ini::_parseEntry` on a one-line text `key=value` with an
optional whitespace run and then a comment marker: the value is the
slice between `=` and the whitespace run (trailing whitespace before
the comment trimmed), and the cursor ends on the comment marker. -/
theorem iniEntry_value_comment (h : splitLines s = [⟨0, s.length, E⟩])
    (klen vlen wlen : Nat) (hkl : 0 < klen) (hvl : 0 < vlen)
    (hlen : klen + 1 + vlen + wlen < s.length)
    (hcm : charAt s (klen + 1 + vlen + wlen) = 59 ∨
      charAt s (klen + 1 + vlen + wlen) = 35)
    (h34 : charAt s 0 ≠ 34)
    (hk : ∀ l, l < klen → isspace (charAt s l) = false ∧
      charAt s l ≠ 61 ∧ charAt s l ≠ 59 ∧ charAt s l ≠ 35)
    (heq : charAt s klen = 61)
    (hv : ∀ l, l < vlen →
      charAt s (klen + 1 + l) ≠ 59 ∧ charAt s (klen + 1 + l) ≠ 35)
    (hv0 : isspace (charAt s (klen + 1)) = false)
    (hv34 : charAt s (klen + 1) ≠ 34)
    (hvlast : isspace (charAt s (klen + vlen)) = false)
    (hw : ∀ l, l < wlen → isspace (charAt s (klen + 1 + vlen + l)) = true) :
    iniParseEntry (mkContext s) (posAt s.length 0) =
      some ((s.take klen, (s.drop (klen + 1)).take vlen),
        posAt s.length (klen + 1 + vlen + wlen)) := by
  have hn : 0 < s.length := oneLine_pos h
  have hp0 : (posAt s.length 0).pos = 0 := ol_pos_lt _ hn
  rw [iniParseEntry]
  simp only [mkContext_text, hp0,
    show (charAt s 0 == 34) = false from beq_eq_false_iff_ne.mpr h34,
    Bool.false_eq_true, if_false]
  rw [iniKey_plain_result h klen hkl (by omega) hk heq]
  have hmf := ol_moveForwardInLine h (E := E) klen
  have hlt : klen + 1 < s.length := by omega
  simp only [hmf, hlt, if_true, decide_eq_true hlt, Bool.not_true,
    Bool.false_eq_true, if_false]
  have hv59 : charAt s (klen + 1) ≠ 59 := by
    have := (hv 0 hvl).1; rwa [Nat.add_zero] at this
  have hv35 : charAt s (klen + 1) ≠ 35 := by
    have := (hv 0 hvl).2; rwa [Nat.add_zero] at this
  have hskip : iniSkipWs (mkContext s) (posAt s.length (klen + 1)) =
      posAt s.length (klen + 1) := by
    rw [iniSkipWs]
    exact iniSkipWsGo_noop h (klen + 1) hlt (Or.inr ⟨hv0, hv59, hv35⟩) _
  rw [hskip]
  have hle := ol_atLineEnd h (E := E) (klen + 1)
  have hpk1 : (posAt s.length (klen + 1)).pos = klen + 1 := ol_pos_lt _ hlt
  simp only [hle, hpk1, hv0, Bool.and_false, Bool.false_eq_true, if_false,
    show (charAt s (klen + 1) == 34) = false from beq_eq_false_iff_ne.mpr hv34]
  rw [iniParseNoQuotedValueString]
  simp only [mkContext_text]
  rw [show s.length + 2 = vlen + (s.length + 2 - vlen) from by omega]
  rw [iniValueGo_block h (posAt s.length (klen + 1)) vlen
    (s.length + 2 - vlen) (klen + 1) (posAt s.length (klen + 1)) hvl
    (by omega) (fun l hl => hv l hl)
    (by rwa [show klen + 1 + vlen - 1 = klen + vlen from by omega])]
  rcases Nat.eq_zero_or_pos wlen with hw0 | hwpos
  · subst hw0
    rw [Nat.add_zero] at hcm
    rw [iniValueGo_at_comment h (posAt s.length (klen + 1))
      (posAt s.length (klen + 1)) (s.length + 2 - vlen) (klen + 1 + vlen)
      (by omega) hcm (by omega)]
    simp only [beq_self_eq_true, Bool.true_and]
    have hvv : (posAt s.length (klen + 1)).valid = true := by
      rw [ol_valid]
      simp
      omega
    simp only [hvv, Bool.true_and, beq_self_eq_true, if_true]
    rw [ol_sliceTo (klen + 1) (klen + 1 + vlen) hlt (by omega)]
    rw [show klen + 1 + vlen - (klen + 1) = vlen from by omega]
    simp
  · rw [iniValueGo_ws_to_comment h (posAt s.length (klen + 1)) wlen
      (s.length + 2 - vlen) (klen + 1 + vlen) hwpos
      (by rw [hpk1]; omega) (by omega)
      (fun l hl => hw l hl) hcm (by omega)]
    have hq : (posAt s.length (klen + 1 + vlen)).pos = klen + 1 + vlen :=
      ol_pos_lt _ (by omega)
    have hvv : (posAt s.length (klen + 1 + vlen)).valid = true := by
      rw [ol_valid]
      simp
      omega
    have hnq : ((posAt s.length (klen + 1 + vlen)).pos ==
        (posAt s.length (klen + 1)).pos) = false := by
      rw [hq, hpk1]
      exact beq_eq_false_iff_ne.mpr (by omega)
    simp only [hvv, hnq, Bool.true_and, Bool.false_eq_true, if_false]
    rw [ol_sliceTo (klen + 1) (klen + 1 + vlen) hlt (by omega)]
    rw [show klen + 1 + vlen - (klen + 1) = vlen from by omega]
    simp

/-- Document loop of `ini::parse` on a one-line text whose first byte is
not whitespace, a comment marker or `[`: the whole parse reduces to one
`_parseEntry` call whose key/value pair becomes the only entry of the
resulting root object. -/
theorem iniParse_one_entry (h : splitLines s = [⟨0, s.length, E⟩])
    (k v : Str) (e : Nat)
    (hch : isspace (charAt s 0) = false ∧ charAt s 0 ≠ 59 ∧
      charAt s 0 ≠ 35 ∧ charAt s 0 ≠ 91)
    (he : iniParseEntry (mkContext s) (posAt s.length 0) =
      some ((k, v), posAt s.length e)) :
    iniParse s = .object [(k, .value (.string v))] := by
  have hn : 0 < s.length := oneLine_pos h
  have hp0 : (⟨true, 0, 0, 0⟩ : PositionInText) = posAt s.length 0 := by
    rw [posAt, if_pos hn]
  have hemp : s.isEmpty = false := by
    cases s with
    | nil => simp at hn
    | cons c r => rfl
  rw [iniParse]
  simp only [hemp, Bool.false_eq_true, if_false]
  rw [show s.length + 2 = (s.length + 1) + 1 from rfl, hp0, iniParseLoop]
  have hskip : iniSkipWs (mkContext s) (posAt s.length 0) =
      posAt s.length 0 := by
    rw [iniSkipWs]
    exact iniSkipWsGo_noop h 0 hn (Or.inr ⟨hch.1, hch.2.1, hch.2.2.1⟩) _
  have hpp0 : (posAt s.length 0).pos = 0 := ol_pos_lt _ hn
  simp only [hskip, mkContext_text, hpp0, hch.1, Bool.and_false,
    Bool.false_eq_true, if_false,
    show (charAt s 0 == 91) = false from beq_eq_false_iff_ne.mpr hch.2.2.2]
  rw [he]
  simp only [iniInsertEntry, ValueTree.asObject, mapInsert]
  rw [ol_moveToNextLine h e]
  simp

end IniScan

section JsonScan

variable {s : Str} {E : Nat}

theorem charAt_of_slice {i m : Nat} {seg : Str}
    (hsl : (s.drop i).take m = seg) {l : Nat} (hl : l < m) :
    charAt s (i + l) = charAt seg l := by
  rw [charAt, charAt, ← hsl]
  simp only [List.getD, List.get?_eq_getElem?, List.getElem?_take, hl,
    if_true, List.getElem?_drop]

theorem slice_prefix {i m : Nat} {seg pre suff : Str}
    (hsl : (s.drop i).take m = seg) (hp : seg = pre ++ suff)
    (hq : pre.length ≤ m) :
    (s.drop i).take pre.length = pre := by
  have h1 : (s.drop i).take pre.length =
      ((s.drop i).take m).take pre.length := by
    rw [List.take_take, Nat.min_eq_left hq]
  rw [h1, hsl, hp, List.take_left]

theorem slice_shift {i m : Nat} {seg : Str}
    (hsl : (s.drop i).take m = seg) (j : Nat) :
    (s.drop (i + j)).take (m - j) = seg.drop j := by
  rw [← hsl, List.drop_take, List.drop_drop]

theorem ol_moveForwardN (h : splitLines s = [⟨0, s.length, E⟩]) :
    ∀ (k i : Nat), i + k ≤ s.length →
      (moveForwardN (mkContext s) k (posAt s.length i)).2 =
        posAt s.length (i + k) := by
  intro k
  induction k with
  | zero => intro i _; rfl
  | succ k ih =>
    intro i hik
    rw [moveForwardN]
    rw [ol_moveForward h i]
    by_cases h1 : i + 1 < s.length
    · simp only [decide_eq_true h1, if_true]
      rw [ih (i + 1) (by omega)]
      congr 1
      omega
    · have hk : k = 0 := by omega
      subst hk
      simp only [decide_eq_false h1, Bool.false_eq_true, if_false]

/-- `json::_skipWhitespace` does not move off a byte that is neither
whitespace nor a comment opener, nor off the end of the input. -/
theorem jsonSkipWs_noop (h : splitLines s = [⟨0, s.length, E⟩]) (i : Nat)
    (hc : s.length ≤ i ∨
      (isspace (charAt s i) = false ∧ charAt s i ≠ 47)) :
    ∀ f, jsonSkipWhitespaceGo (mkContext s) f (posAt s.length i) =
      posAt s.length i := by
  intro f
  cases f with
  | zero => rfl
  | succ f =>
    have hmf := ol_moveForward h (E := E) i
    by_cases hi : i < s.length
    · obtain ⟨hws, h47⟩ : isspace (charAt s i) = false ∧ charAt s i ≠ 47 :=
        hc.resolve_left (by omega)
      have hpos : (posAt s.length i).pos = i := ol_pos_lt _ hi
      rw [jsonSkipWhitespaceGo, jsonParseWhitespaceStep]
      simp only [mkContext_text, hpos, hws, Bool.not_false, Bool.or_true,
        if_true, Bool.false_eq_true, if_false]
      simp [jsonParseCommentStep, mkContext_text, hpos, h47]
    · have hv : (posAt s.length i).valid = false := by
        rw [ol_valid]
        simp
        omega
      rw [jsonSkipWhitespaceGo, jsonParseWhitespaceStep]
      simp only [hv, Bool.not_false, Bool.true_or, if_true,
        Bool.false_eq_true, if_false]
      rw [jsonParseCommentStep]
      have h1 : ¬ (i + 1 < s.length) := by omega
      simp only [hmf, decide_eq_false h1, Bool.not_false, Bool.true_or,
        if_true]
      simp

/-- `scanDigits` consumes exactly a digit run bounded by a non-digit
byte or the end of the input. -/
theorem scanDigits_run (h : splitLines s = [⟨0, s.length, E⟩]) :
    ∀ (r f j : Nat), r < f → j + r ≤ s.length →
      (∀ l, l < r → isdigit (charAt s (j + l)) = true) →
      (j + r = s.length ∨ isdigit (charAt s (j + r)) = false) →
      scanDigits (mkContext s) f (posAt s.length j) =
        posAt s.length (j + r) := by
  intro r
  induction r with
  | zero =>
    intro f j hf hj hds hstop
    cases f with
    | zero => omega
    | succ f =>
      rw [scanDigits]
      rcases hstop with hend | hnd
      · have hv : (posAt s.length j).valid = false := by
          rw [ol_valid]
          simp
          omega
        simp [hv]
      · rw [Nat.add_zero] at hnd
        by_cases hj2 : j < s.length
        · have hpos : (posAt s.length j).pos = j := ol_pos_lt _ hj2
          simp [mkContext_text, hpos, hnd]
        · have hv : (posAt s.length j).valid = false := by
            rw [ol_valid]
            simp
            omega
          simp [hv]
  | succ r ih =>
    intro f j hf hj hds hstop
    cases f with
    | zero => omega
    | succ f =>
      have hj2 : j < s.length := by omega
      have hpos : (posAt s.length j).pos = j := ol_pos_lt _ hj2
      have hv : (posAt s.length j).valid = true := by
        rw [ol_valid]
        simp [hj2]
      have hd0 : isdigit (charAt s j) = true := by
        have := hds 0 (by omega); rwa [Nat.add_zero] at this
      rw [scanDigits]
      simp only [hv, mkContext_text, hpos, hd0, Bool.and_self, if_true]
      rw [ol_moveForward h j]
      rw [ih f (j + 1) (by omega) (by omega)
        (fun l hl => by
          have := hds (l + 1) (by omega)
          rwa [show j + 1 + l = j + (l + 1) by omega])
        (by rcases hstop with h1 | h1
            · exact Or.inl (by omega)
            · exact Or.inr (by rwa [show j + 1 + r = j + (r + 1) by omega]))]
      rw [show j + 1 + r = j + (r + 1) by omega]

theorem charAt_cons_zero (c : Nat) (t : Str) : charAt (c :: t) 0 = c := rfl

theorem charAt_cons_succ (c : Nat) (t : Str) (l : Nat) :
    charAt (c :: t) (l + 1) = charAt t l := rfl

theorem escapeString_cons (c : Nat) (r : Str) :
    escapeString (c :: r) = escapeChar c ++ escapeString r := rfl

theorem escapeChar_raw {c : Nat} (h34 : c ≠ 34) (h92 : c ≠ 92)
    (h8 : c ≠ 8) (h12 : c ≠ 12) (h10 : c ≠ 10) (h13 : c ≠ 13) (h9 : c ≠ 9) :
    escapeChar c = [c] := by
  simp [escapeChar, h34, h92, h8, h12, h10, h13, h9]

/-- One two-byte escape step of the quoted-string loop. -/
theorem qsl_esc2 (h : splitLines s = [⟨0, s.length, E⟩]) (i c d : Nat)
    (hi : i + 1 < s.length) (hi2 : i + 2 < s.length)
    (hesc : charAt s i = 92) (hc : charAt s (i + 1) = c)
    (hcd : (c = 34 ∧ d = 34) ∨ (c = 92 ∧ d = 92) ∨ (c = 47 ∧ d = 47) ∨
      (c = 98 ∧ d = 8) ∨ (c = 102 ∧ d = 12) ∨ (c = 110 ∧ d = 10) ∨
      (c = 114 ∧ d = 13) ∨ (c = 116 ∧ d = 9))
    (f : Nat) (acc : Str) :
    quotedStringLoop (mkContext s) (f + 1) (posAt s.length i) acc =
      quotedStringLoop (mkContext s) f (posAt s.length (i + 2))
        (acc ++ [d]) := by
  have hpos : (posAt s.length i).pos = i := ol_pos_lt _ (by omega)
  have hle := ol_atLineEnd h (E := E) i
  have hmf := ol_moveForwardInLine h (E := E) i
  have hmf1 := ol_moveForwardInLine h (E := E) (i + 1)
  have hne : ¬ (i + 1 = s.length) := by omega
  have hp1 : (posAt s.length (i + 1)).pos = i + 1 := ol_pos_lt _ (by omega)
  have h12' : i + 1 + 1 < s.length := by omega
  rw [quotedStringLoop]
  simp only [mkContext_text, hpos, hesc, hle, hmf]
  simp only [show ((92 : Nat) != 34) = true by decide,
    show ((92 : Nat) == 92) = true by decide, hne, decide_eq_false hne,
    Bool.not_false, Bool.and_true, if_true, hi, decide_eq_true hi,
    if_true]
  simp only [hp1, hc]
  rw [hmf1]
  rcases hcd with hcd | hcd | hcd | hcd | hcd | hcd | hcd | hcd <;>
    obtain ⟨rfl, rfl⟩ := hcd <;>
    simp [h12', show i + 1 + 1 = i + 2 from by omega]

/-- The quoted-string loop run over the escaped rendering of `ss`
followed by a closing quote reconstructs `ss` exactly. -/
theorem qsl_escape (h : splitLines s = [⟨0, s.length, E⟩]) :
    ∀ (ss : Str) (i f : Nat) (acc : Str),
      (∀ l, l < (escapeString ss).length →
        charAt s (i + l) = charAt (escapeString ss) l) →
      charAt s (i + (escapeString ss).length) = 34 →
      i + (escapeString ss).length < s.length →
      (escapeString ss).length < f →
      quotedStringLoop (mkContext s) f (posAt s.length i) acc =
        some (acc ++ ss, posAt s.length (i + (escapeString ss).length)) := by
  intro ss
  induction ss with
  | nil =>
    intro i f acc hb hq hlt hf
    simp only [show escapeString ([] : Str) = [] from rfl, List.length_nil,
      Nat.add_zero] at hb hq hlt hf ⊢
    cases f with
    | zero => omega
    | succ f =>
      rw [qsl_exit i hlt hq]
      simp
  | cons c r ih =>
    intro i f acc hb hq hlt hf
    rw [escapeString_cons] at hb hq hlt hf ⊢
    have hclass : (∃ X, escapeChar c = [92, X] ∧
        ((X = 34 ∧ c = 34) ∨ (X = 92 ∧ c = 92) ∨ (X = 47 ∧ c = 47) ∨
          (X = 98 ∧ c = 8) ∨ (X = 102 ∧ c = 12) ∨ (X = 110 ∧ c = 10) ∨
          (X = 114 ∧ c = 13) ∨ (X = 116 ∧ c = 9))) ∨
        (escapeChar c = [c] ∧ c ≠ 34 ∧ c ≠ 92) := by
      by_cases h34 : c = 34
      · exact Or.inl ⟨34, by simp [escapeChar, h34], Or.inl ⟨rfl, h34⟩⟩
      by_cases h92 : c = 92
      · exact Or.inl ⟨92, by simp [escapeChar, h92],
          Or.inr (Or.inl ⟨rfl, h92⟩)⟩
      by_cases h8 : c = 8
      · exact Or.inl ⟨98, by simp [escapeChar, h8],
          Or.inr (Or.inr (Or.inr (Or.inl ⟨rfl, h8⟩)))⟩
      by_cases h12 : c = 12
      · exact Or.inl ⟨102, by simp [escapeChar, h12],
          Or.inr (Or.inr (Or.inr (Or.inr (Or.inl ⟨rfl, h12⟩))))⟩
      by_cases h10 : c = 10
      · exact Or.inl ⟨110, by simp [escapeChar, h10],
          Or.inr (Or.inr (Or.inr (Or.inr (Or.inr (Or.inl ⟨rfl, h10⟩)))))⟩
      by_cases h13 : c = 13
      · exact Or.inl ⟨114, by simp [escapeChar, h13],
          Or.inr (Or.inr (Or.inr (Or.inr (Or.inr (Or.inr
            (Or.inl ⟨rfl, h13⟩))))))⟩
      by_cases h9 : c = 9
      · exact Or.inl ⟨116, by simp [escapeChar, h9],
          Or.inr (Or.inr (Or.inr (Or.inr (Or.inr (Or.inr (Or.inr
            ⟨rfl, h9⟩))))))⟩
      · exact Or.inr ⟨escapeChar_raw h34 h92 h8 h12 h10 h13 h9, h34, h92⟩
    rcases hclass with ⟨X, hec, hpair⟩ | ⟨hec, hne34, hne92⟩
    · rw [hec] at hb hq hlt hf ⊢
      have hlen : ([92, X] ++ escapeString r).length =
          (escapeString r).length + 2 := by simp
      rw [hlen] at hq hlt hf
      cases f with
      | zero => omega
      | succ f =>
        have hb0 : charAt s i = 92 := by
          have := hb 0 (by rw [hlen]; omega)
          rwa [Nat.add_zero] at this
        have hb1 : charAt s (i + 1) = X := by
          have := hb 1 (by rw [hlen]; omega)
          exact this
        rw [qsl_esc2 h i X c (by omega) (by omega) hb0 hb1
          (by rcases hpair with hp | hp | hp | hp | hp | hp | hp | hp <;>
              obtain ⟨rfl, rfl⟩ := hp <;> decide)]
        rw [ih (i + 2) f (acc ++ [c])
          (fun l hl => by
            have := hb (l + 1 + 1) (by rw [hlen]; omega)
            rw [show i + (l + 1 + 1) = i + 2 + l from by omega] at this
            rwa [show charAt ([92, X] ++ escapeString r) (l + 1 + 1) =
              charAt (escapeString r) l from rfl] at this)
          (by rwa [show i + 2 + (escapeString r).length =
            i + ((escapeString r).length + 2) from by omega])
          (by omega) (by omega)]
        rw [show i + 2 + (escapeString r).length =
          i + ((escapeString r).length + 2) from by omega]
        simp
    · rw [hec] at hb hq hlt hf ⊢
      have hlen : ([c] ++ escapeString r).length =
          (escapeString r).length + 1 := by simp
      rw [hlen] at hq hlt hf
      cases f with
      | zero => omega
      | succ f =>
        have hb0 : charAt s i = c := by
          have := hb 0 (by rw [hlen]; omega)
          rwa [Nat.add_zero] at this
        rw [qsl_raw h i (by omega) (by rw [hb0]; exact hne34)
          (by rw [hb0]; exact hne92)]
        rw [hb0]
        rw [ih (i + 1) f (acc ++ [c])
          (fun l hl => by
            have := hb (l + 1) (by rw [hlen]; omega)
            rw [show i + (l + 1) = i + 1 + l from by omega] at this
            rwa [show charAt ([c] ++ escapeString r) (l + 1) =
              charAt (escapeString r) l from rfl] at this)
          (by rwa [show i + 1 + (escapeString r).length =
            i + ((escapeString r).length + 1) from by omega])
          (by omega) (by omega)]
        rw [show i + 1 + (escapeString r).length =
          i + ((escapeString r).length + 1) from by omega]
        simp

/-- `json::_parseString` over a quoted escaped rendering: returns the
decoded string with the cursor just past the closing quote. -/
theorem jsonParseString_dump (h : splitLines s = [⟨0, s.length, E⟩])
    (i : Nat) (ss : Str)
    (hb : ∀ l, l < (escapeString ss).length →
      charAt s (i + 1 + l) = charAt (escapeString ss) l)
    (hq1 : charAt s (i + 1 + (escapeString ss).length) = 34)
    (hlt : i + 1 + (escapeString ss).length < s.length) :
    jsonParseString (mkContext s) (posAt s.length i) =
      some (.value (.string ss),
        posAt s.length (i + 2 + (escapeString ss).length)) := by
  have hi1 : i + 1 < s.length := by omega
  have hmf := ol_moveForwardInLine h (E := E) i
  rw [jsonParseString]
  simp only [hmf, hi1, if_true, decide_eq_true hi1, Bool.not_true,
    Bool.false_eq_true, if_false]
  rw [mkContext_text]
  rw [show s.length + 2 = (escapeString ss).length +
    (s.length + 2 - (escapeString ss).length) from by omega]
  rw [qsl_escape h ss (i + 1)
    ((escapeString ss).length + (s.length + 2 - (escapeString ss).length))
    [] hb hq1 hlt (by omega)]
  have hpe : (posAt s.length (i + 1 + (escapeString ss).length)).pos =
      i + 1 + (escapeString ss).length := ol_pos_lt _ hlt
  simp only [hpe, hq1]
  rw [ol_moveForward h (i + 1 + (escapeString ss).length)]
  rw [show i + 1 + (escapeString ss).length + 1 =
    i + 2 + (escapeString ss).length from by omega]
  simp

theorem isdigit_bounds {c : Nat} (hc : isdigit c = true) :
    48 ≤ c ∧ c ≤ 57 := by
  rw [isdigit] at hc
  simpa using hc

theorem ol_sliceTo_end (i m : Nat) (hi : i < s.length)
    (him : i + m ≤ s.length) :
    sliceTo (mkContext s) (posAt s.length i) (posAt s.length (i + m)) =
      (s.drop i).take m := by
  by_cases h2 : i + m < s.length
  · rw [ol_sliceTo i (i + m) hi h2]
    congr 1
    omega
  · rw [ol_sliceTo_invalid i hi _ (by rw [ol_valid]; simp; omega)]
    rw [List.take_of_length_le]
    rw [List.length_drop]
    omega

/-- `jsonNumberExp` on an exponent suffix `e`, sign, digit run, bounded
by a stopper. -/
theorem jsonNumberExp_exp (h : splitLines s = [⟨0, s.length, E⟩])
    (i j r : Nat) (hi : i < s.length) (hij : i ≤ j) (hr : 0 < r)
    (he : charAt s j = 101)
    (hsgn : charAt s (j + 1) = 43 ∨ charAt s (j + 1) = 45)
    (hend : j + 2 + r ≤ s.length)
    (hds : ∀ l, l < r → isdigit (charAt s (j + 2 + l)) = true)
    (hstop : j + 2 + r = s.length ∨
      isdigit (charAt s (j + 2 + r)) = false) :
    jsonNumberExp (mkContext s) (posAt s.length i) (posAt s.length j) =
      some (.value (.number (litVal ((s.drop i).take (j + 2 + r - i)))),
        posAt s.length (j + 2 + r)) := by
  have hj : j < s.length := by omega
  have hj1 : j + 1 < s.length := by omega
  have hj2 : j + 2 < s.length := by omega
  have hpj : (posAt s.length j).pos = j := ol_pos_lt _ hj
  have hvj : (posAt s.length j).valid = true := by
    rw [ol_valid]
    simp [hj]
  rw [jsonNumberExp]
  simp only [mkContext_text, hpj, hvj, he, Bool.true_and,
    show ((101 : Nat) == 101) = true from by decide, Bool.true_or, if_true]
  rw [ol_moveForward h j]
  have hp1 : (posAt s.length (j + 1)).pos = j + 1 := ol_pos_lt _ hj1
  simp only [decide_eq_true hj1, Bool.true_and, hp1]
  have hsgn' : (charAt s (j + 1) == 43 || charAt s (j + 1) == 45) = true := by
    rcases hsgn with hs | hs <;> simp [hs]
  simp only [hsgn', if_true]
  rw [ol_moveForward h (j + 1)]
  have hp2 : (posAt s.length (j + 2)).pos = j + 2 := by
    have := ol_pos_lt (s := s) (j + 1 + 1) (by omega)
    rwa [show j + 1 + 1 = j + 2 from by omega] at this
  have hv2 : (posAt s.length (j + 2)).valid = true := by
    rw [ol_valid]
    simp
    omega
  rw [show j + 1 + 1 = j + 2 from by omega]
  have hd0 : isdigit (charAt s (j + 2)) = true := by
    have := hds 0 hr
    rwa [Nat.add_zero] at this
  simp only [hv2, hp2, hd0, Bool.not_true, Bool.false_or,
    Bool.false_eq_true, if_false]
  rw [scanDigits_run h r (s.length + 2) (j + 2) (by omega) hend hds hstop]
  have hsl := ol_sliceTo_end i (j + 2 + r - i) hi (by omega)
  rw [show i + (j + 2 + r - i) = j + 2 + r from by omega] at hsl
  rw [hsl]

/-- `jsonNumberExp` when no exponent follows. -/
theorem jsonNumberExp_noexp (h : splitLines s = [⟨0, s.length, E⟩])
    (i j : Nat) (hi : i < s.length) (hij : i ≤ j) (hjn : j ≤ s.length)
    (hstop : j = s.length ∨
      (charAt s j ≠ 101 ∧ charAt s j ≠ 69)) :
    jsonNumberExp (mkContext s) (posAt s.length i) (posAt s.length j) =
      some (.value (.number (litVal ((s.drop i).take (j - i)))),
        posAt s.length j) := by
  rw [jsonNumberExp]
  have hcond : ((posAt s.length j).valid &&
      (charAt (mkContext s).text (posAt s.length j).pos == 101 ||
        charAt (mkContext s).text (posAt s.length j).pos == 69)) = false := by
    rcases hstop with hend | ⟨h101, h69⟩
    · have hv : (posAt s.length j).valid = false := by
        rw [ol_valid]
        simp
        omega
      simp [hv]
    · by_cases hj : j < s.length
      · have hpj : (posAt s.length j).pos = j := ol_pos_lt _ hj
        simp [mkContext_text, hpj, h101, h69]
      · have hv : (posAt s.length j).valid = false := by
          rw [ol_valid]
          simp
          omega
        simp [hv]
  simp only [hcond, Bool.false_eq_true, if_false]
  have hsl := ol_sliceTo_end i (j - i) hi (by omega)
  rw [show i + (j - i) = j from by omega] at hsl
  rw [hsl]

/-- `json::_parseNumber` over a laid-out numeric token (optional minus,
integer digits with no spurious leading zero, optional fraction of
`LF - 1` digits, optional exponent of `LE - 2` digits) bounded by a
stopper byte: consumes exactly the token and converts its slice. -/
theorem jsonParseNumber_run (h : splitLines s = [⟨0, s.length, E⟩])
    (i o1 LI LF LE : Nat) (ho1 : o1 ≤ 1) (hLI : 0 < LI)
    (hsign : o1 = 1 → charAt s i = 45)
    (hIdig : ∀ l, l < LI → isdigit (charAt s (i + o1 + l)) = true)
    (hI48 : charAt s (i + o1) = 48 → LI = 1)
    (hF : LF = 0 ∨ (1 < LF ∧ charAt s (i + o1 + LI) = 46 ∧
      ∀ l, l < LF - 1 → isdigit (charAt s (i + o1 + LI + 1 + l)) = true))
    (hE : LE = 0 ∨ (2 < LE ∧ charAt s (i + o1 + LI + LF) = 101 ∧
      (charAt s (i + o1 + LI + LF + 1) = 43 ∨
        charAt s (i + o1 + LI + LF + 1) = 45) ∧
      ∀ l, l < LE - 2 →
        isdigit (charAt s (i + o1 + LI + LF + 2 + l)) = true))
    (hlen : i + o1 + LI + LF + LE ≤ s.length)
    (hstop : i + o1 + LI + LF + LE = s.length ∨
      (isdigit (charAt s (i + o1 + LI + LF + LE)) = false ∧
        charAt s (i + o1 + LI + LF + LE) ≠ 46 ∧
        charAt s (i + o1 + LI + LF + LE) ≠ 101 ∧
        charAt s (i + o1 + LI + LF + LE) ≠ 69)) :
    jsonParseNumber (mkContext s) (posAt s.length i) =
      some (.value (.number (litVal
          ((s.drop i).take (o1 + LI + LF + LE)))),
        posAt s.length (i + o1 + LI + LF + LE)) := by
  have hi : i < s.length := by omega
  have hpos : (posAt s.length i).pos = i := ol_pos_lt _ hi
  have hfinal : jsonNumberExp (mkContext s) (posAt s.length i)
      (posAt s.length (i + o1 + LI + LF)) =
      some (.value (.number (litVal
          ((s.drop i).take (o1 + LI + LF + LE)))),
        posAt s.length (i + o1 + LI + LF + LE)) := by
    rcases hE with hE0 | ⟨hEgt, hEe, hEsgn, hEdig⟩
    · subst hE0
      have hx := jsonNumberExp_noexp h i (i + o1 + LI + LF) hi (by omega)
        (by omega)
        (by rcases hstop with h1 | h1
            · exact Or.inl (by omega)
            · refine Or.inr ⟨?_, ?_⟩
              · have := h1.2.2.1
                rwa [Nat.add_zero] at this
              · have := h1.2.2.2
                rwa [Nat.add_zero] at this)
      rw [show i + o1 + LI + LF - i = o1 + LI + LF from by omega] at hx
      rw [hx]
      rw [show o1 + LI + LF + 0 = o1 + LI + LF from by omega,
        show i + o1 + LI + LF + 0 = i + o1 + LI + LF from by omega]
    · have hx := jsonNumberExp_exp h i (i + o1 + LI + LF) (LE - 2) hi
        (by omega) (by omega) hEe hEsgn (by omega)
        (fun l hl => hEdig l hl)
        (by rcases hstop with h1 | h1
            · exact Or.inl (by omega)
            · exact Or.inr (by
                have := h1.1
                rwa [show i + o1 + LI + LF + LE =
                  i + o1 + LI + LF + 2 + (LE - 2) from by omega] at this))
      rw [show i + o1 + LI + LF + 2 + (LE - 2) - i = o1 + LI + LF + LE
        from by omega] at hx
      rw [show i + o1 + LI + LF + 2 + (LE - 2) = i + o1 + LI + LF + LE
        from by omega] at hx
      exact hx
  have hstopI : i + o1 + LI = s.length ∨
      isdigit (charAt s (i + o1 + LI)) = false := by
    rcases hF with hF0 | ⟨hFgt, hFdot, _⟩
    · rcases hE with hE0 | ⟨hEgt, hEe, _, _⟩
      · rcases hstop with h1 | h1
        · exact Or.inl (by omega)
        · exact Or.inr (by
            have := h1.1
            rwa [show i + o1 + LI + LF + LE = i + o1 + LI from by omega]
              at this)
      · exact Or.inr (by
          have := hEe
          rw [show i + o1 + LI + LF = i + o1 + LI from by omega] at this
          rw [this]
          decide)
    · exact Or.inr (by rw [hFdot]; decide)
  rw [jsonParseNumber]
  simp only [mkContext_text, hpos]
  have hpa : (if (charAt s i == 43 || charAt s i == 45) = true then
      (moveForward (mkContext s) (posAt s.length i)).2
      else posAt s.length i) = posAt s.length (i + o1) := by
    interval_cases o1
    · have hd : isdigit (charAt s i) = true := by
        have := hIdig 0 hLI
        simpa using this
      obtain ⟨hd1, hd2⟩ := isdigit_bounds hd
      have h43 : (charAt s i == 43) = false :=
        beq_eq_false_iff_ne.mpr (by omega)
      have h45 : (charAt s i == 45) = false :=
        beq_eq_false_iff_ne.mpr (by omega)
      simp [h43, h45]
    · rw [hsign rfl, ol_moveForward h i]
      simp
  rw [hpa]
  have hpav : (posAt s.length (i + o1)).valid = true := by
    rw [ol_valid]
    simp
    omega
  simp only [hpav, Bool.not_true, Bool.false_eq_true, if_false]
  have hppa : (posAt s.length (i + o1)).pos = i + o1 :=
    ol_pos_lt _ (by omega)
  simp only [hppa]
  have hipart : (if (charAt s (i + o1) == 48) = true then
        some (moveForward (mkContext s) (posAt s.length (i + o1))).2
      else if (!(isdigit (charAt s (i + o1)))) = true then Option.none
      else some (scanDigits (mkContext s) (s.length + 2)
        (posAt s.length (i + o1)))) =
      some (posAt s.length (i + o1 + LI)) := by
    by_cases h48 : charAt s (i + o1) = 48
    · have hL1 := hI48 h48
      rw [h48]
      simp only [show ((48 : Nat) == 48) = true from by decide, if_true]
      rw [ol_moveForward h (i + o1), hL1]
    · have hd : isdigit (charAt s (i + o1)) = true := by
        have := hIdig 0 hLI
        rwa [Nat.add_zero] at this
      simp only [show (charAt s (i + o1) == 48) = false from
        beq_eq_false_iff_ne.mpr h48, Bool.false_eq_true, if_false, hd,
        Bool.not_true, if_false]
      congr 1
      exact scanDigits_run h LI (s.length + 2) (i + o1) (by omega)
        (by omega) (fun l hl => hIdig l hl) hstopI
  rw [hipart]
  have hppb : (posAt s.length (i + o1 + LI)).pos =
      min (i + o1 + LI) (s.length - 1) := ol_pos _ (by omega)
  rcases hF with hF0 | ⟨hFgt, hFdot, hFdig⟩
  · subst hF0
    have hfr : ((posAt s.length (i + o1 + LI)).valid &&
        (charAt s (posAt s.length (i + o1 + LI)).pos == 46)) = false := by
      by_cases hbv : i + o1 + LI < s.length
      · have hpb : (posAt s.length (i + o1 + LI)).pos = i + o1 + LI :=
          ol_pos_lt _ hbv
        have h46 : charAt s (i + o1 + LI) ≠ 46 := by
          rcases hE with hE0 | ⟨hEgt, hEe, _, _⟩
          · rcases hstop with h1 | h1
            · omega
            · have := h1.2.1
              rwa [show i + o1 + LI + 0 + LE = i + o1 + LI from by omega]
                at this
          · have := hEe
            rw [show i + o1 + LI + 0 = i + o1 + LI from by omega] at this
            rw [this]
            decide
        simp [hpb, h46]
      · have hv : (posAt s.length (i + o1 + LI)).valid = false := by
          rw [ol_valid]
          simp
          omega
        simp [hv]
    simp only [mkContext_text] at hfr
    simp only [hfr, Bool.false_eq_true, if_false]
    have := hfinal
    rw [show i + o1 + LI + 0 = i + o1 + LI from by omega] at this
    rw [this]
    rw [show o1 + LI + 0 + LE = o1 + LI + LE from by omega,
      show i + o1 + LI + 0 + LE = i + o1 + LI + LE from by omega]
  · have hbv : i + o1 + LI < s.length := by omega
    have hpb : (posAt s.length (i + o1 + LI)).pos = i + o1 + LI :=
      ol_pos_lt _ hbv
    have hvb : (posAt s.length (i + o1 + LI)).valid = true := by
      rw [ol_valid]
      simp [hbv]
    simp only [hpb, hvb, hFdot, Bool.true_and,
      show ((46 : Nat) == 46) = true from by decide, if_true]
    rw [ol_moveForward h (i + o1 + LI)]
    have hbv1 : i + o1 + LI + 1 < s.length := by omega
    have hp1 : (posAt s.length (i + o1 + LI + 1)).pos = i + o1 + LI + 1 :=
      ol_pos_lt _ hbv1
    have hv1 : (posAt s.length (i + o1 + LI + 1)).valid = true := by
      rw [ol_valid]
      simp [hbv1]
    have hd1 : isdigit (charAt s (i + o1 + LI + 1)) = true := by
      have := hFdig 0 (by omega)
      rwa [Nat.add_zero] at this
    simp only [hv1, hp1, hd1, Bool.not_true, Bool.false_or,
      Bool.false_eq_true, if_false]
    rw [scanDigits_run h (LF - 1) (s.length + 2) (i + o1 + LI + 1)
      (by omega) (by omega) (fun l hl => hFdig l hl)
      (by
        have hstopF : i + o1 + LI + 1 + (LF - 1) = i + o1 + LI + LF := by
          omega
        rw [hstopF]
        rcases hE with hE0 | ⟨hEgt, hEe, _, _⟩
        · rcases hstop with h1 | h1
          · exact Or.inl (by omega)
          · exact Or.inr (by
              have := h1.1
              rwa [show i + o1 + LI + LF + LE = i + o1 + LI + LF
                from by omega] at this)
        · exact Or.inr (by rw [hEe]; decide))]
    rw [show i + o1 + LI + 1 + (LF - 1) = i + o1 + LI + LF from by omega]
    exact hfinal

end JsonScan

theorem digitsRevF_zero : ∀ f, digitsRevF f 0 = [] := by
  intro f
  cases f <;> simp [digitsRevF]

theorem digitsRevF_digits : ∀ f n c, c ∈ digitsRevF f n → isdigit c = true := by
  intro f
  induction f with
  | zero => intro n c hc; simp [digitsRevF] at hc
  | succ f ih =>
    intro n c hc
    rw [digitsRevF] at hc
    by_cases hn : n = 0
    · simp [hn] at hc
    · simp only [show (n == 0) = false from by simpa using hn,
        Bool.false_eq_true, if_false, List.mem_cons] at hc
      rcases hc with rfl | hc
      · have : n % 10 < 10 := Nat.mod_lt _ (by omega)
        rw [isdigit]
        simp
        omega
      · exact ih _ _ hc

theorem natToDigits_digits {n c : Nat} (hc : c ∈ natToDigits n) :
    isdigit c = true := by
  rw [natToDigits] at hc
  by_cases hn : n = 0
  · simp [hn] at hc
    subst hc
    decide
  · simp only [show (n == 0) = false from by simpa using hn,
      Bool.false_eq_true, if_false, List.mem_reverse] at hc
    exact digitsRevF_digits _ _ _ hc

theorem natToDigits_ne_nil (n : Nat) : natToDigits n ≠ [] := by
  rw [natToDigits]
  by_cases hn : n = 0
  · simp [hn]
  · simp only [show (n == 0) = false from by simpa using hn,
      Bool.false_eq_true, if_false]
    cases hf : n with
    | zero => omega
    | succ f =>
      rw [digitsRevF]
      simp [hn]

theorem headI_append_left {a : Str} (b : Str) (ha : a ≠ []) :
    (a ++ b).headI = a.headI := by
  cases a with
  | nil => exact absurd rfl ha
  | cons c t => rfl

theorem digitsRevF_head : ∀ f n, 1 ≤ n → n ≤ f →
    (digitsRevF f n).reverse.headI ≠ 48 ∧ digitsRevF f n ≠ [] := by
  intro f
  induction f with
  | zero => intro n h1 h2; omega
  | succ f ih =>
    intro n h1 h2
    rw [digitsRevF]
    simp only [show (n == 0) = false from by simpa using (by omega :
      n ≠ 0), Bool.false_eq_true, if_false]
    by_cases hn9 : n ≤ 9
    · have hd : n / 10 = 0 := by omega
      rw [hd, digitsRevF_zero]
      have : n % 10 = n := by omega
      refine ⟨?_, by simp⟩
      simp [this]
      omega
    · have h10 : n / 10 ≥ 1 := by omega
      have hle : n / 10 ≤ f := by omega
      obtain ⟨ihh, ihne⟩ := ih (n / 10) h10 hle
      constructor
      · rw [List.reverse_cons]
        rwa [headI_append_left _ (by simpa using ihne)]
      · simp

theorem natToDigits_headI_ne (n : Nat) (hn : 1 ≤ n) :
    (natToDigits n).headI ≠ 48 := by
  rw [natToDigits]
  simp only [show (n == 0) = false from by simpa using (by omega : n ≠ 0),
    Bool.false_eq_true, if_false]
  exact (digitsRevF_head n n hn (by omega)).1

theorem natToDigits_head48 {n : Nat}
    (h48 : (natToDigits n).headI = 48) : natToDigits n = [48] := by
  by_cases hn : n = 0
  · rw [hn]
    rfl
  · exact absurd h48 (natToDigits_headI_ne n (by omega))

theorem digitsRevF_lt : ∀ f n, n ≤ f →
    n < 10 ^ (digitsRevF f n).length := by
  intro f
  induction f with
  | zero => intro n h; interval_cases n; simp [digitsRevF]
  | succ f ih =>
    intro n h
    rw [digitsRevF]
    by_cases hn : n = 0
    · simp [hn]
    · simp only [show (n == 0) = false from by simpa using hn,
        Bool.false_eq_true, if_false, List.length_cons]
      have := ih (n / 10) (by omega)
      have h2 : n < 10 * (10 ^ (digitsRevF f (n / 10)).length) := by omega
      calc n < 10 * 10 ^ (digitsRevF f (n / 10)).length := h2
        _ = 10 ^ ((digitsRevF f (n / 10)).length + 1) := by ring

theorem natToDigits_val_lt (n : Nat) : n < 10 ^ (natToDigits n).length := by
  rw [natToDigits]
  by_cases hn : n = 0
  · simp [hn]
  · simp only [show (n == 0) = false from by simpa using hn,
      Bool.false_eq_true, if_false, List.length_reverse]
    exact digitsRevF_lt n n (by omega)

theorem stripZeros_subset {l : Str} {c : Nat} (hc : c ∈ stripZeros l) :
    c ∈ l := by
  rw [stripZeros] at hc
  rw [List.mem_reverse] at hc
  have := (List.dropWhile_sublist (fun x => x == 48)
    (l := l.reverse)).subset hc
  rwa [List.mem_reverse] at this

theorem stripZeros_eq_nil_iff {l : Str} :
    stripZeros l = [] ↔ ∀ c ∈ l, c = 48 := by
  rw [stripZeros]
  rw [List.reverse_eq_nil_iff, List.dropWhile_eq_nil_iff]
  constructor
  · intro hh c hc
    have := hh c (by rwa [List.mem_reverse])
    simpa using this
  · intro hh c hc
    rw [List.mem_reverse] at hc
    simp [hh c hc]

theorem roundNat_ge (X D : Nat) : X / D ≤ roundNat X D := by
  rw [roundNat]
  by_cases h1 : 2 * (X % D) < D
  · rw [if_pos h1]
  · rw [if_neg h1]
    by_cases h2 : D < 2 * (X % D)
    · rw [if_pos h2]
      omega
    · rw [if_neg h2]
      by_cases h3 : X / D % 2 = 0
      · rw [if_pos h3]
      · rw [if_neg h3]
        omega

theorem charAt_offset {pre : Str} (post : Str) {k : Nat}
    (hk : pre.length = k) {l : Nat} (hl : l < post.length) :
    charAt (pre ++ post) (k + l) = charAt post l := by
  subst hk
  exact charAt_append_right pre post l hl

section JsonTok

variable {s : Str} {E : Nat}

/-- `json::_parseNumber` consumes exactly a well-formed numeric token
laid out in the text and bounded by a stopper, and converts its bytes. -/
theorem jsonParseNumber_tok (h : splitLines s = [⟨0, s.length, E⟩])
    (i : Nat) (t : NumTok) (hwf : t.wf)
    (hsl : (s.drop i).take t.bytes.length = t.bytes)
    (hlen : i + t.bytes.length ≤ s.length)
    (hstop : i + t.bytes.length = s.length ∨
      (isdigit (charAt s (i + t.bytes.length)) = false ∧
        charAt s (i + t.bytes.length) ≠ 46 ∧
        charAt s (i + t.bytes.length) ≠ 101 ∧
        charAt s (i + t.bytes.length) ≠ 69)) :
    jsonParseNumber (mkContext s) (posAt s.length i) =
      some (.value (.number (litVal t.bytes)),
        posAt s.length (i + t.bytes.length)) := by
  obtain ⟨hI0, hIdig, hI48, hFdig, hEwf⟩ := hwf
  obtain ⟨neg, I, F, eS, eD⟩ := t
  have hIlen : 0 < I.length := List.length_pos.mpr hI0
  simp only [NumTok.bytes] at hsl hlen hstop ⊢
  rw [List.append_assoc, List.append_assoc] at hsl hlen hstop ⊢
  simp only at hI0 hIdig hI48 hFdig hEwf
  set R : Str := I ++ (numTokFrac F ++ numTokExp eS eD) with hR
  have hm : (numTokSign neg ++ R).length =
      (numTokSign neg).length + I.length + (numTokFrac F).length +
        (numTokExp eS eD).length := by
    rw [hR]
    simp
    omega
  rw [hm] at hsl hlen hstop
  rw [show i + ((numTokSign neg).length + I.length +
      (numTokFrac F).length + (numTokExp eS eD).length) =
    i + (numTokSign neg).length + I.length + (numTokFrac F).length +
      (numTokExp eS eD).length from by omega] at hlen hstop
  have hca : ∀ l, l < (numTokSign neg).length + I.length +
      (numTokFrac F).length + (numTokExp eS eD).length →
      charAt s (i + l) = charAt (numTokSign neg ++ R) l :=
    fun l hl => charAt_of_slice hsl hl
  have hsgnlen : (numTokSign neg).length ≤ 1 := by
    cases neg <;> simp [numTokSign]
  have hIat : ∀ l, l < I.length →
      charAt (numTokSign neg ++ R) ((numTokSign neg).length + l) =
        charAt I l := by
    intro l hl
    rw [charAt_offset _ rfl (by rw [hR]; simp; omega), hR]
    exact charAt_append_left I _ l hl
  have hrun := jsonParseNumber_run h i (numTokSign neg).length I.length
    (numTokFrac F).length (numTokExp eS eD).length hsgnlen
    (List.length_pos.mpr hI0)
    (by
      intro ho
      have h0 : charAt s (i + 0) = charAt (numTokSign neg ++ R) 0 :=
        hca 0 (by omega)
      rw [Nat.add_zero] at h0
      rw [h0]
      cases neg
      · simp [numTokSign] at ho
      · rfl)
    (fun l hl => by
      rw [show i + (numTokSign neg).length + l =
        i + ((numTokSign neg).length + l) from by omega]
      rw [hca ((numTokSign neg).length + l) (by omega), hIat l hl]
      exact hIdig _ (charAt_mem I l hl))
    (by
      intro h48
      rw [hca (numTokSign neg).length (by omega)] at h48
      rw [show (numTokSign neg).length = (numTokSign neg).length + 0
        from by omega, hIat 0 (by omega)] at h48
      have hh : I.headI = 48 := by
        cases I with
        | nil => exact absurd rfl hI0
        | cons c r => simpa using h48
      rw [hI48 hh]
      rfl)
    (by
      cases F with
      | nil => exact Or.inl rfl
      | cons c r =>
        have hfl : (numTokFrac (c :: r)).length = r.length + 2 := by
          simp [numTokFrac]
        refine Or.inr ⟨by omega, ?_, ?_⟩
        · rw [show i + (numTokSign neg).length + I.length =
            i + ((numTokSign neg).length + I.length) from by omega]
          rw [hca ((numTokSign neg).length + I.length) (by omega)]
          rw [show (numTokSign neg).length + I.length =
            (numTokSign neg).length + (I.length + 0) from by omega]
          rw [charAt_offset _ rfl (by rw [hR]; simp [numTokFrac]; try omega), hR]
          rw [charAt_offset _ rfl (by simp [numTokFrac]; try omega)]
          rfl
        · intro l hl
          rw [hfl] at hl
          rw [show i + (numTokSign neg).length + I.length + 1 + l =
            i + ((numTokSign neg).length + I.length + 1 + l)
            from by omega]
          rw [hca ((numTokSign neg).length + I.length + 1 + l)
            (by omega)]
          rw [show (numTokSign neg).length + I.length + 1 + l =
            (numTokSign neg).length + (I.length + (1 + l))
            from by omega]
          rw [charAt_offset _ rfl (by rw [hR]; simp [numTokFrac]; try omega),
            hR]
          rw [charAt_offset _ rfl (by simp [numTokFrac]; try omega)]
          rw [show numTokFrac (c :: r) ++ numTokExp eS eD =
            46 :: ((c :: r) ++ numTokExp eS eD) from rfl]
          rw [show 1 + l = l + 1 from by omega, charAt_cons_succ]
          rw [charAt_append_left (c :: r) _ l (by simp; omega)]
          exact hFdig _ (charAt_mem (c :: r) l (by simp; omega)))
    (by
      cases eS with
      | none => exact Or.inl rfl
      | some b =>
        obtain ⟨heD0, heDdig⟩ := hEwf (by simp)
        have hel : (numTokExp (some b) eD).length = eD.length + 2 := by
          simp [numTokExp]
        have hfe : numTokFrac F ++ numTokExp (some b) eD =
            numTokFrac F ++ (101 :: (if b then 45 else 43) :: eD) := rfl
        have heD1 : 1 ≤ eD.length := List.length_pos.mpr heD0
        refine Or.inr ⟨by omega, ?_, ?_, ?_⟩
        · rw [show i + (numTokSign neg).length + I.length +
            (numTokFrac F).length = i + ((numTokSign neg).length +
            I.length + (numTokFrac F).length) from by omega]
          rw [hca ((numTokSign neg).length + I.length +
            (numTokFrac F).length) (by omega)]
          rw [show (numTokSign neg).length + I.length +
            (numTokFrac F).length = (numTokSign neg).length +
            (I.length + ((numTokFrac F).length + 0)) from by omega]
          rw [charAt_offset _ rfl (by rw [hR]; simp [numTokExp]; try omega),
            hR]
          rw [charAt_offset _ rfl (by simp [numTokExp]; try omega)]
          rw [charAt_offset _ rfl (by simp [numTokExp]; try omega)]
          rfl
        · rw [show i + (numTokSign neg).length + I.length +
            (numTokFrac F).length + 1 = i + ((numTokSign neg).length +
            I.length + (numTokFrac F).length + 1) from by omega]
          rw [hca ((numTokSign neg).length + I.length +
            (numTokFrac F).length + 1) (by omega)]
          rw [show (numTokSign neg).length + I.length +
            (numTokFrac F).length + 1 = (numTokSign neg).length +
            (I.length + ((numTokFrac F).length + 1)) from by omega]
          rw [charAt_offset _ rfl (by rw [hR]; simp [numTokExp]; try omega),
            hR]
          rw [charAt_offset _ rfl (by simp [numTokExp]; try omega)]
          rw [charAt_offset _ rfl (by simp [numTokExp]; try omega)]
          rw [show charAt (numTokExp (some b) eD) 1 =
            (if b then 45 else 43) from rfl]
          cases b
          · exact Or.inl rfl
          · exact Or.inr rfl
        · intro l hl
          rw [hel] at hl
          rw [show i + (numTokSign neg).length + I.length +
            (numTokFrac F).length + 2 + l = i + ((numTokSign neg).length
            + I.length + (numTokFrac F).length + 2 + l) from by omega]
          rw [hca ((numTokSign neg).length + I.length +
            (numTokFrac F).length + 2 + l) (by omega)]
          rw [show (numTokSign neg).length + I.length +
            (numTokFrac F).length + 2 + l = (numTokSign neg).length +
            (I.length + ((numTokFrac F).length + (2 + l)))
            from by omega]
          rw [charAt_offset _ rfl (by rw [hR]; simp [numTokExp]; try omega),
            hR]
          rw [charAt_offset _ rfl (by simp [numTokExp]; try omega)]
          rw [charAt_offset _ rfl (by simp [numTokExp]; try omega)]
          rw [show numTokExp (some b) eD =
            101 :: (if b then 45 else 43) :: eD from rfl]
          rw [show (2 : Nat) + l = l + 1 + 1 from by omega]
          rw [charAt_cons_succ, charAt_cons_succ]
          exact heDdig _ (charAt_mem eD l (by omega)))
    hlen hstop
  rw [hrun, ← hsl]
  have hlen2 : (List.take ((numTokSign neg).length + I.length +
      (numTokFrac F).length + (numTokExp eS eD).length)
      (List.drop i s)).length = (numTokSign neg).length + I.length +
      (numTokFrac F).length + (numTokExp eS eD).length := by
    rw [hsl, hm]
  rw [hlen2]
  rw [show i + ((numTokSign neg).length + I.length +
    (numTokFrac F).length + (numTokExp eS eD).length) =
    i + (numTokSign neg).length + I.length + (numTokFrac F).length +
      (numTokExp eS eD).length from by omega]

end JsonTok

theorem fmtNumber_eq (q : NumberValue) (hz : q.num ≠ 0) :
    fmtNumber q = (if q.num < 0 then [45] else []) ++
      fmtDigits6 (fmtM q) (fmtE q) := by
  rw [fmtNumber, if_neg hz, fmtM, fmtE]
  simp only []
  by_cases hb : (if (0 : Int) ≤ 5 - qexpPos q.num.natAbs q.den then
      roundNat (q.num.natAbs * 10 ^ ((5 : Int) -
        qexpPos q.num.natAbs q.den).toNat) q.den
      else roundNat q.num.natAbs (q.den *
        10 ^ (-((5 : Int) - qexpPos q.num.natAbs q.den)).toNat)) =
      10 ^ 6
  · simp only [if_pos hb]
  · simp only [if_neg hb]

theorem qexp_scale_ge (N D : Nat) (hN : 1 ≤ N)
    (he : qexpPos N D < 0) :
    D ≤ N * 10 ^ ((5 : Int) - qexpPos N D).toNat := by
  by_cases hDN : D ≤ N
  · exfalso
    rw [qexpPos, if_pos hDN] at he
    simp only [Int.ofNat_eq_coe] at he
    omega
  · rw [qexpPos, if_neg hDN] at he ⊢
    by_cases hbr : D ≤ 10 ^ ((natToDigits (D / N)).length - 1) * N
    · rw [if_pos hbr] at he ⊢
      have ht : ((5 : Int) -
          -(Int.ofNat ((natToDigits (D / N)).length - 1))).toNat =
          5 + ((natToDigits (D / N)).length - 1) := by
        simp only [Int.ofNat_eq_coe]
        omega
      rw [ht]
      calc D ≤ 10 ^ ((natToDigits (D / N)).length - 1) * N := hbr
        _ ≤ 10 ^ (5 + ((natToDigits (D / N)).length - 1)) * N := by
            exact Nat.mul_le_mul_right _
              (Nat.pow_le_pow_right (by omega) (by omega))
        _ = N * 10 ^ (5 + ((natToDigits (D / N)).length - 1)) := by ring
    · rw [if_neg hbr] at he ⊢
      have ht : ((5 : Int) -
          -(Int.ofNat (natToDigits (D / N)).length)).toNat =
          5 + (natToDigits (D / N)).length := by
        simp only [Int.ofNat_eq_coe]
        omega
      rw [ht]
      have hdig : D / N < 10 ^ (natToDigits (D / N)).length :=
        natToDigits_val_lt (D / N)
      have hlt : D < (D / N + 1) * N := by
        have hmod := Nat.mod_lt D (show 0 < N from by omega)
        calc D = N * (D / N) + D % N := (Nat.div_add_mod D N).symm
          _ < N * (D / N) + N := by omega
          _ = (D / N + 1) * N := by ring
      have h2 : (D / N + 1) * N ≤ 10 ^ (natToDigits (D / N)).length * N :=
        Nat.mul_le_mul_right _ (by omega)
      calc D ≤ 10 ^ (natToDigits (D / N)).length * N := by omega
        _ ≤ 10 ^ (5 + (natToDigits (D / N)).length) * N :=
            Nat.mul_le_mul_right _
              (Nat.pow_le_pow_right (by omega) (by omega))
        _ = N * 10 ^ (5 + (natToDigits (D / N)).length) := by ring

theorem roundNat_pos {X D : Nat} (hDX : D ≤ X) (hX : 1 ≤ X) :
    1 ≤ roundNat X D := by
  have h1 : X / D ≤ roundNat X D := roundNat_ge X D
  by_cases hD : D = 0
  · subst hD
    rw [roundNat]
    simp only [Nat.div_zero, Nat.mod_zero]
    rw [if_neg (by omega : ¬ 2 * X < 0), if_pos (by omega : 0 < 2 * X)]
  · have : 1 ≤ X / D := (Nat.one_le_div_iff (by omega)).mpr hDX
    omega

theorem fmtM_pos (q : NumberValue) (hz : q.num ≠ 0)
    (he : fmtE q < 0) : 1 ≤ fmtM q := by
  rw [fmtM]
  rw [fmtE] at he
  by_cases hb : (if (0 : Int) ≤ 5 - qexpPos q.num.natAbs q.den then
      roundNat (q.num.natAbs * 10 ^ ((5 : Int) -
        qexpPos q.num.natAbs q.den).toNat) q.den
      else roundNat q.num.natAbs (q.den *
        10 ^ (-((5 : Int) - qexpPos q.num.natAbs q.den)).toNat)) = 10 ^ 6
  · rw [if_pos hb]
    norm_num
  · rw [if_neg hb]
    rw [if_neg hb] at he
    have hepos : qexpPos q.num.natAbs q.den < 0 := he
    have hk : (0 : Int) ≤ 5 - qexpPos q.num.natAbs q.den := by omega
    rw [if_pos hk] at hb ⊢
    have hN1 : 1 ≤ q.num.natAbs := by
      have := Int.natAbs_pos.mpr hz
      omega
    have hscale := qexp_scale_ge q.num.natAbs q.den hN1 hepos
    exact roundNat_pos hscale
      (Nat.mul_pos (by omega) (pow_pos (by norm_num) _))

theorem take_one_of_ne_nil {l : Str} (hl : l ≠ []) :
    l.take 1 = [l.headI] := by
  cases l with
  | nil => exact absurd rfl hl
  | cons c r => rfl

theorem take_succ_headI {l : Str} (hl : l ≠ []) (k : Nat) :
    (l.take (k + 1)).headI = l.headI := by
  cases l with
  | nil => exact absurd rfl hl
  | cons c r => rfl

theorem take_succ_ne_nil {l : Str} (hl : l ≠ []) (k : Nat) :
    l.take (k + 1) ≠ [] := by
  cases l with
  | nil => exact absurd rfl hl
  | cons c r => simp

theorem headI_mem_self (t : Str) (ht : t ≠ []) : t.headI ∈ t := by
  cases t with
  | nil => exact absurd rfl ht
  | cons c r => exact List.mem_cons_self _ _

/-- Every output of `fmtDigits6` (with an optional sign) is a
well-formed numeric token. -/
theorem fmtDigits6_token (m : Nat) (e' : Int) (neg : Bool)
    (hm : 1 ≤ m ∨ e' < -4 ∨ 0 ≤ e') :
    ∃ t : NumTok, t.bytes = numTokSign neg ++ fmtDigits6 m e' ∧
      t.wf ∧ t.neg = neg := by
  have hds0 : natToDigits m ≠ [] := natToDigits_ne_nil m
  by_cases hsci : e' < -4 ∨ 6 ≤ e'
  · refine ⟨⟨neg, (natToDigits m).take 1,
      stripZeros ((natToDigits m).drop 1), some (decide (e' < 0)),
      (if (natToDigits e'.natAbs).length < 2 then
        48 :: natToDigits e'.natAbs else natToDigits e'.natAbs)⟩,
      ?_, ⟨?_, ?_, ?_, ?_, ?_⟩, rfl⟩
    · rw [fmtDigits6, if_pos hsci]
      simp only [NumTok.bytes]
      have h1 : numTokFrac (stripZeros ((natToDigits m).drop 1)) =
          (if (stripZeros ((natToDigits m).drop 1)).isEmpty then []
            else 46 :: stripZeros ((natToDigits m).drop 1)) := by
        cases hh : stripZeros ((natToDigits m).drop 1) <;>
          simp [numTokFrac]
      have h2 : numTokExp (some (decide (e' < 0)))
          (if (natToDigits e'.natAbs).length < 2 then
            48 :: natToDigits e'.natAbs else natToDigits e'.natAbs) =
          101 :: expDigits e' := by
        rw [expDigits]
        by_cases hneg : e' < 0 <;> simp [numTokExp, hneg]
      rw [h1, h2]
      simp [List.append_assoc]
    · exact take_succ_ne_nil hds0 0
    · intro c hc
      exact natToDigits_digits (List.take_subset _ _ hc)
    · intro h48
      rw [take_one_of_ne_nil hds0] at h48 ⊢
      simpa using h48
    · intro c hc
      exact natToDigits_digits (List.drop_subset _ _ (stripZeros_subset hc))
    · intro _
      constructor
      · by_cases hl : (natToDigits e'.natAbs).length < 2 <;>
          simp [hl, natToDigits_ne_nil]
      · intro c hc
        by_cases hl : (natToDigits e'.natAbs).length < 2 <;>
          simp only [hl, if_true, if_false, Bool.false_eq_true,
            List.mem_cons] at hc
        · rcases hc with rfl | hc
          · decide
          · exact natToDigits_digits hc
        · exact natToDigits_digits hc
  · by_cases hpos : (0 : Int) ≤ e'
    · refine ⟨⟨neg, (natToDigits m).take (e'.toNat + 1),
        stripZeros ((natToDigits m).drop (e'.toNat + 1)), Option.none, []⟩,
        ?_, ⟨?_, ?_, ?_, ?_, ?_⟩, rfl⟩
      · rw [fmtDigits6, if_neg hsci, if_pos hpos]
        simp only [NumTok.bytes]
        have h1 : numTokFrac (stripZeros ((natToDigits m).drop
            (e'.toNat + 1))) =
            (if (stripZeros ((natToDigits m).drop
              (e'.toNat + 1))).isEmpty then []
              else 46 :: stripZeros ((natToDigits m).drop
                (e'.toNat + 1))) := by
          cases hh : stripZeros ((natToDigits m).drop (e'.toNat + 1)) <;>
            simp [numTokFrac]
        rw [h1]
        simp [numTokExp, List.append_assoc]
      · exact take_succ_ne_nil hds0 _
      · intro c hc
        exact natToDigits_digits (List.take_subset _ _ hc)
      · intro h48
        rw [take_succ_headI hds0] at h48
        rw [natToDigits_head48 h48]
        rw [List.take_of_length_le (by simp)]
      · intro c hc
        exact natToDigits_digits
          (List.drop_subset _ _ (stripZeros_subset hc))
      · intro hh
        simp at hh
    · have hm1 : 1 ≤ m := by
        rcases hm with h1 | h1 | h1
        · exact h1
        · exact absurd (Or.inl h1) hsci
        · exact absurd h1 hpos
      have hhead := natToDigits_headI_ne m hm1
      have hsne : stripZeros (natToDigits m) ≠ [] := by
        intro hcon
        rw [stripZeros_eq_nil_iff] at hcon
        exact hhead (hcon _ (headI_mem_self _ hds0))
      refine ⟨⟨neg, [48],
        List.replicate (e'.natAbs - 1) 48 ++ stripZeros (natToDigits m),
        Option.none, []⟩, ?_, ⟨?_, ?_, ?_, ?_, ?_⟩, rfl⟩
      · rw [fmtDigits6, if_neg hsci, if_neg hpos]
        simp only [NumTok.bytes]
        have hFne : List.replicate (e'.natAbs - 1) 48 ++
            stripZeros (natToDigits m) ≠ [] := by
          simp [hsne]
        have h1 : numTokFrac (List.replicate (e'.natAbs - 1) 48 ++
            stripZeros (natToDigits m)) =
            46 :: (List.replicate (e'.natAbs - 1) 48 ++
              stripZeros (natToDigits m)) := by
          cases hh : List.replicate (e'.natAbs - 1) 48 ++
              stripZeros (natToDigits m) with
          | nil => exact absurd hh hFne
          | cons c r => simp [numTokFrac]
        rw [h1]
        simp [numTokExp, List.append_assoc]
      · simp
      · intro c hc
        rw [List.mem_singleton] at hc
        subst hc
        decide
      · intro _
        rfl
      · intro c hc
        rcases List.mem_append.mp hc with hc | hc
        · rw [List.eq_of_mem_replicate hc]
          decide
        · exact natToDigits_digits (stripZeros_subset hc)
      · intro hh
        simp at hh

/-- The rendering of any numeric scalar is a well-formed token. -/
theorem fmtNumber_token (q : NumberValue) :
    ∃ t : NumTok, t.bytes = fmtNumber q ∧ t.wf := by
  by_cases hz : q.num = 0
  · refine ⟨⟨false, [48], [], Option.none, []⟩, ?_, ?_⟩
    · rw [fmtNumber, if_pos hz]
      rfl
    · refine ⟨by simp, ?_, fun _ => rfl, by simp, by simp⟩
      intro c hc
      rw [List.mem_singleton] at hc
      subst hc
      decide
  · have hcond : 1 ≤ fmtM q ∨ fmtE q < -4 ∨ (0 : Int) ≤ fmtE q := by
      by_cases he : fmtE q < 0
      · exact Or.inl (fmtM_pos q hz he)
      · exact Or.inr (Or.inr (by omega))
    obtain ⟨t, hb, hwf, hneg⟩ :=
      fmtDigits6_token (fmtM q) (fmtE q) (decide (q.num < 0)) hcond
    refine ⟨t, ?_, hwf⟩
    rw [hb, fmtNumber_eq q hz]
    congr 1
    by_cases hn : q.num < 0 <;> simp [numTokSign, hn]

theorem clean_not_empty {t : ValueTree} (hc : cleanT t = true) :
    t.isEmpty = false := by
  cases t with
  | empty => simp [cleanT] at hc
  | value v => rfl
  | array xs => rfl
  | object es => rfl

theorem byteClean_spec {c : Nat} (hc : byteClean c = true) :
    c ≠ 34 ∧ c ≠ 92 ∧ c ≠ 8 ∧ c ≠ 12 ∧ c ≠ 10 ∧ c ≠ 13 ∧ c ≠ 9 := by
  rw [byteClean] at hc
  simp only [Bool.not_eq_true', Bool.or_eq_false_iff, beq_eq_false_iff_ne]
    at hc
  exact ⟨hc.1.1.1.1.1.1, hc.1.1.1.1.1.2, hc.1.1.1.1.2, hc.1.1.1.2,
    hc.1.1.2, hc.1.2, hc.2⟩

theorem escapeString_clean_id {k : Str}
    (hk : ∀ c ∈ k, byteClean c = true) : escapeString k = k := by
  induction k with
  | nil => rfl
  | cons c r ih =>
    rw [escapeString_cons]
    obtain ⟨h34, h92, h8, h12, h10, h13, h9⟩ :=
      byteClean_spec (hk c (List.mem_cons_self _ _))
    rw [escapeChar_raw h34 h92 h8 h12 h10 h13 h9,
      ih (fun x hx => hk x (List.mem_cons_of_mem _ hx))]
    rfl

theorem keyLt_asymm : ∀ {a b : Str}, keyLt a b = true → keyLt b a = false := by
  intro a
  induction a with
  | nil =>
    intro b hab
    cases b with
    | nil => simpa [keyLt] using hab
    | cons y ys => simp [keyLt]
  | cons x xs ih =>
    intro b hab
    cases b with
    | nil => simp [keyLt] at hab
    | cons y ys =>
      rw [keyLt] at hab ⊢
      by_cases hxy : x < y
      · rw [if_neg (by omega : ¬ y < x), if_pos hxy]
      · by_cases hyx : y < x
        · rw [if_neg hxy, if_pos hyx] at hab
          simp at hab
        · rw [if_neg hxy, if_neg hyx] at hab
          rw [if_neg hyx, if_neg hxy]
          exact ih hab

theorem keyLt_trans : ∀ {a b c : Str}, keyLt a b = true →
    keyLt b c = true → keyLt a c = true := by
  intro a
  induction a with
  | nil =>
    intro b c hab hbc
    cases b with
    | nil => simp [keyLt] at hab
    | cons y ys =>
      cases c with
      | nil => simp [keyLt] at hbc
      | cons z zs => simp [keyLt]
  | cons x xs ih =>
    intro b c hab hbc
    cases b with
    | nil => simp [keyLt] at hab
    | cons y ys =>
      cases c with
      | nil => simp [keyLt] at hbc
      | cons z zs =>
        rw [keyLt] at hab hbc ⊢
        by_cases hxy : x < y <;> by_cases hyz : y < z
        · rw [if_pos (by omega : x < z)]
        · rw [if_neg hyz] at hbc
          by_cases hzy : z < y
          · rw [if_pos hzy] at hbc
            simp at hbc
          · rw [if_pos (by omega : x < z)]
        · rw [if_neg hxy] at hab
          by_cases hyx : y < x
          · rw [if_pos hyx] at hab
            simp at hab
          · rw [if_pos (by omega : x < z)]
        · rw [if_neg hxy] at hab
          rw [if_neg hyz] at hbc
          by_cases hyx : y < x
          · rw [if_pos hyx] at hab
            simp at hab
          · by_cases hzy : z < y
            · rw [if_pos hzy] at hbc
              simp at hbc
            · rw [if_neg hyx] at hab
              rw [if_neg hzy] at hbc
              rw [if_neg (by omega : ¬ x < z),
                if_neg (by omega : ¬ z < x)]
              exact ih hab hbc

theorem mapFind_eq_none {k : Str} :
    ∀ {es : List (Str × ValueTree)}, (∀ p ∈ es, p.1 ≠ k) →
      mapFind k es = Option.none := by
  intro es
  induction es with
  | nil => intro _; rfl
  | cons hd tl ih =>
    intro hne
    obtain ⟨k1, v1⟩ := hd
    rw [mapFind]
    rw [if_neg (fun e => hne (k1, v1) (List.mem_cons_self _ _) e.symm)]
    exact ih (fun p hp => hne p (List.mem_cons_of_mem _ hp))

theorem mapInsert_append {k : Str} {v : ValueTree} :
    ∀ {es : List (Str × ValueTree)},
      (∀ p ∈ es, keyLt p.1 k = true) →
      mapInsert k v es = es ++ [(k, v)] := by
  intro es
  induction es with
  | nil => intro _; rfl
  | cons hd tl ih =>
    intro hlt
    obtain ⟨k1, v1⟩ := hd
    have h1 : keyLt k1 k = true := hlt (k1, v1) (List.mem_cons_self _ _)
    rw [mapInsert]
    rw [if_neg (by rw [keyLt_asymm h1]; simp), if_pos h1]
    rw [ih (fun p hp => hlt p (List.mem_cons_of_mem _ hp))]
    rfl

theorem fmtDigits6_cons (m : Nat) (e' : Int) :
    ∃ c rest, fmtDigits6 m e' = c :: rest ∧ isdigit c = true := by
  have hds0 : natToDigits m ≠ [] := natToDigits_ne_nil m
  rcases hds : natToDigits m with _ | ⟨d0, ds'⟩
  · exact absurd hds hds0
  have hd0 : isdigit d0 = true :=
    natToDigits_digits (by rw [hds]; exact List.mem_cons_self _ _)
  rw [fmtDigits6, hds]
  by_cases hsci : e' < -4 ∨ 6 ≤ e'
  · rw [if_pos hsci]
    exact ⟨d0, _, rfl, hd0⟩
  · rw [if_neg hsci]
    by_cases hpos : (0 : Int) ≤ e'
    · rw [if_pos hpos]
      exact ⟨d0, _, rfl, hd0⟩
    · rw [if_neg hpos]
      exact ⟨48, _, rfl, by decide⟩

/-- The first byte of the compact dump of a clean tree is a value
opener: brace, bracket, quote, literal initial, minus or digit. -/
theorem dump_head {t : ValueTree} (hc : cleanT t = true) (a b : Nat) :
    ∃ c rest, jsonDumpTree false a b t = c :: rest ∧
      (c = 123 ∨ c = 91 ∨ c = 34 ∨ c = 116 ∨ c = 102 ∨ c = 110 ∨
        c = 45 ∨ isdigit c = true) := by
  cases t with
  | empty => simp [cleanT] at hc
  | array xs => exact ⟨91, _, rfl, Or.inr (Or.inl rfl)⟩
  | object es => exact ⟨123, _, rfl, Or.inl rfl⟩
  | value v =>
    cases v with
    | none => exact ⟨110, _, rfl, by simp⟩
    | bool bv =>
        cases bv
        · exact ⟨102, _, rfl, by simp⟩
        · exact ⟨116, _, rfl, by simp⟩
    | string ss => exact ⟨34, _, rfl, by simp⟩
    | number q =>
      show ∃ c rest, fmtNumber q = c :: rest ∧ _
      by_cases hz : q.num = 0
      · rw [fmtNumber, if_pos hz]
        exact ⟨48, [], rfl, by simp [isdigit]⟩
      · rw [fmtNumber_eq q hz]
        by_cases hneg : q.num < 0
        · rw [if_pos hneg]
          exact ⟨45, _, rfl, by simp⟩
        · rw [if_neg hneg]
          obtain ⟨c, rest, heq, hdig⟩ := fmtDigits6_cons (fmtM q) (fmtE q)
          exact ⟨c, rest, by rw [heq]; rfl, Or.inr (Or.inr (Or.inr
            (Or.inr (Or.inr (Or.inr (Or.inr hdig))))))⟩

/-- A clean tree's compact dump is nonempty. -/
theorem dump_ne_nil {t : ValueTree} (hc : cleanT t = true) (a b : Nat) :
    jsonDumpTree false a b t ≠ [] := by
  obtain ⟨c, rest, heq, _⟩ := dump_head hc a b
  rw [heq]
  simp

/-- A value-opening byte is not whitespace, a slash, a closing bracket
or brace, a comma or a colon. -/
theorem opener_facts {c : Nat}
    (hd : c = 123 ∨ c = 91 ∨ c = 34 ∨ c = 116 ∨ c = 102 ∨ c = 110 ∨
      c = 45 ∨ isdigit c = true) :
    isspace c = false ∧ c ≠ 47 ∧ c ≠ 93 ∧ c ≠ 125 ∧ c ≠ 44 ∧ c ≠ 58 := by
  rcases hd with rfl | rfl | rfl | rfl | rfl | rfl | rfl | hdig
  · exact ⟨by decide, by decide, by decide, by decide, by decide, by decide⟩
  · exact ⟨by decide, by decide, by decide, by decide, by decide, by decide⟩
  · exact ⟨by decide, by decide, by decide, by decide, by decide, by decide⟩
  · exact ⟨by decide, by decide, by decide, by decide, by decide, by decide⟩
  · exact ⟨by decide, by decide, by decide, by decide, by decide, by decide⟩
  · exact ⟨by decide, by decide, by decide, by decide, by decide, by decide⟩
  · exact ⟨by decide, by decide, by decide, by decide, by decide, by decide⟩
  · obtain ⟨h1, h2⟩ := isdigit_bounds hdig
    refine ⟨?_, by omega, by omega, by omega, by omega, by omega⟩
    rw [isspace]
    simp only [Bool.or_eq_false_iff, beq_eq_false_iff_ne]
    omega

/-- First byte of the `%g` rendering: a minus sign or a digit. -/
theorem fmtNumber_head (q : NumberValue) :
    ∃ c rest, fmtNumber q = c :: rest ∧ (c = 45 ∨ isdigit c = true) := by
  by_cases hz : q.num = 0
  · rw [fmtNumber, if_pos hz]
    exact ⟨48, [], rfl, Or.inr (by decide)⟩
  · rw [fmtNumber_eq q hz]
    by_cases hneg : q.num < 0
    · rw [if_pos hneg]
      exact ⟨45, _, rfl, Or.inl rfl⟩
    · rw [if_neg hneg]
      obtain ⟨c, rest, heq, hdig⟩ := fmtDigits6_cons (fmtM q) (fmtE q)
      exact ⟨c, rest, by rw [heq]; rfl, Or.inr hdig⟩

theorem keyLt_ne {a b : Str} (hab : keyLt a b = true) : a ≠ b := by
  intro he
  subst he
  rw [keyLt_irrefl] at hab
  exact absurd hab (by simp)

theorem sortedKeys_tail {m : Str × ValueTree}
    {rest : List (Str × ValueTree)}
    (hs : sortedKeys (m :: rest) = true) : sortedKeys rest = true := by
  obtain ⟨k, v⟩ := m
  cases rest with
  | nil => rfl
  | cons m2 r2 =>
    obtain ⟨k2, v2⟩ := m2
    rw [sortedKeys] at hs
    simp only [Bool.and_eq_true] at hs
    exact hs.2

/-- In a sorted member list the first key is below every later key. -/
theorem sortedKeys_head_lt : ∀ {k : Str} {v : ValueTree}
    {rest : List (Str × ValueTree)},
    sortedKeys ((k, v) :: rest) = true →
    ∀ m ∈ rest, keyLt k m.1 = true := by
  intro k v rest
  induction rest generalizing k v with
  | nil =>
    intro _ m hm
    simp at hm
  | cons m2 r2 ih =>
    intro hs m hm
    obtain ⟨k2, v2⟩ := m2
    rw [sortedKeys] at hs
    simp only [Bool.and_eq_true] at hs
    rcases List.mem_cons.mp hm with rfl | hm
    · exact hs.1
    · exact keyLt_trans hs.1 (ih hs.2 m hm)

theorem elems_true_cons {t : ValueTree} (ht : t.isEmpty = false)
    (a b : Nat) (r : List ValueTree) :
    jsonDumpElems false a b true (t :: r) =
      jsonDumpTree false a b t ++ jsonDumpElems false a b false r := by
  rw [jsonDumpElems, if_neg (by rw [ht]; simp)]
  simp

theorem elems_false_cons {t : ValueTree} (ht : t.isEmpty = false)
    (a b : Nat) (r : List ValueTree) :
    jsonDumpElems false a b false (t :: r) =
      44 :: jsonDumpElems false a b true (t :: r) := by
  rw [jsonDumpElems, if_neg (by rw [ht]; simp), elems_true_cons ht]
  simp

theorem members_true_cons {k : Str} {t : ValueTree} (ht : t.isEmpty = false)
    (a b : Nat) (r : List (Str × ValueTree)) :
    jsonDumpMembers false a b true ((k, t) :: r) =
      34 :: (k ++ 34 :: 58 :: (jsonDumpTree false a b t
        ++ jsonDumpMembers false a b false r)) := by
  rw [jsonDumpMembers, if_neg (by rw [ht]; simp)]
  simp

theorem members_false_cons {k : Str} {t : ValueTree}
    (ht : t.isEmpty = false) (a b : Nat) (r : List (Str × ValueTree)) :
    jsonDumpMembers false a b false ((k, t) :: r) =
      44 :: jsonDumpMembers false a b true ((k, t) :: r) := by
  rw [jsonDumpMembers, if_neg (by rw [ht]; simp), members_true_cons ht]
  simp

theorem elems_flag_len (a b : Nat) : ∀ ts : List ValueTree,
    (jsonDumpElems false a b false ts).length ≤
      (jsonDumpElems false a b true ts).length + 1
  | [] => by simp [jsonDumpElems]
  | t :: r => by
    by_cases ht : t.isEmpty = true
    · rw [jsonDumpElems, if_pos ht]
      rw [show jsonDumpElems false a b true (t :: r) =
        jsonDumpElems false a b true r from by
          rw [jsonDumpElems, if_pos ht]]
      exact elems_flag_len a b r
    · rw [Bool.not_eq_true] at ht
      rw [elems_false_cons ht]
      simp

theorem members_flag_len (a b : Nat) : ∀ ms : List (Str × ValueTree),
    (jsonDumpMembers false a b false ms).length ≤
      (jsonDumpMembers false a b true ms).length + 1
  | [] => by simp [jsonDumpMembers]
  | (k, t) :: r => by
    by_cases ht : t.isEmpty = true
    · rw [jsonDumpMembers, if_pos ht]
      rw [show jsonDumpMembers false a b true ((k, t) :: r) =
        jsonDumpMembers false a b true r from by
          rw [jsonDumpMembers, if_pos ht]]
      exact members_flag_len a b r
    · rw [Bool.not_eq_true] at ht
      rw [members_false_cons ht]
      simp

mutual

/-- `szV` is dominated by three times the compact dump length: the fuel
bound behind the `3 * length + 8` budget of `jsonParse`. -/
theorem szV_le : ∀ (t : ValueTree), cleanT t = true → ∀ a b : Nat,
    szV t ≤ 3 * (jsonDumpTree false a b t).length
  | .empty, hc => by simp [cleanT] at hc
  | .value v, _ => by
    intro a b
    rw [szV]
    have h1 : 1 ≤ (jsonDumpTree false a b (.value v)).length := by
      cases v with
      | none => simp [jsonDumpTree, jsonDumpScalar, strBytes]
      | bool bv => cases bv <;> simp [jsonDumpTree, jsonDumpScalar, strBytes]
      | string ss => simp [jsonDumpTree, jsonDumpScalar]
      | number q =>
        obtain ⟨c, rest, heq, _⟩ := fmtNumber_head q
        show 1 ≤ (fmtNumber q).length
        rw [heq]
        simp
    omega
  | .array xs, hc => by
    intro a b
    have h1 := szL_le xs (by simpa [cleanT] using hc) (a + b) b
    have h2 := elems_flag_len (a + b) b xs
    rw [szV, jsonDumpTree]
    simp only [Bool.false_and, Bool.false_eq_true, if_false,
      List.append_nil, List.length_cons, List.length_append,
      List.length_singleton]
    omega
  | .object es, hc => by
    intro a b
    have hc2 : cleanM es = true := by
      rw [cleanT] at hc
      simp only [Bool.and_eq_true] at hc
      exact hc.2
    have h1 := szM_le es hc2 (a + b) b
    have h2 := members_flag_len (a + b) b es
    rw [szV, jsonDumpTree]
    simp only [Bool.false_and, Bool.false_eq_true, if_false,
      List.append_nil, List.length_cons, List.length_append,
      List.length_singleton]
    omega

theorem szL_le : ∀ (ts : List ValueTree), cleanL ts = true → ∀ a b : Nat,
    szL ts ≤ 3 * (jsonDumpElems false a b false ts).length
  | [], _ => by intro a b; simp [szL, jsonDumpElems]
  | t :: r, hc => by
    intro a b
    rw [cleanL] at hc
    simp only [Bool.and_eq_true] at hc
    obtain ⟨hct, hcr⟩ := hc
    have h1 := szV_le t hct a b
    have h2 := szL_le r hcr a b
    rw [szL, elems_false_cons (clean_not_empty hct),
      elems_true_cons (clean_not_empty hct)]
    simp only [List.length_cons, List.length_append]
    omega

theorem szM_le : ∀ (ms : List (Str × ValueTree)), cleanM ms = true →
    ∀ a b : Nat, szM ms ≤ 3 * (jsonDumpMembers false a b false ms).length
  | [], _ => by intro a b; simp [szM, jsonDumpMembers]
  | (k, t) :: r, hc => by
    intro a b
    rw [cleanM] at hc
    simp only [Bool.and_eq_true] at hc
    obtain ⟨⟨hkc, hct⟩, hcr⟩ := hc
    have h1 := szV_le t hct a b
    have h2 := szM_le r hcr a b
    rw [szM, members_false_cons (clean_not_empty hct),
      members_true_cons (clean_not_empty hct)]
    simp only [List.length_cons, List.length_append]
    omega

end

theorem escapeChar_nobreak (c : Nat) : ∀ x ∈ escapeChar c,
    x ≠ 10 ∧ x ≠ 13 := by
  intro x hx
  rw [escapeChar] at hx
  split at hx
  · simp at hx
    omega
  · split at hx
    · simp at hx
      omega
    · split at hx
      · simp at hx
        omega
      · split at hx
        · simp at hx
          omega
        · split at hx
          · simp at hx
            omega
          · split at hx
            · simp at hx
              omega
            · split at hx
              · simp at hx
                omega
              · rename_i h34 h92 h8 h12 h10 h13 h9
                simp at hx h10 h13
                omega

theorem escapeString_nobreak (ss : Str) : ∀ x ∈ escapeString ss,
    x ≠ 10 ∧ x ≠ 13 := by
  induction ss with
  | nil => intro x hx; simp [escapeString] at hx
  | cons c r ih =>
    intro x hx
    rw [escapeString_cons] at hx
    rcases List.mem_append.mp hx with hx | hx
    · exact escapeChar_nobreak c x hx
    · exact ih x hx

theorem numTok_nobreak (t : NumTok) (hwf : t.wf) : ∀ x ∈ t.bytes,
    x ≠ 10 ∧ x ≠ 13 := by
  obtain ⟨hI0, hIdig, hI48, hFdig, hEwf⟩ := hwf
  obtain ⟨neg, I, F, eS, eD⟩ := t
  intro x hx
  simp only [NumTok.bytes, List.append_assoc, List.mem_append] at hx
  rcases hx with hx | hx | hx | hx
  · cases neg <;> simp [numTokSign] at hx <;> omega
  · have := isdigit_bounds (hIdig x hx)
    omega
  · cases F with
    | nil => simp [numTokFrac] at hx
    | cons c r =>
      simp only [numTokFrac, List.mem_cons] at hx
      rcases hx with rfl | hx
      · omega
      · have := isdigit_bounds (hFdig x (by
          rcases hx with rfl | hx
          · exact List.mem_cons_self _ _
          · exact List.mem_cons_of_mem _ hx))
        omega
  · cases eS with
    | none => simp [numTokExp] at hx
    | some b =>
      obtain ⟨heD0, heDdig⟩ := hEwf (by simp)
      simp only [numTokExp, List.mem_cons] at hx
      rcases hx with rfl | hx | hx
      · omega
      · subst hx
        cases b <;> simp <;> omega
      · have := isdigit_bounds (heDdig x hx)
        omega

theorem fmtNumber_nobreak (q : NumberValue) : ∀ x ∈ fmtNumber q,
    x ≠ 10 ∧ x ≠ 13 := by
  obtain ⟨t, hb, hwf⟩ := fmtNumber_token q
  rw [← hb]
  exact numTok_nobreak t hwf

mutual

theorem dumpT_nobreak : ∀ t : ValueTree, cleanT t = true → ∀ a b x,
    x ∈ jsonDumpTree false a b t → x ≠ 10 ∧ x ≠ 13
  | .empty, hc => by simp [cleanT] at hc
  | .value v, _ => by
    intro a b x hx
    cases v with
    | none =>
      simp [jsonDumpTree, jsonDumpScalar, strBytes] at hx
      omega
    | bool bv =>
      cases bv <;>
        simp [jsonDumpTree, jsonDumpScalar, strBytes] at hx <;> omega
    | string ss =>
      simp only [jsonDumpTree, jsonDumpScalar] at hx
      rcases List.mem_cons.mp hx with rfl | hx
      · omega
      rcases List.mem_append.mp hx with hx | hx
      · exact escapeString_nobreak ss x hx
      · rw [List.mem_singleton] at hx
        subst hx
        omega
    | number q => exact fmtNumber_nobreak q x (by
        simpa [jsonDumpTree, jsonDumpScalar] using hx)
  | .array xs, hc => by
    intro a b x hx
    simp only [jsonDumpTree, Bool.false_and, Bool.false_eq_true,
      if_false, List.append_nil] at hx
    rcases List.mem_cons.mp hx with rfl | hx
    · omega
    rcases List.mem_append.mp hx with hx | hx
    · exact dumpL_nobreak xs (by simpa [cleanT] using hc) _ _ _ _ hx
    · rw [List.mem_singleton] at hx
      subst hx
      omega
  | .object es, hc => by
    intro a b x hx
    simp only [jsonDumpTree, Bool.false_and, Bool.false_eq_true,
      if_false, List.append_nil] at hx
    rcases List.mem_cons.mp hx with rfl | hx
    · omega
    rcases List.mem_append.mp hx with hx | hx
    · have hc2 : cleanM es = true := by
        rw [cleanT] at hc
        simp only [Bool.and_eq_true] at hc
        exact hc.2
      exact dumpM_nobreak es hc2 _ _ _ _ hx
    · rw [List.mem_singleton] at hx
      subst hx
      omega

theorem dumpL_nobreak : ∀ ts : List ValueTree, cleanL ts = true →
    ∀ a b fr x, x ∈ jsonDumpElems false a b fr ts → x ≠ 10 ∧ x ≠ 13
  | [], _ => by intro a b fr x hx; simp [jsonDumpElems] at hx
  | t :: rest, hc => by
    intro a b fr x hx
    rw [cleanL] at hc
    simp only [Bool.and_eq_true] at hc
    obtain ⟨hct, hcr⟩ := hc
    rw [jsonDumpElems, if_neg (by rw [clean_not_empty hct]; simp)] at hx
    simp only [Bool.false_eq_true, if_false, List.append_nil,
      List.mem_append] at hx
    rcases hx with (hx | hx) | hx
    · cases fr <;> simp at hx
      omega
    · exact dumpT_nobreak t hct _ _ x hx
    · exact dumpL_nobreak rest hcr _ _ _ x hx

theorem dumpM_nobreak : ∀ ms : List (Str × ValueTree), cleanM ms = true →
    ∀ a b fr x, x ∈ jsonDumpMembers false a b fr ms → x ≠ 10 ∧ x ≠ 13
  | [], _ => by intro a b fr x hx; simp [jsonDumpMembers] at hx
  | (k, t) :: rest, hc => by
    intro a b fr x hx
    rw [cleanM] at hc
    simp only [Bool.and_eq_true] at hc
    obtain ⟨⟨hkc, hct⟩, hcr⟩ := hc
    rw [jsonDumpMembers, if_neg (by rw [clean_not_empty hct]; simp)] at hx
    simp only [Bool.false_eq_true, if_false] at hx
    rcases List.mem_append.mp hx with hx | hx
    · rcases List.mem_append.mp hx with hx | hx
      · rcases List.mem_append.mp hx with hx | hx
        · cases fr <;> simp at hx
          omega
        · rcases List.mem_cons.mp hx with rfl | hx
          · omega
          rcases List.mem_append.mp hx with hx | hx
          · have := byteClean_spec ((List.all_eq_true.mp hkc) x hx)
            exact ⟨this.2.2.2.2.1, this.2.2.2.2.2.1⟩
          · simp at hx
            rcases hx with rfl | rfl <;> omega
      · exact dumpT_nobreak t hct _ _ x hx
    · exact dumpM_nobreak rest hcr _ _ _ x hx

end

theorem charAt_at_append (pre : Str) (c : Nat) (post : Str) :
    charAt (pre ++ c :: post) pre.length = c := by
  have := charAt_append_right pre (c :: post) 0 (by simp)
  rw [Nat.add_zero] at this
  rw [this]
  rfl

theorem charAt_shift (pre : Str) (c : Nat) (post : Str) (l : Nat)
    (hl : l < post.length) :
    charAt (pre ++ c :: post) (pre.length + 1 + l) = charAt post l := by
  rw [show pre ++ c :: post = (pre ++ [c]) ++ post from by simp]
  have := charAt_append_right (pre ++ [c]) post l hl
  rwa [show (pre ++ [c]).length = pre.length + 1 from by simp] at this

theorem charAt_headI (t : Str) : charAt t 0 = t.headI := by
  cases t <;> rfl

theorem isspace_false_break {c : Nat} (h : isspace c = false) :
    c ≠ 10 ∧ c ≠ 13 := by
  constructor <;> rintro rfl <;> simp [isspace] at h

theorem charAt_getLast (t : Str) (ht : t ≠ []) :
    charAt t (t.length - 1) = t.getLastD 0 := by
  induction t with
  | nil => exact absurd rfl ht
  | cons c r ih =>
    cases r with
    | nil => rfl
    | cons c2 r2 =>
      have : charAt (c :: c2 :: r2) ((c2 :: r2).length - 1 + 1) =
          charAt (c2 :: r2) ((c2 :: r2).length - 1) := rfl
      rw [show (c :: c2 :: r2).length - 1 = (c2 :: r2).length - 1 + 1
        from by simp, this, ih (by simp)]
      rfl

/-- The key-segment facts shared by all entry-line shapes `key=...`. -/
theorem entry_charAt_facts (k X : Str) (hk0 : k ≠ [])
    (hkb : ∀ c ∈ k, isspace c = false ∧ c ≠ 61 ∧ c ≠ 59 ∧ c ≠ 35) :
    (∀ l, l < k.length → isspace (charAt (k ++ 61 :: X) l) = false ∧
      charAt (k ++ 61 :: X) l ≠ 61 ∧ charAt (k ++ 61 :: X) l ≠ 59 ∧
      charAt (k ++ 61 :: X) l ≠ 35) ∧
    charAt (k ++ 61 :: X) k.length = 61 ∧
    charAt (k ++ 61 :: X) 0 = k.headI := by
  refine ⟨fun l hl => ?_, charAt_at_append k 61 X, ?_⟩
  · rw [charAt_append_left k _ l hl]
    exact hkb _ (charAt_mem k l hl)
  · rw [charAt_append_left k _ 0 (List.length_pos.mpr hk0), charAt_headI]

/-- An entry line built from break-free segments is break-free. -/
theorem entry_nobreak (k X : Str)
    (hkb : ∀ c ∈ k, isspace c = false ∧ c ≠ 61 ∧ c ≠ 59 ∧ c ≠ 35)
    (hXb : ∀ c ∈ X, c ≠ 10 ∧ c ≠ 13) :
    ∀ c ∈ k ++ 61 :: X, c ≠ 10 ∧ c ≠ 13 := by
  intro c hc
  rcases List.mem_append.mp hc with hc | hc
  · exact isspace_false_break (hkb c hc).1
  · rcases List.mem_cons.mp hc with rfl | hc
    · exact ⟨by omega, by omega⟩
    · exact hXb c hc

section RoundTrip

variable {s : Str} {E : Nat}

theorem jsonParseNull_run (h : splitLines s = [⟨0, s.length, E⟩]) (i : Nat)
    (hsl : (s.drop i).take 4 = strBytes "null")
    (hlen : i + 4 ≤ s.length) :
    jsonParseNull (mkContext s) (posAt s.length i) =
      some (.value .none, posAt s.length (i + 4)) := by
  have hi : i < s.length := by omega
  rw [jsonParseNull, ol_slice i 4 hi, hsl, if_neg (by simp),
    ol_moveForwardN h 4 i hlen]

theorem jsonParseTrue_run (h : splitLines s = [⟨0, s.length, E⟩]) (i : Nat)
    (hsl : (s.drop i).take 4 = strBytes "true")
    (hlen : i + 4 ≤ s.length) :
    jsonParseTrue (mkContext s) (posAt s.length i) =
      some (.value (.bool true), posAt s.length (i + 4)) := by
  have hi : i < s.length := by omega
  rw [jsonParseTrue, ol_slice i 4 hi, hsl, if_neg (by simp),
    ol_moveForwardN h 4 i hlen]

theorem jsonParseFalse_run (h : splitLines s = [⟨0, s.length, E⟩]) (i : Nat)
    (hsl : (s.drop i).take 5 = strBytes "false")
    (hlen : i + 5 ≤ s.length) :
    jsonParseFalse (mkContext s) (posAt s.length i) =
      some (.value (.bool false), posAt s.length (i + 5)) := by
  have hi : i < s.length := by omega
  rw [jsonParseFalse, ol_slice i 5 hi, hsl, if_neg (by simp),
    ol_moveForwardN h 5 i hlen]

/-- `_parseValue` on the compact dump of a scalar consumes exactly the
rendered bytes and rebuilds the scalar, requantizing numbers. -/
theorem jsonParseValue_scalar (h : splitLines s = [⟨0, s.length, E⟩])
    (v : Value) (f a b i : Nat) (t0 : ValueTree) (hf : 1 ≤ f)
    (hsl : (s.drop i).take (jsonDumpTree false a b (.value v)).length =
      jsonDumpTree false a b (.value v))
    (hlen : i + (jsonDumpTree false a b (.value v)).length ≤ s.length)
    (hstop : i + (jsonDumpTree false a b (.value v)).length = s.length ∨
      (isdigit (charAt s (i + (jsonDumpTree false a b (.value v)).length))
          = false ∧
        charAt s (i + (jsonDumpTree false a b (.value v)).length) ≠ 46 ∧
        charAt s (i + (jsonDumpTree false a b (.value v)).length) ≠ 101 ∧
        charAt s (i + (jsonDumpTree false a b (.value v)).length) ≠ 69)) :
    jsonParseValue (mkContext s) f t0 (posAt s.length i) =
      some (reQ (.value v), posAt s.length
        (i + (jsonDumpTree false a b (.value v)).length)) := by
  obtain ⟨g, rfl⟩ : ∃ g, f = g + 1 := ⟨f - 1, by omega⟩
  cases v with
  | none =>
    have hsl4 : (s.drop i).take 4 = strBytes "null" := hsl
    have hlen4 : i + 4 ≤ s.length := hlen
    have hi : i < s.length := by omega
    have hpos : (posAt s.length i).pos = i := ol_pos_lt _ hi
    have hch : charAt s i = 110 := by
      have h0 := charAt_of_slice (s := s) hsl4 (show (0:Nat) < 4 by decide)
      rwa [Nat.add_zero] at h0
    rw [jsonParseValue]
    simp only [mkContext_text, hpos, hch]
    norm_num
    exact jsonParseNull_run h i hsl4 hlen4
  | bool bv =>
    cases bv with
    | true =>
      have hsl4 : (s.drop i).take 4 = strBytes "true" := hsl
      have hlen4 : i + 4 ≤ s.length := hlen
      have hi : i < s.length := by omega
      have hpos : (posAt s.length i).pos = i := ol_pos_lt _ hi
      have hch : charAt s i = 116 := by
        have h0 := charAt_of_slice (s := s) hsl4 (show (0:Nat) < 4 by decide)
        rwa [Nat.add_zero] at h0
      rw [jsonParseValue]
      simp only [mkContext_text, hpos, hch]
      norm_num
      exact jsonParseTrue_run h i hsl4 hlen4
    | false =>
      have hsl5 : (s.drop i).take 5 = strBytes "false" := hsl
      have hlen5 : i + 5 ≤ s.length := hlen
      have hi : i < s.length := by omega
      have hpos : (posAt s.length i).pos = i := ol_pos_lt _ hi
      have hch : charAt s i = 102 := by
        have h0 := charAt_of_slice (s := s) hsl5 (show (0:Nat) < 5 by decide)
        rwa [Nat.add_zero] at h0
      rw [jsonParseValue]
      simp only [mkContext_text, hpos, hch]
      norm_num
      exact jsonParseFalse_run h i hsl5 hlen5
  | string ss =>
    have hsls : (s.drop i).take (34 :: escapeString ss ++ [34]).length =
        34 :: escapeString ss ++ [34] := hsl
    have hL : (34 :: escapeString ss ++ [34]).length =
        (escapeString ss).length + 2 := by simp
    have hlen2 : i + 1 + (escapeString ss).length + 1 ≤ s.length := by
      have h0 : i + (34 :: escapeString ss ++ [34]).length ≤ s.length := hlen
      omega
    have hi : i < s.length := by omega
    have hpos : (posAt s.length i).pos = i := ol_pos_lt _ hi
    have hch : charAt s i = 34 := by
      have h0 := charAt_of_slice (s := s) hsls
        (show (0:Nat) < (34 :: escapeString ss ++ [34]).length by simp)
      rwa [Nat.add_zero] at h0
    have hb : ∀ l, l < (escapeString ss).length →
        charAt s (i + 1 + l) = charAt (escapeString ss) l := by
      intro l hl
      have h0 := charAt_of_slice (s := s) hsls (l := l + 1)
        (by rw [hL]; omega)
      rw [show i + (l + 1) = i + 1 + l from by omega] at h0
      rw [h0, List.cons_append, charAt_cons_succ]
      exact charAt_append_left _ _ _ hl
    have hq1 : charAt s (i + 1 + (escapeString ss).length) = 34 := by
      have h0 := charAt_of_slice (s := s) hsls
        (l := (escapeString ss).length + 1) (by rw [hL]; omega)
      rw [show i + ((escapeString ss).length + 1) =
        i + 1 + (escapeString ss).length from by omega] at h0
      rw [h0, List.cons_append, charAt_cons_succ]
      exact charAt_at_append _ _ _
    have hps := jsonParseString_dump h i ss hb hq1 (by omega)
    rw [jsonParseValue]
    simp only [mkContext_text, hpos, hch]
    norm_num
    rw [hps]
    rw [show i + 2 + (escapeString ss).length =
      i + (34 :: escapeString ss ++ [34]).length from by rw [hL]; omega]
    rfl
  | number q =>
    obtain ⟨c, crest, heq, hcd⟩ := fmtNumber_head q
    obtain ⟨tk, htb, hwf⟩ := fmtNumber_token q
    have hslq : (s.drop i).take (fmtNumber q).length = fmtNumber q := hsl
    have hlenq : i + (fmtNumber q).length ≤ s.length := hlen
    have hstopq : i + (fmtNumber q).length = s.length ∨
        (isdigit (charAt s (i + (fmtNumber q).length)) = false ∧
          charAt s (i + (fmtNumber q).length) ≠ 46 ∧
          charAt s (i + (fmtNumber q).length) ≠ 101 ∧
          charAt s (i + (fmtNumber q).length) ≠ 69) := hstop
    have hL1 : 1 ≤ (fmtNumber q).length := by rw [heq]; simp
    have hi : i < s.length := by omega
    have hpos : (posAt s.length i).pos = i := ol_pos_lt _ hi
    have hch : charAt s i = c := by
      have h0 := charAt_of_slice (s := s) hslq
        (show 0 < (fmtNumber q).length from hL1)
      rw [Nat.add_zero] at h0
      rw [h0, heq, charAt_cons_zero]
    have hcb : 45 ≤ c ∧ c ≤ 57 := by
      rcases hcd with rfl | h1
      · omega
      · have := isdigit_bounds h1
        omega
    have h123 : (c == 123) = false := by simp; omega
    have h91 : (c == 91) = false := by simp; omega
    have h34 : (c == 34) = false := by simp; omega
    have h116 : (c == 116) = false := by simp; omega
    have h102 : (c == 102) = false := by simp; omega
    have h110 : (c == 110) = false := by simp; omega
    have hdisp : (c == 43 || c == 45 || isdigit c) = true := by
      rcases hcd with rfl | h1
      · decide
      · simp [h1]
    have hsl3 : (s.drop i).take tk.bytes.length = tk.bytes := by
      rw [htb]
      exact hslq
    have hnum := jsonParseNumber_tok h i tk hwf hsl3
      (by rw [htb]; exact hlenq) (by rw [htb]; exact hstopq)
    rw [htb] at hnum
    rw [jsonParseValue]
    simp only [mkContext_text, hpos, hch, h123, h91, h34, h116, h102, h110,
      hdisp, Bool.false_eq_true, if_false, if_true]
    rw [hnum]
    rfl

theorem ol_skipWs_noop (h : splitLines s = [⟨0, s.length, E⟩]) {j : Nat}
    (hc : s.length ≤ j ∨
      (isspace (charAt s j) = false ∧ charAt s j ≠ 47)) :
    jsonSkipWhitespace (mkContext s) (posAt s.length j) =
      posAt s.length j := by
  rw [jsonSkipWhitespace]
  exact jsonSkipWs_noop h j hc _

theorem ol_valid_true {j : Nat} (hj : j < s.length) :
    (posAt s.length j).valid = true := by
  rw [ol_valid]
  simp [hj]

end RoundTrip

section RoundTrip2

variable {s : Str} {E : Nat}

theorem charAt_seg {i m : Nat} {seg : Str}
    (hsl : (s.drop i).take m = seg) {l : Nat} (hl : l < m) {c : Nat}
    (hc : charAt seg l = c) : charAt s (i + l) = c := by
  rw [charAt_of_slice hsl hl, hc]

mutual

/-- `json::_parseValue` on the compact dump of a clean tree: consumes
exactly the dumped bytes and returns the requantized tree. -/
theorem jsonParseValue_dump (h : splitLines s = [⟨0, s.length, E⟩]) :
    ∀ (t : ValueTree), cleanT t = true → ∀ (f a b i : Nat),
      szV t ≤ f →
      (s.drop i).take (jsonDumpTree false a b t).length =
        jsonDumpTree false a b t →
      i + (jsonDumpTree false a b t).length ≤ s.length →
      (i + (jsonDumpTree false a b t).length = s.length ∨
        (isdigit (charAt s (i + (jsonDumpTree false a b t).length))
            = false ∧
          charAt s (i + (jsonDumpTree false a b t).length) ≠ 46 ∧
          charAt s (i + (jsonDumpTree false a b t).length) ≠ 101 ∧
          charAt s (i + (jsonDumpTree false a b t).length) ≠ 69)) →
      jsonParseValue (mkContext s) f .empty (posAt s.length i) =
        some (reQ t,
          posAt s.length (i + (jsonDumpTree false a b t).length))
  | .empty, hc => by simp [cleanT] at hc
  | .value v, _ => by
    intro f a b i hf hsl hlen hstop
    exact jsonParseValue_scalar h v f a b i .empty hf hsl hlen hstop
  | .array [], _ => by
    intro f a b i hf hsl hlen hstop
    have hdl : jsonDumpTree false a b (.array ([] : List ValueTree)) =
        91 :: (jsonDumpElems false (a + b) b true [] ++ [93]) := by
      rw [jsonDumpTree]
      simp only [Bool.false_and, Bool.false_eq_true, if_false,
        List.append_nil, List.cons_append]
    have hL2 : (jsonDumpTree false a b
        (.array ([] : List ValueTree))).length = 2 := by
      rw [hdl]
      rfl
    have hi : i < s.length := by omega
    have hpos : (posAt s.length i).pos = i := ol_pos_lt _ hi
    have hch : charAt s i = 91 := by
      have h0 := charAt_of_slice (s := s) hsl
        (show (0:Nat) < _ by rw [hL2]; omega)
      rw [Nat.add_zero] at h0
      rw [h0, hdl, charAt_cons_zero]
    obtain ⟨f1, rfl⟩ : ∃ f1, f = f1 + 1 :=
      ⟨f - 1, by rw [szV] at hf; omega⟩
    obtain ⟨f2, rfl⟩ : ∃ f2, f1 = f2 + 1 :=
      ⟨f1 - 1, by rw [szV] at hf; omega⟩
    rw [jsonParseValue]
    simp only [mkContext_text, hpos, hch]
    norm_num
    rw [jsonParseArray, ol_moveForward h i]
    have hi1 : i + 1 < s.length := by omega
    have hch1 : charAt s (i + 1) = 93 := by
      refine charAt_seg hsl (by omega) ?_
      rw [hdl]
      rfl
    rw [ol_skipWs_noop (E := E) h
      (Or.inr ⟨by rw [hch1]; decide, by rw [hch1]; decide⟩)]
    simp only [ValueTree.asArray, mkContext_text, ol_pos_lt _ hi1,
      ol_valid_true hi1, hch1]
    norm_num
    rw [ol_moveForward h (i + 1)]
    rw [show i + 1 + 1 = i + (jsonDumpTree false a b
      (.array ([] : List ValueTree))).length from by rw [hL2]]
    exact ⟨by simp [reQ, reQL], rfl⟩
  | .array (x :: xr), hc => by
    intro f a b i hf hsl hlen hstop
    have hcx : cleanL (x :: xr) = true := by simpa [cleanT] using hc
    have hdl : jsonDumpTree false a b (.array (x :: xr)) =
        91 :: (jsonDumpElems false (a + b) b true (x :: xr) ++ [93]) := by
      rw [jsonDumpTree]
      simp only [Bool.false_and, Bool.false_eq_true, if_false,
        List.append_nil, List.cons_append]
    have hLa : (jsonDumpTree false a b (.array (x :: xr))).length =
        (jsonDumpElems false (a + b) b true (x :: xr)).length + 2 := by
      rw [hdl]
      simp
    have hi : i < s.length := by omega
    have hpos : (posAt s.length i).pos = i := ol_pos_lt _ hi
    have hch : charAt s i = 91 := by
      have h0 := charAt_of_slice (s := s) hsl
        (show (0:Nat) < _ by rw [hLa]; omega)
      rw [Nat.add_zero] at h0
      rw [h0, hdl, charAt_cons_zero]
    obtain ⟨f1, rfl⟩ : ∃ f1, f = f1 + 1 :=
      ⟨f - 1, by rw [szV] at hf; omega⟩
    obtain ⟨f2, rfl⟩ : ∃ f2, f1 = f2 + 1 :=
      ⟨f1 - 1, by rw [szV] at hf; omega⟩
    have hf2 : szL (x :: xr) ≤ f2 := by rw [szV] at hf; omega
    rw [jsonParseValue]
    simp only [mkContext_text, hpos, hch]
    norm_num
    rw [jsonParseArray, ol_moveForward h i]
    have hcx1 : cleanT x = true ∧ cleanL xr = true := by
      rw [cleanL] at hcx
      simp only [Bool.and_eq_true] at hcx
      exact hcx
    have hne : x.isEmpty = false := clean_not_empty hcx1.1
    have helems : jsonDumpElems false (a + b) b true (x :: xr) =
        jsonDumpTree false (a + b) b x
          ++ jsonDumpElems false (a + b) b false xr :=
      elems_true_cons hne (a + b) b xr
    obtain ⟨c0, r0, hx0, hx0d⟩ := dump_head hcx1.1 (a + b) b
    have hof := opener_facts hx0d
    have hi1 : i + 1 < s.length := by
      have h2 : (jsonDumpElems false (a + b) b true (x :: xr)).length =
          (jsonDumpTree false (a + b) b x).length
            + (jsonDumpElems false (a + b) b false xr).length := by
        rw [helems]
        simp
      have h1 : 1 ≤ (jsonDumpTree false (a + b) b x).length := by
        rw [hx0]
        simp
      omega
    have hch1 : charAt s (i + 1) = c0 := by
      refine charAt_seg hsl (by rw [hLa]; omega) ?_
      rw [hdl, helems, hx0]
      rfl
    rw [ol_skipWs_noop (E := E) h
      (Or.inr ⟨by rw [hch1]; exact hof.1, by rw [hch1]; exact hof.2.1⟩)]
    simp only [ValueTree.asArray, mkContext_text, ol_pos_lt _ hi1,
      ol_valid_true hi1, hch1]
    have h93 : (c0 == 93) = false := beq_eq_false_iff_ne.mpr hof.2.2.1
    simp only [h93, Bool.and_false, Bool.true_and, Bool.false_eq_true,
      if_false]
    have hslE : (s.drop (i + 1)).take
        ((jsonDumpElems false (a + b) b true (x :: xr)).length + 1) =
        jsonDumpElems false (a + b) b true (x :: xr) ++ [93] := by
      rw [hdl] at hsl
      have h0 := slice_shift (s := s) hsl 1
      simp only [List.length_cons, Nat.add_sub_cancel, List.drop_one,
        List.tail_cons] at h0
      have hlx : (jsonDumpElems false (a + b) b true (x :: xr)
          ++ [93]).length =
          (jsonDumpElems false (a + b) b true (x :: xr)).length + 1 := by
        simp
      rw [hlx] at h0
      exact h0
    have hEcall := jsonParseElems_dump h (x :: xr) hcx (by simp)
      f2 (a + b) b (i + 1) [] hf2 hslE (by omega)
    rw [hEcall, List.nil_append,
      show i + 1 + (jsonDumpElems false (a + b) b true (x :: xr)).length
        + 1 = i + (jsonDumpTree false a b (.array (x :: xr))).length
        from by omega]
    rfl
  | .object [], _ => by
    intro f a b i hf hsl hlen hstop
    have hdl : jsonDumpTree false a b
        (.object ([] : List (Str × ValueTree))) =
        123 :: (jsonDumpMembers false (a + b) b true [] ++ [125]) := by
      rw [jsonDumpTree]
      simp only [Bool.false_and, Bool.false_eq_true, if_false,
        List.append_nil, List.cons_append]
    have hL2 : (jsonDumpTree false a b
        (.object ([] : List (Str × ValueTree)))).length = 2 := by
      rw [hdl]
      rfl
    have hi : i < s.length := by omega
    have hpos : (posAt s.length i).pos = i := ol_pos_lt _ hi
    have hch : charAt s i = 123 := by
      have h0 := charAt_of_slice (s := s) hsl
        (show (0:Nat) < _ by rw [hL2]; omega)
      rw [Nat.add_zero] at h0
      rw [h0, hdl, charAt_cons_zero]
    obtain ⟨f1, rfl⟩ : ∃ f1, f = f1 + 1 :=
      ⟨f - 1, by rw [szV] at hf; omega⟩
    obtain ⟨f2, rfl⟩ : ∃ f2, f1 = f2 + 1 :=
      ⟨f1 - 1, by rw [szV] at hf; omega⟩
    rw [jsonParseValue]
    simp only [mkContext_text, hpos, hch]
    norm_num
    rw [jsonParseObject, ol_moveForward h i]
    have hi1 : i + 1 < s.length := by omega
    have hch1 : charAt s (i + 1) = 125 := by
      refine charAt_seg hsl (by omega) ?_
      rw [hdl]
      rfl
    rw [ol_skipWs_noop (E := E) h
      (Or.inr ⟨by rw [hch1]; decide, by rw [hch1]; decide⟩)]
    simp only [ValueTree.asObject, mkContext_text, ol_pos_lt _ hi1,
      ol_valid_true hi1, hch1]
    norm_num
    rw [ol_moveForward h (i + 1)]
    rw [show i + 1 + 1 = i + (jsonDumpTree false a b
      (.object ([] : List (Str × ValueTree)))).length from by rw [hL2]]
    exact ⟨by simp [reQ, reQM], rfl⟩
  | .object ((k1, t1) :: er), hc => by
    intro f a b i hf hsl hlen hstop
    have hcm : sortedKeys ((k1, t1) :: er) = true ∧
        cleanM ((k1, t1) :: er) = true := by
      rw [cleanT] at hc
      simp only [Bool.and_eq_true] at hc
      exact hc
    have hdl : jsonDumpTree false a b (.object ((k1, t1) :: er)) =
        123 :: (jsonDumpMembers false (a + b) b true ((k1, t1) :: er)
          ++ [125]) := by
      rw [jsonDumpTree]
      simp only [Bool.false_and, Bool.false_eq_true, if_false,
        List.append_nil, List.cons_append]
    have hLa : (jsonDumpTree false a b (.object ((k1, t1) :: er))).length =
        (jsonDumpMembers false (a + b) b true ((k1, t1) :: er)).length
          + 2 := by
      rw [hdl]
      simp
    have hi : i < s.length := by omega
    have hpos : (posAt s.length i).pos = i := ol_pos_lt _ hi
    have hch : charAt s i = 123 := by
      have h0 := charAt_of_slice (s := s) hsl
        (show (0:Nat) < _ by rw [hLa]; omega)
      rw [Nat.add_zero] at h0
      rw [h0, hdl, charAt_cons_zero]
    obtain ⟨f1, rfl⟩ : ∃ f1, f = f1 + 1 :=
      ⟨f - 1, by rw [szV] at hf; omega⟩
    obtain ⟨f2, rfl⟩ : ∃ f2, f1 = f2 + 1 :=
      ⟨f1 - 1, by rw [szV] at hf; omega⟩
    have hf2 : szM ((k1, t1) :: er) ≤ f2 := by rw [szV] at hf; omega
    rw [jsonParseValue]
    simp only [mkContext_text, hpos, hch]
    norm_num
    rw [jsonParseObject, ol_moveForward h i]
    have hcm1 : (k1.all byteClean = true ∧ cleanT t1 = true) ∧
        cleanM er = true := by
      have h0 := hcm.2
      rw [cleanM] at h0
      simp only [Bool.and_eq_true] at h0
      exact h0
    have hnet1 : t1.isEmpty = false := clean_not_empty hcm1.1.2
    have hmt1 : jsonDumpMembers false (a + b) b true ((k1, t1) :: er) =
        34 :: (k1 ++ 34 :: 58 :: (jsonDumpTree false (a + b) b t1
          ++ jsonDumpMembers false (a + b) b false er)) :=
      members_true_cons hnet1 (a + b) b er
    have hi1 : i + 1 < s.length := by
      have h2 : 1 ≤ (jsonDumpMembers false (a + b) b true
          ((k1, t1) :: er)).length := by
        rw [hmt1]
        simp
      omega
    have hch1 : charAt s (i + 1) = 34 := by
      refine charAt_seg hsl (by rw [hLa]; omega) ?_
      rw [hdl, hmt1]
      rfl
    rw [ol_skipWs_noop (E := E) h
      (Or.inr ⟨by rw [hch1]; decide, by rw [hch1]; decide⟩)]
    simp only [ValueTree.asObject, mkContext_text, ol_pos_lt _ hi1,
      ol_valid_true hi1, hch1]
    norm_num
    have hslM : (s.drop (i + 1)).take
        ((jsonDumpMembers false (a + b) b true ((k1, t1) :: er)).length
          + 1) =
        jsonDumpMembers false (a + b) b true ((k1, t1) :: er)
          ++ [125] := by
      rw [hdl] at hsl
      have h0 := slice_shift (s := s) hsl 1
      simp only [List.length_cons, Nat.add_sub_cancel, List.drop_one,
        List.tail_cons] at h0
      have hlx : (jsonDumpMembers false (a + b) b true ((k1, t1) :: er)
          ++ [125]).length =
          (jsonDumpMembers false (a + b) b true
            ((k1, t1) :: er)).length + 1 := by
        simp
      rw [hlx] at h0
      exact h0
    have hMcall := jsonParseMembers_dump h ((k1, t1) :: er) hcm.2
      (by simp) hcm.1 f2 (a + b) b (i + 1) [] hf2
      (fun e he => absurd he (List.not_mem_nil e)) hslM (by omega)
    rw [hMcall, List.nil_append,
      show i + 1 + (jsonDumpMembers false (a + b) b true
          ((k1, t1) :: er)).length + 1 =
        i + (jsonDumpTree false a b (.object ((k1, t1) :: er))).length
        from by omega]
    rfl

theorem jsonParseElems_dump (h : splitLines s = [⟨0, s.length, E⟩]) :
    ∀ (ts : List ValueTree), cleanL ts = true → ts ≠ [] →
      ∀ (f a b i : Nat) (xs : List ValueTree),
        szL ts ≤ f →
        (s.drop i).take ((jsonDumpElems false a b true ts).length + 1) =
          jsonDumpElems false a b true ts ++ [93] →
        i + (jsonDumpElems false a b true ts).length + 1 ≤ s.length →
        jsonParseArrayLoop (mkContext s) f xs (posAt s.length i) =
          some (.array (xs ++ reQL ts),
            posAt s.length
              (i + (jsonDumpElems false a b true ts).length + 1))
  | [], _, hne => by simp at hne
  | [t], hc, _ => by
    intro f a b i xs hf hsl hlen
    have hcp : cleanT t = true ∧ cleanL ([] : List ValueTree) = true := by
      rw [cleanL] at hc
      simp only [Bool.and_eq_true] at hc
      exact hc
    have hnet : t.isEmpty = false := clean_not_empty hcp.1
    have helems : jsonDumpElems false a b true [t] =
        jsonDumpTree false a b t
          ++ jsonDumpElems false a b false ([] : List ValueTree) :=
      elems_true_cons hnet a b []
    have hDT1 : 1 ≤ (jsonDumpTree false a b t).length :=
      List.length_pos.mpr (dump_ne_nil hcp.1 a b)
    have hze : (jsonDumpElems false a b false
        ([] : List ValueTree)).length = 0 := rfl
    have hlen_split : (jsonDumpElems false a b true [t]).length =
        (jsonDumpTree false a b t).length
          + (jsonDumpElems false a b false ([] : List ValueTree)).length
        := by
      rw [helems]
      simp
    have hseg : (s.drop i).take
        ((jsonDumpElems false a b true [t]).length + 1) =
        jsonDumpTree false a b t
          ++ (jsonDumpElems false a b false ([] : List ValueTree)
            ++ [93]) := by
      rw [hsl, helems, List.append_assoc]
    have hslT : (s.drop i).take (jsonDumpTree false a b t).length =
        jsonDumpTree false a b t :=
      slice_prefix hseg rfl (by omega)
    have hi : i < s.length := by omega
    obtain ⟨g, rfl⟩ : ∃ g, f = g + 1 := ⟨f - 1, by rw [szL] at hf; omega⟩
    have hgV : szV t ≤ g := by rw [szL] at hf; omega
    obtain ⟨c0, r0, hx0, hx0d⟩ := dump_head hcp.1 a b
    have hof := opener_facts hx0d
    have hch : charAt s i = c0 := by
      have h1 := charAt_seg hslT (l := 0) (by omega)
        (by rw [hx0, charAt_cons_zero])
      rwa [Nat.add_zero] at h1
    rw [jsonParseArrayLoop]
    simp only [ol_valid_true hi, Bool.not_true, Bool.false_eq_true,
      if_false]
    rw [ol_skipWs_noop (E := E) h
      (Or.inr ⟨by rw [hch]; exact hof.1, by rw [hch]; exact hof.2.1⟩)]
    have h93 : charAt s (i + (jsonDumpTree false a b t).length) = 93 := by
      refine charAt_seg hseg (by omega) ?_
      have h1 := charAt_append_right (jsonDumpTree false a b t)
        (jsonDumpElems false a b false ([] : List ValueTree) ++ [93]) 0
        (by simp)
      rw [Nat.add_zero] at h1
      rw [h1]
      rfl
    have hstopT : i + (jsonDumpTree false a b t).length = s.length ∨
        (isdigit (charAt s (i + (jsonDumpTree false a b t).length))
            = false ∧
          charAt s (i + (jsonDumpTree false a b t).length) ≠ 46 ∧
          charAt s (i + (jsonDumpTree false a b t).length) ≠ 101 ∧
          charAt s (i + (jsonDumpTree false a b t).length) ≠ 69) :=
      Or.inr ⟨by rw [h93]; decide, by rw [h93]; decide,
        by rw [h93]; decide, by rw [h93]; decide⟩
    have hlenV : i + (jsonDumpTree false a b t).length ≤ s.length := by
      omega
    have hV := jsonParseValue_dump h t hcp.1 g a b i hgV hslT hlenV
      hstopT
    rw [hV]
    dsimp only []
    have hip : i + (jsonDumpTree false a b t).length < s.length := by
      omega
    rw [ol_skipWs_noop (E := E) h
      (Or.inr ⟨by rw [h93]; decide, by rw [h93]; decide⟩)]
    simp only [mkContext_text, ol_pos_lt _ hip, ol_valid_true hip, h93]
    norm_num
    rw [ol_moveForward h (i + (jsonDumpTree false a b t).length)]
    rw [show i + (jsonDumpTree false a b t).length + 1 =
      i + (jsonDumpElems false a b true [t]).length + 1 from by omega]
    exact ⟨by simp [reQL], rfl⟩
  | t :: r2 :: rr, hc, _ => by
    intro f a b i xs hf hsl hlen
    have hcp : cleanT t = true ∧ cleanL (r2 :: rr) = true := by
      rw [cleanL] at hc
      simp only [Bool.and_eq_true] at hc
      exact hc
    have hnet : t.isEmpty = false := clean_not_empty hcp.1
    have helems : jsonDumpElems false a b true (t :: r2 :: rr) =
        jsonDumpTree false a b t
          ++ jsonDumpElems false a b false (r2 :: rr) :=
      elems_true_cons hnet a b (r2 :: rr)
    have hDT1 : 1 ≤ (jsonDumpTree false a b t).length :=
      List.length_pos.mpr (dump_ne_nil hcp.1 a b)
    have hlen_split : (jsonDumpElems false a b true (t :: r2 :: rr)).length
        = (jsonDumpTree false a b t).length
          + (jsonDumpElems false a b false (r2 :: rr)).length := by
      rw [helems]
      simp
    have hcr2 : cleanT r2 = true ∧ cleanL rr = true := by
      have hcr := hcp.2
      rw [cleanL] at hcr
      simp only [Bool.and_eq_true] at hcr
      exact hcr
    have hner2 : r2.isEmpty = false := clean_not_empty hcr2.1
    have hERl : (jsonDumpElems false a b false (r2 :: rr)).length =
        (jsonDumpElems false a b true (r2 :: rr)).length + 1 := by
      rw [elems_false_cons hner2]
      simp
    have hseg : (s.drop i).take
        ((jsonDumpElems false a b true (t :: r2 :: rr)).length + 1) =
        jsonDumpTree false a b t
          ++ (jsonDumpElems false a b false (r2 :: rr) ++ [93]) := by
      rw [hsl, helems, List.append_assoc]
    have hslT : (s.drop i).take (jsonDumpTree false a b t).length =
        jsonDumpTree false a b t :=
      slice_prefix hseg rfl (by omega)
    have hi : i < s.length := by omega
    obtain ⟨g, rfl⟩ : ∃ g, f = g + 1 := ⟨f - 1, by rw [szL] at hf; omega⟩
    have hgV : szV t ≤ g := by rw [szL] at hf; omega
    have hgL : szL (r2 :: rr) ≤ g := by rw [szL] at hf; omega
    obtain ⟨c0, r0, hx0, hx0d⟩ := dump_head hcp.1 a b
    have hof := opener_facts hx0d
    have hch : charAt s i = c0 := by
      have h1 := charAt_seg hslT (l := 0) (by omega)
        (by rw [hx0, charAt_cons_zero])
      rwa [Nat.add_zero] at h1
    rw [jsonParseArrayLoop]
    simp only [ol_valid_true hi, Bool.not_true, Bool.false_eq_true,
      if_false]
    rw [ol_skipWs_noop (E := E) h
      (Or.inr ⟨by rw [hch]; exact hof.1, by rw [hch]; exact hof.2.1⟩)]
    have h44 : charAt s (i + (jsonDumpTree false a b t).length) = 44 := by
      refine charAt_seg hseg (by omega) ?_
      have h1 := charAt_append_right (jsonDumpTree false a b t)
        (jsonDumpElems false a b false (r2 :: rr) ++ [93]) 0 (by simp)
      rw [Nat.add_zero] at h1
      rw [h1, elems_false_cons hner2, List.cons_append, charAt_cons_zero]
    have hstopT : i + (jsonDumpTree false a b t).length = s.length ∨
        (isdigit (charAt s (i + (jsonDumpTree false a b t).length))
            = false ∧
          charAt s (i + (jsonDumpTree false a b t).length) ≠ 46 ∧
          charAt s (i + (jsonDumpTree false a b t).length) ≠ 101 ∧
          charAt s (i + (jsonDumpTree false a b t).length) ≠ 69) :=
      Or.inr ⟨by rw [h44]; decide, by rw [h44]; decide,
        by rw [h44]; decide, by rw [h44]; decide⟩
    have hlenV : i + (jsonDumpTree false a b t).length ≤ s.length := by
      omega
    have hV := jsonParseValue_dump h t hcp.1 g a b i hgV hslT hlenV
      hstopT
    rw [hV]
    dsimp only []
    have hip : i + (jsonDumpTree false a b t).length < s.length := by
      omega
    rw [ol_skipWs_noop (E := E) h
      (Or.inr ⟨by rw [h44]; decide, by rw [h44]; decide⟩)]
    simp only [mkContext_text, ol_pos_lt _ hip, ol_valid_true hip, h44]
    norm_num
    rw [ol_moveForward h (i + (jsonDumpTree false a b t).length)]
    have hET21 : 1 ≤ (jsonDumpElems false a b true (r2 :: rr)).length
        := by
      obtain ⟨c2, r2b, hx2, _⟩ := dump_head hcr2.1 a b
      rw [elems_true_cons hner2, hx2]
      simp
    have hslR : (s.drop (i + (jsonDumpTree false a b t).length + 1)).take
        ((jsonDumpElems false a b true (r2 :: rr)).length + 1) =
        jsonDumpElems false a b true (r2 :: rr) ++ [93] := by
      have s1 := slice_shift (s := s) hseg
        (jsonDumpTree false a b t).length
      rw [List.drop_left] at s1
      have s2 := slice_shift (s := s) s1 1
      rw [elems_false_cons hner2] at s2
      simp only [List.cons_append, List.drop_one, List.tail_cons] at s2
      rw [show (jsonDumpElems false a b true (t :: r2 :: rr)).length + 1
          - (jsonDumpTree false a b t).length - 1 =
        (jsonDumpElems false a b true (r2 :: rr)).length + 1
        from by omega] at s2
      exact s2
    obtain ⟨c2, r2b, hx2, hx2d⟩ := dump_head hcr2.1 a b
    have hof2 := opener_facts hx2d
    have hch2 : charAt s (i + (jsonDumpTree false a b t).length + 1)
        = c2 := by
      have h0 : charAt (jsonDumpElems false a b true (r2 :: rr)
          ++ [93]) 0 = c2 := by
        rw [elems_true_cons hner2, hx2]
        rfl
      have h1 := charAt_seg hslR (l := 0) (by omega) h0
      rwa [Nat.add_zero] at h1
    have hnows : isspace (charAt s (i + (jsonDumpTree false a b t).length
        + 1)) = false := by
      rw [hch2]
      exact hof2.1
    have hno47 : charAt s (i + (jsonDumpTree false a b t).length + 1)
        ≠ 47 := by
      rw [hch2]
      exact hof2.2.1
    rw [ol_skipWs_noop (E := E) h (Or.inr ⟨hnows, hno47⟩)]
    have hip1 : i + (jsonDumpTree false a b t).length + 1 < s.length :=
      by omega
    simp only [mkContext_text, ol_pos_lt _ hip1, ol_valid_true hip1,
      hch2]
    rw [if_neg (show ¬ (True ∧ c2 = 93) from
      fun hx => hof2.2.2.1 hx.2)]
    have hIH := jsonParseElems_dump h (r2 :: rr) hcp.2 (by simp)
      g a b (i + (jsonDumpTree false a b t).length + 1)
      (xs ++ [reQ t]) hgL hslR (by omega)
    rw [hIH]
    rw [show xs ++ [reQ t] ++ reQL (r2 :: rr) =
      xs ++ reQL (t :: r2 :: rr) from by
        rw [List.append_assoc]
        rfl]
    rw [show i + (jsonDumpTree false a b t).length + 1 +
        (jsonDumpElems false a b true (r2 :: rr)).length + 1 =
        i + (jsonDumpElems false a b true (t :: r2 :: rr)).length + 1
      from by omega]

theorem jsonParseMembers_dump (h : splitLines s = [⟨0, s.length, E⟩]) :
    ∀ (ms : List (Str × ValueTree)), cleanM ms = true → ms ≠ [] →
      sortedKeys ms = true →
      ∀ (f a b i : Nat) (es : List (Str × ValueTree)),
        szM ms ≤ f →
        (∀ e ∈ es, ∀ m ∈ ms, keyLt e.1 m.1 = true) →
        (s.drop i).take ((jsonDumpMembers false a b true ms).length + 1) =
          jsonDumpMembers false a b true ms ++ [125] →
        i + (jsonDumpMembers false a b true ms).length + 1 ≤ s.length →
        jsonParseObjectLoop (mkContext s) f es (posAt s.length i) =
          some (.object (es ++ reQM ms),
            posAt s.length
              (i + (jsonDumpMembers false a b true ms).length + 1))
  | [], _, hne, _ => by simp at hne
  | [(k, t)], hc, _, hsort => by
    intro f a b i es hf hacc hsl hlen
    have hcp : (k.all byteClean = true ∧ cleanT t = true) ∧
        cleanM ([] : List (Str × ValueTree)) = true := by
      rw [cleanM] at hc
      simp only [Bool.and_eq_true] at hc
      exact hc
    obtain ⟨⟨hkc, hct⟩, hcr⟩ := hcp
    have hnet : t.isEmpty = false := clean_not_empty hct
    have hmt : jsonDumpMembers false a b true [(k, t)] =
        34 :: (k ++ 34 :: 58 :: (jsonDumpTree false a b t
          ++ jsonDumpMembers false a b false
            ([] : List (Str × ValueTree)))) :=
      members_true_cons hnet a b []
    have hze : (jsonDumpMembers false a b false
        ([] : List (Str × ValueTree))).length = 0 := rfl
    have hml : (jsonDumpMembers false a b true [(k, t)]).length =
        k.length + 3 + (jsonDumpTree false a b t).length
          + (jsonDumpMembers false a b false
            ([] : List (Str × ValueTree))).length := by
      rw [hmt]
      simp
      omega
    have hDT1 : 1 ≤ (jsonDumpTree false a b t).length :=
      List.length_pos.mpr (dump_ne_nil hct a b)
    have hseg : (s.drop i).take
        ((jsonDumpMembers false a b true [(k, t)]).length + 1) =
        34 :: (k ++ 34 :: 58 :: (jsonDumpTree false a b t
          ++ (jsonDumpMembers false a b false
            ([] : List (Str × ValueTree)) ++ [125]))) := by
      rw [hsl, hmt]
      simp only [List.cons_append, List.append_assoc]
    have hesc : escapeString k = k :=
      escapeString_clean_id (fun c0 hc0 => List.all_eq_true.mp hkc c0 hc0)
    have hb : ∀ l, l < (escapeString k).length →
        charAt s (i + 1 + l) = charAt (escapeString k) l := by
      rw [hesc]
      intro l hl
      have h0 : charAt (34 :: (k ++ 34 :: 58 :: (jsonDumpTree false a b t
          ++ (jsonDumpMembers false a b false
            ([] : List (Str × ValueTree)) ++ [125])))) (l + 1) =
          charAt k l := by
        rw [charAt_cons_succ]
        exact charAt_append_left _ _ _ hl
      have h1 := charAt_seg hseg (l := l + 1) (by omega) h0
      rwa [show i + (l + 1) = i + 1 + l from by omega] at h1
    have hq1 : charAt s (i + 1 + (escapeString k).length) = 34 := by
      rw [hesc]
      have h0 : charAt (34 :: (k ++ 34 :: 58 :: (jsonDumpTree false a b t
          ++ (jsonDumpMembers false a b false
            ([] : List (Str × ValueTree)) ++ [125]))))
          (k.length + 1) = 34 := by
        rw [charAt_cons_succ]
        exact charAt_at_append _ _ _
      have h1 := charAt_seg hseg (l := k.length + 1) (by omega) h0
      rwa [show i + (k.length + 1) = i + 1 + k.length from by omega] at h1
    have hi : i < s.length := by omega
    have hlt : i + 1 + (escapeString k).length < s.length := by
      rw [hesc]
      omega
    have hstr := jsonParseString_dump h i k hb hq1 hlt
    rw [hesc] at hstr
    obtain ⟨g, rfl⟩ : ∃ g, f = g + 1 := ⟨f - 1, by rw [szM] at hf; omega⟩
    have hgV : szV t ≤ g := by rw [szM] at hf; omega
    rw [jsonParseObjectLoop]
    simp only [ol_valid_true hi, Bool.not_true, Bool.false_eq_true,
      if_false]
    have hch0 : charAt s i = 34 := by
      have h1 := charAt_seg hseg (l := 0) (by omega) (by rfl)
      rwa [Nat.add_zero] at h1
    rw [ol_skipWs_noop (E := E) h
      (Or.inr ⟨by rw [hch0]; decide, by rw [hch0]; decide⟩)]
    simp only [mkContext_text, ol_pos_lt _ hi, hch0]
    norm_num
    rw [hstr]
    dsimp only []
    have hcolon : charAt s (i + 2 + k.length) = 58 := by
      have h0 : charAt (34 :: (k ++ 34 :: 58 :: (jsonDumpTree false a b t
          ++ (jsonDumpMembers false a b false
            ([] : List (Str × ValueTree)) ++ [125]))))
          (k.length + 1 + 1) = 58 := by
        rw [charAt_cons_succ]
        have h1 := charAt_append_right k
          (34 :: 58 :: (jsonDumpTree false a b t
            ++ (jsonDumpMembers false a b false
              ([] : List (Str × ValueTree)) ++ [125]))) 1 (by simp)
        rw [h1]
        rfl
      have h1 := charAt_seg hseg (l := k.length + 1 + 1) (by omega) h0
      rwa [show i + (k.length + 1 + 1) = i + 2 + k.length from by omega]
        at h1
    have hip2 : i + 2 + k.length < s.length := by omega
    rw [ol_skipWs_noop (E := E) h
      (Or.inr ⟨by rw [hcolon]; decide, by rw [hcolon]; decide⟩)]
    simp only [mkContext_text, ol_pos_lt _ hip2, ol_valid_true hip2,
      hcolon]
    norm_num
    rw [ol_moveForward h (i + 2 + k.length)]
    obtain ⟨c0, r0, hx0, hx0d⟩ := dump_head hct a b
    have hof := opener_facts hx0d
    have hchD : charAt s (i + 2 + k.length + 1) = c0 := by
      have h0 : charAt (34 :: (k ++ 34 :: 58 :: (jsonDumpTree false a b t
          ++ (jsonDumpMembers false a b false
            ([] : List (Str × ValueTree)) ++ [125]))))
          (k.length + 1 + 1 + 1) = c0 := by
        rw [charAt_cons_succ]
        have h1 := charAt_append_right k
          (34 :: 58 :: (jsonDumpTree false a b t
            ++ (jsonDumpMembers false a b false
              ([] : List (Str × ValueTree)) ++ [125]))) (1 + 1)
          (by simp)
        rw [show k.length + 1 + 1 = k.length + (1 + 1) from by omega, h1,
          hx0]
        rfl
      have h1 := charAt_seg hseg (l := k.length + 1 + 1 + 1) (by omega) h0
      rwa [show i + (k.length + 1 + 1 + 1) = i + 2 + k.length + 1
        from by omega] at h1
    rw [ol_skipWs_noop (E := E) h
      (Or.inr ⟨by rw [hchD]; exact hof.1, by rw [hchD]; exact hof.2.1⟩)]
    have hfind : mapFind k es = Option.none :=
      mapFind_eq_none (fun p hp =>
        keyLt_ne (hacc p hp (k, t) (List.mem_cons_self _ _)))
    rw [hfind]
    simp only [Option.getD_none]
    have hslT : (s.drop (i + 2 + k.length + 1)).take
        (jsonDumpTree false a b t).length = jsonDumpTree false a b t := by
      have s1 := slice_shift (s := s) hseg 1
      simp only [List.drop_one, List.tail_cons] at s1
      have s2 := slice_shift (s := s) s1 k.length
      rw [List.drop_left] at s2
      have s3 := slice_shift (s := s) s2 1
      simp only [List.drop_one, List.tail_cons] at s3
      have s4 := slice_shift (s := s) s3 1
      simp only [List.drop_one, List.tail_cons] at s4
      have s5 := slice_prefix s4 rfl (by omega)
      rwa [show i + 1 + k.length + 1 + 1 = i + 2 + k.length + 1
        from by omega] at s5
    have hsegT : (s.drop (i + 2 + k.length + 1)).take
        ((jsonDumpMembers false a b true [(k, t)]).length + 1 - 1
          - k.length - 1 - 1) =
        jsonDumpTree false a b t
          ++ (jsonDumpMembers false a b false
            ([] : List (Str × ValueTree)) ++ [125]) := by
      have s1 := slice_shift (s := s) hseg 1
      simp only [List.drop_one, List.tail_cons] at s1
      have s2 := slice_shift (s := s) s1 k.length
      rw [List.drop_left] at s2
      have s3 := slice_shift (s := s) s2 1
      simp only [List.drop_one, List.tail_cons] at s3
      have s4 := slice_shift (s := s) s3 1
      simp only [List.drop_one, List.tail_cons] at s4
      rwa [show i + 1 + k.length + 1 + 1 = i + 2 + k.length + 1
        from by omega] at s4
    have h125 : charAt s (i + 2 + k.length + 1
        + (jsonDumpTree false a b t).length) = 125 := by
      refine charAt_seg hsegT (by omega) ?_
      have h1 := charAt_append_right (jsonDumpTree false a b t)
        (jsonDumpMembers false a b false ([] : List (Str × ValueTree))
          ++ [125]) 0 (by simp)
      rw [Nat.add_zero] at h1
      rw [h1]
      rfl
    have hstopT : i + 2 + k.length + 1
        + (jsonDumpTree false a b t).length = s.length ∨
        (isdigit (charAt s (i + 2 + k.length + 1
            + (jsonDumpTree false a b t).length)) = false ∧
          charAt s (i + 2 + k.length + 1
            + (jsonDumpTree false a b t).length) ≠ 46 ∧
          charAt s (i + 2 + k.length + 1
            + (jsonDumpTree false a b t).length) ≠ 101 ∧
          charAt s (i + 2 + k.length + 1
            + (jsonDumpTree false a b t).length) ≠ 69) :=
      Or.inr ⟨by rw [h125]; decide, by rw [h125]; decide,
        by rw [h125]; decide, by rw [h125]; decide⟩
    have hlenV : i + 2 + k.length + 1
        + (jsonDumpTree false a b t).length ≤ s.length := by omega
    have hV := jsonParseValue_dump h t hct g a b (i + 2 + k.length + 1)
      hgV hslT hlenV hstopT
    rw [hV]
    dsimp only []
    have hins : mapInsert k (reQ t) es = es ++ [(k, reQ t)] :=
      mapInsert_append (fun p hp =>
        hacc p hp (k, t) (List.mem_cons_self _ _))
    rw [hins]
    have hip : i + 2 + k.length + 1 + (jsonDumpTree false a b t).length
        < s.length := by omega
    rw [ol_skipWs_noop (E := E) h
      (Or.inr ⟨by rw [h125]; decide, by rw [h125]; decide⟩)]
    simp only [mkContext_text, ol_pos_lt _ hip, ol_valid_true hip, h125]
    norm_num
    rw [ol_moveForward h (i + 2 + k.length + 1
      + (jsonDumpTree false a b t).length)]
    rw [show i + 2 + k.length + 1 + (jsonDumpTree false a b t).length
        + 1 =
      i + (jsonDumpMembers false a b true [(k, t)]).length + 1
      from by omega]
    exact ⟨by simp [reQM], rfl⟩
  | (k, t) :: (k2, t2) :: rr, hc, _, hsort => by
    intro f a b i es hf hacc hsl hlen
    have hcp : (k.all byteClean = true ∧ cleanT t = true) ∧
        cleanM ((k2, t2) :: rr) = true := by
      rw [cleanM] at hc
      simp only [Bool.and_eq_true] at hc
      exact hc
    obtain ⟨⟨hkc, hct⟩, hcr⟩ := hcp
    have hnet : t.isEmpty = false := clean_not_empty hct
    have hmt : jsonDumpMembers false a b true ((k, t) :: (k2, t2) :: rr) =
        34 :: (k ++ 34 :: 58 :: (jsonDumpTree false a b t
          ++ jsonDumpMembers false a b false ((k2, t2) :: rr))) :=
      members_true_cons hnet a b ((k2, t2) :: rr)
    have hml : (jsonDumpMembers false a b true
        ((k, t) :: (k2, t2) :: rr)).length =
        k.length + 3 + (jsonDumpTree false a b t).length
          + (jsonDumpMembers false a b false ((k2, t2) :: rr)).length := by
      rw [hmt]
      simp
      omega
    have hDT1 : 1 ≤ (jsonDumpTree false a b t).length :=
      List.length_pos.mpr (dump_ne_nil hct a b)
    have hcm2 : (k2.all byteClean = true ∧ cleanT t2 = true) ∧
        cleanM rr = true := by
      rw [cleanM] at hcr
      simp only [Bool.and_eq_true] at hcr
      exact hcr
    have hnet2 : t2.isEmpty = false := clean_not_empty hcm2.1.2
    have hmt2 : jsonDumpMembers false a b true ((k2, t2) :: rr) =
        34 :: (k2 ++ 34 :: 58 :: (jsonDumpTree false a b t2
          ++ jsonDumpMembers false a b false rr)) :=
      members_true_cons hnet2 a b rr
    have hMRl : (jsonDumpMembers false a b false
        ((k2, t2) :: rr)).length =
        (jsonDumpMembers false a b true ((k2, t2) :: rr)).length + 1 := by
      rw [members_false_cons hnet2]
      simp
    have hseg : (s.drop i).take
        ((jsonDumpMembers false a b true
          ((k, t) :: (k2, t2) :: rr)).length + 1) =
        34 :: (k ++ 34 :: 58 :: (jsonDumpTree false a b t
          ++ (jsonDumpMembers false a b false ((k2, t2) :: rr)
            ++ [125]))) := by
      rw [hsl, hmt]
      simp only [List.cons_append, List.append_assoc]
    have hesc : escapeString k = k :=
      escapeString_clean_id (fun c0 hc0 => List.all_eq_true.mp hkc c0 hc0)
    have hb : ∀ l, l < (escapeString k).length →
        charAt s (i + 1 + l) = charAt (escapeString k) l := by
      rw [hesc]
      intro l hl
      have h0 : charAt (34 :: (k ++ 34 :: 58 :: (jsonDumpTree false a b t
          ++ (jsonDumpMembers false a b false ((k2, t2) :: rr)
            ++ [125])))) (l + 1) =
          charAt k l := by
        rw [charAt_cons_succ]
        exact charAt_append_left _ _ _ hl
      have h1 := charAt_seg hseg (l := l + 1) (by omega) h0
      rwa [show i + (l + 1) = i + 1 + l from by omega] at h1
    have hq1 : charAt s (i + 1 + (escapeString k).length) = 34 := by
      rw [hesc]
      have h0 : charAt (34 :: (k ++ 34 :: 58 :: (jsonDumpTree false a b t
          ++ (jsonDumpMembers false a b false ((k2, t2) :: rr)
            ++ [125]))))
          (k.length + 1) = 34 := by
        rw [charAt_cons_succ]
        exact charAt_at_append _ _ _
      have h1 := charAt_seg hseg (l := k.length + 1) (by omega) h0
      rwa [show i + (k.length + 1) = i + 1 + k.length from by omega] at h1
    have hi : i < s.length := by omega
    have hlt : i + 1 + (escapeString k).length < s.length := by
      rw [hesc]
      omega
    have hstr := jsonParseString_dump h i k hb hq1 hlt
    rw [hesc] at hstr
    obtain ⟨g, rfl⟩ : ∃ g, f = g + 1 := ⟨f - 1, by rw [szM] at hf; omega⟩
    have hgV : szV t ≤ g := by rw [szM] at hf; omega
    have hgM : szM ((k2, t2) :: rr) ≤ g := by rw [szM] at hf; omega
    rw [jsonParseObjectLoop]
    simp only [ol_valid_true hi, Bool.not_true, Bool.false_eq_true,
      if_false]
    have hch0 : charAt s i = 34 := by
      have h1 := charAt_seg hseg (l := 0) (by omega) (by rfl)
      rwa [Nat.add_zero] at h1
    rw [ol_skipWs_noop (E := E) h
      (Or.inr ⟨by rw [hch0]; decide, by rw [hch0]; decide⟩)]
    simp only [mkContext_text, ol_pos_lt _ hi, hch0]
    norm_num
    rw [hstr]
    dsimp only []
    have hcolon : charAt s (i + 2 + k.length) = 58 := by
      have h0 : charAt (34 :: (k ++ 34 :: 58 :: (jsonDumpTree false a b t
          ++ (jsonDumpMembers false a b false ((k2, t2) :: rr)
            ++ [125]))))
          (k.length + 1 + 1) = 58 := by
        rw [charAt_cons_succ]
        have h1 := charAt_append_right k
          (34 :: 58 :: (jsonDumpTree false a b t
            ++ (jsonDumpMembers false a b false ((k2, t2) :: rr)
              ++ [125]))) 1 (by simp)
        rw [h1]
        rfl
      have h1 := charAt_seg hseg (l := k.length + 1 + 1) (by omega) h0
      rwa [show i + (k.length + 1 + 1) = i + 2 + k.length from by omega]
        at h1
    have hip2 : i + 2 + k.length < s.length := by omega
    rw [ol_skipWs_noop (E := E) h
      (Or.inr ⟨by rw [hcolon]; decide, by rw [hcolon]; decide⟩)]
    simp only [mkContext_text, ol_pos_lt _ hip2, ol_valid_true hip2,
      hcolon]
    norm_num
    rw [ol_moveForward h (i + 2 + k.length)]
    obtain ⟨c0, r0, hx0, hx0d⟩ := dump_head hct a b
    have hof := opener_facts hx0d
    have hchD : charAt s (i + 2 + k.length + 1) = c0 := by
      have h0 : charAt (34 :: (k ++ 34 :: 58 :: (jsonDumpTree false a b t
          ++ (jsonDumpMembers false a b false ((k2, t2) :: rr)
            ++ [125]))))
          (k.length + 1 + 1 + 1) = c0 := by
        rw [charAt_cons_succ]
        have h1 := charAt_append_right k
          (34 :: 58 :: (jsonDumpTree false a b t
            ++ (jsonDumpMembers false a b false ((k2, t2) :: rr)
              ++ [125]))) (1 + 1)
          (by simp)
        rw [show k.length + 1 + 1 = k.length + (1 + 1) from by omega, h1,
          hx0]
        rfl
      have h1 := charAt_seg hseg (l := k.length + 1 + 1 + 1) (by omega) h0
      rwa [show i + (k.length + 1 + 1 + 1) = i + 2 + k.length + 1
        from by omega] at h1
    rw [ol_skipWs_noop (E := E) h
      (Or.inr ⟨by rw [hchD]; exact hof.1, by rw [hchD]; exact hof.2.1⟩)]
    have hfind : mapFind k es = Option.none :=
      mapFind_eq_none (fun p hp =>
        keyLt_ne (hacc p hp (k, t) (List.mem_cons_self _ _)))
    rw [hfind]
    simp only [Option.getD_none]
    have hslT : (s.drop (i + 2 + k.length + 1)).take
        (jsonDumpTree false a b t).length = jsonDumpTree false a b t := by
      have s1 := slice_shift (s := s) hseg 1
      simp only [List.drop_one, List.tail_cons] at s1
      have s2 := slice_shift (s := s) s1 k.length
      rw [List.drop_left] at s2
      have s3 := slice_shift (s := s) s2 1
      simp only [List.drop_one, List.tail_cons] at s3
      have s4 := slice_shift (s := s) s3 1
      simp only [List.drop_one, List.tail_cons] at s4
      have s5 := slice_prefix s4 rfl (by omega)
      rwa [show i + 1 + k.length + 1 + 1 = i + 2 + k.length + 1
        from by omega] at s5
    have hsegT : (s.drop (i + 2 + k.length + 1)).take
        ((jsonDumpMembers false a b true
          ((k, t) :: (k2, t2) :: rr)).length + 1 - 1
          - k.length - 1 - 1) =
        jsonDumpTree false a b t
          ++ (jsonDumpMembers false a b false ((k2, t2) :: rr)
            ++ [125]) := by
      have s1 := slice_shift (s := s) hseg 1
      simp only [List.drop_one, List.tail_cons] at s1
      have s2 := slice_shift (s := s) s1 k.length
      rw [List.drop_left] at s2
      have s3 := slice_shift (s := s) s2 1
      simp only [List.drop_one, List.tail_cons] at s3
      have s4 := slice_shift (s := s) s3 1
      simp only [List.drop_one, List.tail_cons] at s4
      rwa [show i + 1 + k.length + 1 + 1 = i + 2 + k.length + 1
        from by omega] at s4
    have h44 : charAt s (i + 2 + k.length + 1
        + (jsonDumpTree false a b t).length) = 44 := by
      refine charAt_seg hsegT (by omega) ?_
      have h1 := charAt_append_right (jsonDumpTree false a b t)
        (jsonDumpMembers false a b false ((k2, t2) :: rr) ++ [125]) 0
        (by simp)
      rw [Nat.add_zero] at h1
      rw [h1, members_false_cons hnet2, List.cons_append, charAt_cons_zero]
    have hstopT : i + 2 + k.length + 1
        + (jsonDumpTree false a b t).length = s.length ∨
        (isdigit (charAt s (i + 2 + k.length + 1
            + (jsonDumpTree false a b t).length)) = false ∧
          charAt s (i + 2 + k.length + 1
            + (jsonDumpTree false a b t).length) ≠ 46 ∧
          charAt s (i + 2 + k.length + 1
            + (jsonDumpTree false a b t).length) ≠ 101 ∧
          charAt s (i + 2 + k.length + 1
            + (jsonDumpTree false a b t).length) ≠ 69) :=
      Or.inr ⟨by rw [h44]; decide, by rw [h44]; decide,
        by rw [h44]; decide, by rw [h44]; decide⟩
    have hlenV : i + 2 + k.length + 1
        + (jsonDumpTree false a b t).length ≤ s.length := by omega
    have hV := jsonParseValue_dump h t hct g a b (i + 2 + k.length + 1)
      hgV hslT hlenV hstopT
    rw [hV]
    dsimp only []
    have hins : mapInsert k (reQ t) es = es ++ [(k, reQ t)] :=
      mapInsert_append (fun p hp =>
        hacc p hp (k, t) (List.mem_cons_self _ _))
    rw [hins]
    have hip : i + 2 + k.length + 1 + (jsonDumpTree false a b t).length
        < s.length := by omega
    rw [ol_skipWs_noop (E := E) h
      (Or.inr ⟨by rw [h44]; decide, by rw [h44]; decide⟩)]
    simp only [mkContext_text, ol_pos_lt _ hip, ol_valid_true hip, h44]
    norm_num
    rw [ol_moveForward h (i + 2 + k.length + 1
      + (jsonDumpTree false a b t).length)]
    have hslR : (s.drop (i + 2 + k.length + 1
        + (jsonDumpTree false a b t).length + 1)).take
        ((jsonDumpMembers false a b true ((k2, t2) :: rr)).length + 1) =
        jsonDumpMembers false a b true ((k2, t2) :: rr) ++ [125] := by
      have s5 := slice_shift (s := s) hsegT
        (jsonDumpTree false a b t).length
      rw [List.drop_left] at s5
      have s6 := slice_shift (s := s) s5 1
      rw [members_false_cons hnet2] at s6
      simp only [List.cons_append, List.drop_one, List.tail_cons] at s6
      rw [show (jsonDumpMembers false a b true ((k, t) :: (k2, t2)
          :: rr)).length + 1 - 1 - k.length - 1 - 1
          - (jsonDumpTree false a b t).length - 1 =
        (jsonDumpMembers false a b true ((k2, t2) :: rr)).length + 1
        from by omega] at s6
      exact s6
    have hM21 : 1 ≤ (jsonDumpMembers false a b true
        ((k2, t2) :: rr)).length := by
      rw [hmt2]
      simp
    have hch2 : charAt s (i + 2 + k.length + 1
        + (jsonDumpTree false a b t).length + 1) = 34 := by
      have h0 : charAt (jsonDumpMembers false a b true ((k2, t2) :: rr)
          ++ [125]) 0 = 34 := by
        rw [hmt2]
        rfl
      have h1 := charAt_seg hslR (l := 0) (by omega) h0
      rwa [Nat.add_zero] at h1
    rw [ol_skipWs_noop (E := E) h
      (Or.inr ⟨by rw [hch2]; decide, by rw [hch2]; decide⟩)]
    have hip1 : i + 2 + k.length + 1
        + (jsonDumpTree false a b t).length + 1 < s.length := by omega
    simp only [mkContext_text, ol_pos_lt _ hip1, ol_valid_true hip1,
      hch2]
    norm_num
    have hacc2 : ∀ e ∈ es ++ [(k, reQ t)], ∀ m ∈ (k2, t2) :: rr,
        keyLt e.1 m.1 = true := by
      intro e he m hm
      rcases List.mem_append.mp he with he | he
      · exact hacc e he m (List.mem_cons_of_mem _ hm)
      · simp at he
        subst he
        exact sortedKeys_head_lt hsort m hm
    have hIH := jsonParseMembers_dump h ((k2, t2) :: rr) hcr (by simp)
      (sortedKeys_tail hsort) g a b (i + 2 + k.length + 1
        + (jsonDumpTree false a b t).length + 1)
      (es ++ [(k, reQ t)]) hgM hacc2 hslR (by omega)
    rw [hIH]
    rw [show es ++ [(k, reQ t)] ++ reQM ((k2, t2) :: rr) =
      es ++ reQM ((k, t) :: (k2, t2) :: rr) from by
        rw [List.append_assoc]
        rfl]
    rw [show i + 2 + k.length + 1 + (jsonDumpTree false a b t).length
        + 1 + (jsonDumpMembers false a b true ((k2, t2) :: rr)).length
        + 1 =
      i + (jsonDumpMembers false a b true ((k, t) :: (k2, t2)
        :: rr)).length + 1 from by omega]

end

end RoundTrip2

/-- Compact `json::dump` followed by `json::parse` returns the
requantized tree with no diagnostics. -/
theorem jsonParse_dump {t : ValueTree} (hc : cleanT t = true) :
    jsonParse (jsonDump t) = (reQ t, []) := by
  have hnb : ∀ c ∈ jsonDump t, c ≠ 10 ∧ c ≠ 13 :=
    fun c hc0 => dumpT_nobreak t hc 0 2 c hc0
  have hne : jsonDump t ≠ [] := dump_ne_nil hc 0 2
  have h : splitLines (jsonDump t) =
      [⟨0, (jsonDump t).length, (jsonDump t).length⟩] :=
    splitLines_nobreak _ hnb hne
  obtain ⟨c0, r0, hs0, hd0⟩ := dump_head hc 0 2
  have hof := opener_facts hd0
  have hs1 : jsonDump t = c0 :: r0 := hs0
  have hlp : 0 < (jsonDump t).length := by
    rw [hs1]
    simp
  have hlen_eq : (jsonDumpTree false 0 2 t).length = (jsonDump t).length :=
    rfl
  have hie : (jsonDump t).isEmpty = false := by
    rw [hs1]
    rfl
  rw [jsonParse]
  simp only [hie, Bool.false_eq_true, if_false]
  rw [show (⟨true, 0, 0, 0⟩ : PositionInText) =
    posAt (jsonDump t).length 0 from (posAt_pos _ _ hlp).symm]
  have hch0 : charAt (jsonDump t) 0 = c0 := by
    rw [hs1]
    rfl
  rw [ol_skipWs_noop (E := (jsonDump t).length) h
    (Or.inr ⟨by rw [hch0]; exact hof.1, by rw [hch0]; exact hof.2.1⟩)]
  have hV := jsonParseValue_dump (E := (jsonDump t).length) h t hc
    (3 * (jsonDump t).length + 8) 0 2 0
    (by have h1 := szV_le t hc 0 2; omega)
    (by rw [List.drop_zero]; exact List.take_length (jsonDumpTree false 0 2 t))
    (by omega)
    (Or.inl (by omega))
  rw [hV]
  dsimp only []
  rw [ol_skipWs_noop (E := (jsonDump t).length) h (Or.inl (by omega))]
  have hvalid : (posAt (jsonDump t).length
      (0 + (jsonDumpTree false 0 2 t).length)).valid = false := by
    rw [ol_valid]
    simp only [decide_eq_false_iff_not]
    omega
  simp only [hvalid, Bool.false_eq_true, if_false]

mutual

/-- A tree whose numbers all denote their own 6-digit rendering exactly
is a fixed point of requantization. -/
theorem reQ_eq_self : ∀ t : ValueTree, numsStable t = true → reQ t = t
  | .empty, _ => rfl
  | .value .none, _ => rfl
  | .value (.bool bv), _ => rfl
  | .value (.string ss), _ => rfl
  | .value (.number q), hs => by
    have hq : litVal (fmtNumber q) = q := by
      rw [numsStable] at hs
      exact eq_of_beq hs
    show ValueTree.value (.number (litVal (fmtNumber q))) = _
    rw [hq]
  | .array xs, hs => by
    show ValueTree.array (reQL xs) = _
    rw [reQL_eq_self xs (by rwa [numsStable] at hs)]
  | .object es, hs => by
    show ValueTree.object (reQM es) = _
    rw [reQM_eq_self es (by rwa [numsStable] at hs)]

theorem reQL_eq_self : ∀ ts : List ValueTree,
    numsStableL ts = true → reQL ts = ts
  | [], _ => rfl
  | t :: r, hs => by
    rw [numsStableL] at hs
    simp only [Bool.and_eq_true] at hs
    show reQ t :: reQL r = t :: r
    rw [reQ_eq_self t hs.1, reQL_eq_self r hs.2]

theorem reQM_eq_self : ∀ ms : List (Str × ValueTree),
    numsStableM ms = true → reQM ms = ms
  | [], _ => rfl
  | (k, t) :: r, hs => by
    rw [numsStableM] at hs
    simp only [Bool.and_eq_true] at hs
    show (k, reQ t) :: reQM r = (k, t) :: r
    rw [reQ_eq_self t hs.1, reQM_eq_self r hs.2]

end

/-- Round trip on clean, numerically stable trees: dump then parse is
the identity and reports nothing. -/
theorem jsonParse_jsonDump {t : ValueTree} (hc : cleanT t = true)
    (hn : numsStable t = true) : jsonParse (jsonDump t) = (t, []) := by
  rw [jsonParse_dump hc, reQ_eq_self t hn]

/-- Horner step of `digitsVal` from an arbitrary accumulator. -/
theorem digitsVal_foldl (l : Str) : ∀ a : Nat,
    l.foldl (fun a c => a * 10 + (c - 48)) a =
      a * 10 ^ l.length + digitsVal l := by
  induction l with
  | nil => intro a; simp [digitsVal]
  | cons c r ih =>
    intro a
    rw [List.foldl_cons, ih (a * 10 + (c - 48))]
    rw [show digitsVal (c :: r) =
      (c - 48) * 10 ^ r.length + digitsVal r from by
        rw [digitsVal, List.foldl_cons]
        rw [ih (0 * 10 + (c - 48))]
        simp [digitsVal]]
    rw [List.length_cons, pow_succ]
    ring

theorem digitsVal_cons (c : Nat) (r : Str) :
    digitsVal (c :: r) = (c - 48) * 10 ^ r.length + digitsVal r := by
  rw [digitsVal, List.foldl_cons]
  rw [digitsVal_foldl r (0 * 10 + (c - 48))]
  simp [digitsVal]

theorem digitsVal_append (x y : Str) :
    digitsVal (x ++ y) = digitsVal x * 10 ^ y.length + digitsVal y := by
  rw [digitsVal, List.foldl_append]
  rw [digitsVal_foldl y (List.foldl (fun a c => a * 10 + (c - 48)) 0 x)]
  rfl

theorem digitsVal_rep48 (z : Nat) :
    digitsVal (List.replicate z 48) = 0 := by
  induction z with
  | zero => rfl
  | succ z ih =>
    rw [List.replicate_succ, digitsVal_cons, ih]
    simp

theorem digitsRevF_val : ∀ f n, n ≤ f →
    digitsVal (digitsRevF f n).reverse = n := by
  intro f
  induction f with
  | zero =>
    intro n h
    interval_cases n
    rfl
  | succ f ih =>
    intro n h
    rw [digitsRevF]
    by_cases hn : n = 0
    · simp [hn, digitsVal]
    · simp only [show (n == 0) = false from by simpa using hn,
        Bool.false_eq_true, if_false, List.reverse_cons]
      rw [digitsVal_append, ih (n / 10) (by omega)]
      rw [show digitsVal [n % 10 + 48] = n % 10 from by
        rw [digitsVal_cons]
        simp [digitsVal]]
      simp
      omega

theorem digitsVal_natToDigits (n : Nat) :
    digitsVal (natToDigits n) = n := by
  rw [natToDigits]
  by_cases hn : n = 0
  · simp [hn]
    rfl
  · simp only [show (n == 0) = false from by simpa using hn,
      Bool.false_eq_true, if_false]
    exact digitsRevF_val n n (by omega)

theorem digitsRevF_ne_nil {f n : Nat} (hn : 1 ≤ n) (hf : 1 ≤ f) :
    digitsRevF f n ≠ [] := by
  obtain ⟨f', rfl⟩ : ∃ f', f = f' + 1 := ⟨f - 1, by omega⟩
  rw [digitsRevF]
  simp only [show (n == 0) = false from by simpa using (by omega : n ≠ 0),
    Bool.false_eq_true, if_false]
  simp

theorem digitsRevF_len_ge : ∀ f n, 1 ≤ n → n ≤ f →
    10 ^ ((digitsRevF f n).length - 1) ≤ n := by
  intro f
  induction f with
  | zero => intro n h1 h2; omega
  | succ f ih =>
    intro n h1 h2
    rw [digitsRevF]
    simp only [show (n == 0) = false from by simpa using (by omega : n ≠ 0),
      Bool.false_eq_true, if_false, List.length_cons]
    by_cases h10 : n < 10
    · have hz : n / 10 = 0 := by omega
      rw [hz]
      have : digitsRevF f 0 = [] := by
        cases f <;> simp [digitsRevF]
      rw [this]
      simpa using h1
    · have hq1 : 1 ≤ n / 10 := by omega
      have hqf : n / 10 ≤ f := by omega
      have hlen1 : digitsRevF f (n / 10) ≠ [] :=
        digitsRevF_ne_nil hq1 (by omega)
      have hlp : 1 ≤ (digitsRevF f (n / 10)).length :=
        List.length_pos.mpr hlen1
      have hih := ih (n / 10) hq1 hqf
      have hstep : 10 ^ ((digitsRevF f (n / 10)).length + 1 - 1) ≤
          10 * (n / 10) := by
        rw [show (digitsRevF f (n / 10)).length + 1 - 1 =
          ((digitsRevF f (n / 10)).length - 1) + 1 from by omega]
        rw [pow_succ]
        omega
      have : 10 * (n / 10) ≤ n := by omega
      omega

theorem natToDigits_val_ge {n : Nat} (hn : 1 ≤ n) :
    10 ^ ((natToDigits n).length - 1) ≤ n := by
  rw [natToDigits]
  simp only [show (n == 0) = false from by simpa using (by omega : n ≠ 0),
    Bool.false_eq_true, if_false, List.length_reverse]
  exact digitsRevF_len_ge n n hn (by omega)

theorem natToDigits_len_eq {n L : Nat} (h1 : 10 ^ L ≤ n)
    (h2 : n < 10 ^ (L + 1)) : (natToDigits n).length = L + 1 := by
  have hn1 : 1 ≤ n := le_trans (Nat.one_le_pow _ _ (by norm_num)) h1
  have hlt := natToDigits_val_lt n
  have hge := natToDigits_val_ge hn1
  have hl1 : 1 ≤ (natToDigits n).length :=
    List.length_pos.mpr (natToDigits_ne_nil n)
  have ha : L < (natToDigits n).length := by
    by_contra hcon
    push_neg at hcon
    have := Nat.pow_le_pow_right (show 1 ≤ 10 from by norm_num) hcon
    omega
  have hb : (natToDigits n).length - 1 < L + 1 := by
    by_contra hcon
    push_neg at hcon
    have := Nat.pow_le_pow_right (show 1 ≤ 10 from by norm_num) hcon
    omega
  omega

theorem stripZeros_spec (s : Str) :
    ∃ z, s = stripZeros s ++ List.replicate z 48 := by
  refine ⟨(s.reverse.takeWhile (fun c => c == 48)).length, ?_⟩
  have hsplit := List.takeWhile_append_dropWhile
    (p := fun c => (c == 48)) (l := s.reverse)
  have htk : s.reverse.takeWhile (fun c => c == 48) =
      List.replicate (s.reverse.takeWhile (fun c => c == 48)).length 48 := by
    apply List.eq_replicate_of_mem
    intro b hb
    have := List.mem_takeWhile_imp hb
    simpa using this
  calc s = s.reverse.reverse := by simp
    _ = (s.reverse.takeWhile (fun c => c == 48)
          ++ s.reverse.dropWhile (fun c => c == 48)).reverse := by
        rw [hsplit]
    _ = stripZeros s
          ++ (s.reverse.takeWhile (fun c => c == 48)).reverse := by
        rw [List.reverse_append, stripZeros]
    _ = stripZeros s ++ List.replicate
          (s.reverse.takeWhile (fun c => c == 48)).length 48 := by
        rw [show (s.reverse.takeWhile (fun c => c == 48)).reverse =
          List.replicate (s.reverse.takeWhile
            (fun c => c == 48)).length 48 from by
          rw [htk]
          simp]

theorem takeWhile_all {p : Nat → Bool} : ∀ {l : Str},
    (∀ c ∈ l, p c = true) → l.takeWhile p = l := by
  intro l
  induction l with
  | nil => intro _; rfl
  | cons c r ih =>
    intro hp
    rw [List.takeWhile_cons_of_pos (hp c (List.mem_cons_self _ _))]
    rw [ih (fun x hx => hp x (List.mem_cons_of_mem _ hx))]

theorem takeWhile_append_all {p : Nat → Bool} : ∀ {a : Str} (b : Str),
    (∀ c ∈ a, p c = true) →
    (a ++ b).takeWhile p = a ++ b.takeWhile p := by
  intro a
  induction a with
  | nil => intro b _; rfl
  | cons c r ih =>
    intro b hp
    rw [List.cons_append,
      List.takeWhile_cons_of_pos (hp c (List.mem_cons_self _ _))]
    rw [ih b (fun x hx => hp x (List.mem_cons_of_mem _ hx))]
    rfl

theorem roundNat_exact (M D : Nat) (hD : 0 < D) :
    roundNat (M * D) D = M := by
  rw [roundNat]
  simp only [Nat.mul_mod_left, Nat.mul_div_cancel _ hD]
  rw [if_pos (by omega)]

theorem roundNat_le (X D : Nat) : roundNat X D ≤ X / D + 1 := by
  rw [roundNat]
  by_cases h1 : 2 * (X % D) < D
  · rw [if_pos h1]
    omega
  · rw [if_neg h1]
    by_cases h2 : D < 2 * (X % D)
    · rw [if_pos h2]
    · rw [if_neg h2]
      by_cases h3 : X / D % 2 = 0
      · rw [if_pos h3]
        omega
      · rw [if_neg h3]

theorem roundNat_scale (c X D : Nat) (hc : 0 < c) :
    roundNat (c * X) (c * D) = roundNat X D := by
  have h1 : c * X / (c * D) = X / D := Nat.mul_div_mul_left X D hc
  have h2 : c * X % (c * D) = c * (X % D) := Nat.mul_mod_mul_left c X D
  have h3 : (2 * (c * X % (c * D)) < c * D) = (2 * (X % D) < D) := by
    rw [h2, show 2 * (c * (X % D)) = c * (2 * (X % D)) from by ring]
    exact propext (mul_lt_mul_left hc)
  have h4 : (c * D < 2 * (c * X % (c * D))) = (D < 2 * (X % D)) := by
    rw [h2, show 2 * (c * (X % D)) = c * (2 * (X % D)) from by ring]
    exact propext (mul_lt_mul_left hc)
  rw [roundNat, roundNat, h1]
  simp only [h3, h4]

theorem roundNat_den0 {X : Nat} (hX : 0 < X) : roundNat X 0 = 1 := by
  rw [roundNat]
  simp only [Nat.div_zero, Nat.mod_zero]
  rw [if_neg (by omega), if_pos (by omega)]

theorem qexpPos_den0 (N : Nat) : qexpPos N 0 = 0 := by
  rw [qexpPos, if_pos (by omega)]
  rw [Nat.div_zero]
  rfl

theorem qexpPos_scale (c N D : Nat) (hc : 0 < c) :
    qexpPos (c * N) (c * D) = qexpPos N D := by
  have hdiv1 : c * N / (c * D) = N / D := Nat.mul_div_mul_left N D hc
  have hdiv2 : c * D / (c * N) = D / N := Nat.mul_div_mul_left D N hc
  have hle : (c * D ≤ c * N) = (D ≤ N) := propext (mul_le_mul_left hc)
  have hinner : ∀ m, (c * D ≤ m * (c * N)) = (D ≤ m * N) := by
    intro m
    rw [show m * (c * N) = c * (m * N) from by ring]
    exact propext (mul_le_mul_left hc)
  rw [qexpPos, qexpPos]
  simp only [hdiv1, hdiv2, hle, hinner]

theorem fmt_scale (n : Int) (d c : Nat) (hc : 0 < c) :
    fmtNumber ⟨n * (c : Int), d * c⟩ = fmtNumber ⟨n, d⟩ := by
  by_cases hn : n = 0
  · subst hn
    rw [fmtNumber, fmtNumber]
    simp
  · have hcz : (c : Int) ≠ 0 := by
      simp only [ne_eq, Int.natCast_eq_zero]
      omega
    have hnc : n * (c : Int) ≠ 0 := mul_ne_zero hn hcz
    have hNa : (n * (c : Int)).natAbs = n.natAbs * c := by
      rw [Int.natAbs_mul, Int.natAbs_ofNat]
    have hcpos : (0 : Int) < (c : Int) := by exact_mod_cast hc
    have hsgn : (n * (c : Int) < 0) = (n < 0) := by
      apply propext
      constructor
      · intro h
        by_contra hcon
        push_neg at hcon
        nlinarith
      · intro h
        nlinarith
    have he : qexpPos (n.natAbs * c) (d * c) = qexpPos n.natAbs d := by
      rw [mul_comm n.natAbs c, mul_comm d c]
      exact qexpPos_scale c n.natAbs d hc
    have hr1 : ∀ j, roundNat (n.natAbs * c * 10 ^ j) (d * c) =
        roundNat (n.natAbs * 10 ^ j) d := by
      intro j
      rw [show n.natAbs * c * 10 ^ j = c * (n.natAbs * 10 ^ j) from by ring,
        show d * c = c * d from by ring]
      exact roundNat_scale c _ d hc
    have hr2 : ∀ j, roundNat (n.natAbs * c) (d * c * 10 ^ j) =
        roundNat n.natAbs (d * 10 ^ j) := by
      intro j
      rw [show n.natAbs * c = c * n.natAbs from by ring,
        show d * c * 10 ^ j = c * (d * 10 ^ j) from by ring]
      exact roundNat_scale c _ _ hc
    rw [fmtNumber, fmtNumber, if_neg hnc, if_neg hn]
    simp only [hNa, he, hsgn, hr1, hr2]

theorem fmtNumber_mkNum (n : Int) (d : Nat) (hd : 0 < d) :
    fmtNumber (mkNum n d) = fmtNumber ⟨n, d⟩ := by
  rw [mkNum, if_neg (by omega)]
  rw [natGcd_eq_gcd]
  by_cases hn : n = 0
  · subst hn
    simp only [Int.natAbs_zero, Nat.gcd_zero_left, Nat.zero_div,
      Int.ofNat_zero, if_neg (show ¬ ((0:Int) < 0) from by omega),
      Nat.div_self hd]
    rw [fmtNumber, fmtNumber]
    simp
  · have hg : 0 < Nat.gcd n.natAbs d := Nat.gcd_pos_of_pos_right _ hd
    have hAg : n.natAbs / Nat.gcd n.natAbs d * Nat.gcd n.natAbs d =
        n.natAbs := Nat.div_mul_cancel (Nat.gcd_dvd_left _ _)
    have hBg : d / Nat.gcd n.natAbs d * Nat.gcd n.natAbs d = d :=
      Nat.div_mul_cancel (Nat.gcd_dvd_right _ _)
    have hnum : (if n < 0 then
        -(Int.ofNat (n.natAbs / Nat.gcd n.natAbs d))
        else Int.ofNat (n.natAbs / Nat.gcd n.natAbs d)) *
          ((Nat.gcd n.natAbs d : Nat) : Int) = n := by
      have hcast : ((n.natAbs / Nat.gcd n.natAbs d : Nat) : Int) *
          ((Nat.gcd n.natAbs d : Nat) : Int) = (n.natAbs : Int) := by
        exact_mod_cast hAg
      by_cases hlt : n < 0
      · rw [if_pos hlt]
        simp only [Int.ofNat_eq_coe]
        rw [neg_mul, hcast]
        omega
      · rw [if_neg hlt]
        simp only [Int.ofNat_eq_coe]
        rw [hcast]
        omega
    calc fmtNumber ⟨if n < 0 then
          -(Int.ofNat (n.natAbs / Nat.gcd n.natAbs d))
          else Int.ofNat (n.natAbs / Nat.gcd n.natAbs d),
          d / Nat.gcd n.natAbs d⟩ =
        fmtNumber ⟨(if n < 0 then
          -(Int.ofNat (n.natAbs / Nat.gcd n.natAbs d))
          else Int.ofNat (n.natAbs / Nat.gcd n.natAbs d)) *
            ((Nat.gcd n.natAbs d : Nat) : Int),
          d / Nat.gcd n.natAbs d * Nat.gcd n.natAbs d⟩ :=
        (fmt_scale _ _ _ hg).symm
      _ = fmtNumber ⟨n, d⟩ := by rw [hnum, hBg]

/-- Decimal exponent of `M * 10 ^ p / 10 ^ q` when the mantissa `M` has
exactly six digits. -/
theorem qexpPos_pow (M p q : Nat) (h5 : 10 ^ 5 ≤ M) (h6 : M < 10 ^ 6) :
    qexpPos (M * 10 ^ p) (10 ^ q) = (5 + p : Int) - q := by
  have hM1 : 1 ≤ M := le_trans (Nat.one_le_pow _ _ (by norm_num)) h5
  by_cases hcase : q ≤ 5 + p
  · have hDN : 10 ^ q ≤ M * 10 ^ p := by
      calc 10 ^ q ≤ 10 ^ (5 + p) := Nat.pow_le_pow_right (by norm_num) hcase
        _ = 10 ^ 5 * 10 ^ p := by rw [pow_add]
        _ ≤ M * 10 ^ p := Nat.mul_le_mul_right _ h5
    rw [qexpPos, if_pos hDN]
    by_cases hqp : q ≤ p
    · have hdiv : M * 10 ^ p / 10 ^ q = M * 10 ^ (p - q) := by
        rw [show M * 10 ^ p = M * 10 ^ (p - q) * 10 ^ q from by
          rw [mul_assoc, ← pow_add]
          congr 2
          omega]
        exact Nat.mul_div_cancel _ (pow_pos (by norm_num) _)
      have hlow : 10 ^ (5 + (p - q)) ≤ M * 10 ^ (p - q) := by
        rw [pow_add]
        exact Nat.mul_le_mul_right _ h5
      have hhigh : M * 10 ^ (p - q) < 10 ^ (5 + (p - q) + 1) := by
        rw [show 5 + (p - q) + 1 = 6 + (p - q) from by omega, pow_add]
        exact (mul_lt_mul_right (pow_pos (by norm_num) _)).mpr h6
      rw [hdiv, natToDigits_len_eq hlow hhigh]
      simp only [Int.ofNat_eq_coe]
      omega
    · have hdiv : M * 10 ^ p / 10 ^ q = M / 10 ^ (q - p) := by
        rw [show M * 10 ^ p = 10 ^ p * M from by ring,
          show (10:Nat) ^ q = 10 ^ p * 10 ^ (q - p) from by
            rw [← pow_add]
            congr 1
            omega]
        exact Nat.mul_div_mul_left M _ (pow_pos (by norm_num) _)
      have hlow : 10 ^ (5 - (q - p)) ≤ M / 10 ^ (q - p) := by
        rw [Nat.le_div_iff_mul_le (pow_pos (by norm_num) _)]
        calc 10 ^ (5 - (q - p)) * 10 ^ (q - p) = 10 ^ 5 := by
              rw [← pow_add]
              congr 1
              omega
          _ ≤ M := h5
      have hhigh : M / 10 ^ (q - p) < 10 ^ (5 - (q - p) + 1) := by
        rw [Nat.div_lt_iff_lt_mul (pow_pos (by norm_num) _)]
        calc M < 10 ^ 6 := h6
          _ = 10 ^ (5 - (q - p) + 1) * 10 ^ (q - p) := by
              rw [← pow_add]
              congr 1
              omega
      rw [hdiv, natToDigits_len_eq hlow hhigh]
      simp only [Int.ofNat_eq_coe]
      omega
  · push_neg at hcase
    have hND : ¬ (10 ^ q ≤ M * 10 ^ p) := by
      push_neg
      calc M * 10 ^ p < 10 ^ 6 * 10 ^ p :=
            (mul_lt_mul_right (pow_pos (by norm_num) _)).mpr h6
        _ = 10 ^ (6 + p) := by rw [pow_add]
        _ ≤ 10 ^ q := Nat.pow_le_pow_right (by norm_num) (by omega)
    rw [qexpPos, if_neg hND]
    have hNpos : 0 < M * 10 ^ p :=
      Nat.mul_pos (by omega) (pow_pos (by norm_num) _)
    by_cases hMpow : M = 10 ^ 5
    · subst hMpow
      have hQ : 10 ^ q / (10 ^ 5 * 10 ^ p) = 10 ^ (q - p - 5) := by
        rw [← pow_add,
          show (10:Nat) ^ q = 10 ^ (q - p - 5) * 10 ^ (5 + p) from by
            rw [← pow_add]
            congr 1
            omega]
        exact Nat.mul_div_cancel _ (pow_pos (by norm_num) _)
      have hlen := natToDigits_len_eq (le_refl ((10:Nat) ^ (q - p - 5)))
        (Nat.pow_lt_pow_right (by norm_num) (by omega))
      simp only [hQ, hlen]
      rw [if_pos (by
        rw [show q - p - 5 + 1 - 1 = q - p - 5 from by omega]
        calc (10:Nat) ^ q = 10 ^ (q - p - 5) * (10 ^ 5 * 10 ^ p) := by
              rw [← pow_add, ← pow_add]
              congr 1
              omega
          _ ≤ _ := le_refl _)]
      simp only [Int.ofNat_eq_coe]
      omega
    · have hlow : 10 ^ (q - p - 6) ≤ 10 ^ q / (M * 10 ^ p) := by
        rw [Nat.le_div_iff_mul_le hNpos]
        calc 10 ^ (q - p - 6) * (M * 10 ^ p) ≤
              10 ^ (q - p - 6) * (10 ^ 6 * 10 ^ p) := by
              exact Nat.mul_le_mul_left _
                (Nat.mul_le_mul_right _ (by omega))
          _ = 10 ^ q := by
              rw [← pow_add, ← pow_add]
              congr 1
              omega
      have hhigh : 10 ^ q / (M * 10 ^ p) < 10 ^ (q - p - 6 + 1) := by
        rw [Nat.div_lt_iff_lt_mul hNpos]
        calc (10:Nat) ^ q = 10 ^ (q - p - 6 + 1) * (10 ^ 5 * 10 ^ p) := by
              rw [← pow_add, ← pow_add]
              congr 1
              omega
          _ < 10 ^ (q - p - 6 + 1) * (M * 10 ^ p) := by
              refine (mul_lt_mul_left (pow_pos (by norm_num) _)).mpr ?_
              exact (mul_lt_mul_right (pow_pos (by norm_num) _)).mpr
                (by omega)
      have hlen := natToDigits_len_eq hlow hhigh
      simp only [hlen]
      rw [if_neg (by
        rw [show q - p - 6 + 1 - 1 = q - p - 6 from by omega]
        push_neg
        calc 10 ^ (q - p - 6) * (M * 10 ^ p) <
              10 ^ (q - p - 6) * (10 ^ 6 * 10 ^ p) := by
              refine (mul_lt_mul_left (pow_pos (by norm_num) _)).mpr ?_
              exact (mul_lt_mul_right (pow_pos (by norm_num) _)).mpr h6
          _ = 10 ^ q := by
              rw [← pow_add, ← pow_add]
              congr 1
              omega)]
      simp only [Int.ofNat_eq_coe]
      omega

/-- Re-rendering a value that is exactly a six-digit mantissa times a
power of ten rounds nothing and reproduces the same mantissa and
exponent. -/
theorem fmt_pow (M p q : Nat) (neg : Bool) (h5 : 10 ^ 5 ≤ M)
    (h6 : M < 10 ^ 6) :
    fmtNumber ⟨(if neg then -((M * 10 ^ p : Nat) : Int)
        else ((M * 10 ^ p : Nat) : Int)), 10 ^ q⟩ =
      numTokSign neg ++ fmtDigits6 M ((5 + p : Int) - q) := by
  have hM1 : 1 ≤ M := le_trans (Nat.one_le_pow _ _ (by norm_num)) h5
  have hNpos : 0 < M * 10 ^ p :=
    Nat.mul_pos (by omega) (pow_pos (by norm_num) _)
  have hnum_ne : (if neg then -((M * 10 ^ p : Nat) : Int)
      else ((M * 10 ^ p : Nat) : Int)) ≠ 0 := by
    cases neg <;> simp <;> omega
  have hNa : (if neg then -((M * 10 ^ p : Nat) : Int)
      else ((M * 10 ^ p : Nat) : Int)).natAbs = M * 10 ^ p := by
    cases neg
    · rw [if_neg (by decide)]
      exact Int.natAbs_ofNat _
    · rw [if_pos rfl, Int.natAbs_neg]
      exact Int.natAbs_ofNat _
  have hlt : ((if neg then -((M * 10 ^ p : Nat) : Int)
      else ((M * 10 ^ p : Nat) : Int)) < 0) = (neg = true) := by
    cases neg <;> simp <;> omega
  rw [fmtNumber, if_neg hnum_ne]
  simp only [hNa, hlt, qexpPos_pow M p q h5 h6]
  by_cases hpq : p ≤ q
  · rw [if_pos (by omega : (0:Int) ≤ 5 - ((5 + p : Int) - q))]
    rw [show ((5:Int) - ((5 + p : Int) - q)).toNat = q - p from by omega]
    rw [show M * 10 ^ p * 10 ^ (q - p) = M * 10 ^ q from by
      rw [mul_assoc, ← pow_add]
      congr 2
      omega]
    rw [roundNat_exact M (10 ^ q) (pow_pos (by norm_num) _)]
    rw [if_neg (by omega : ¬ M = 10 ^ 6)]
    cases neg <;> simp [numTokSign]
  · rw [if_neg (by omega : ¬ ((0:Int) ≤ 5 - ((5 + p : Int) - q)))]
    rw [show (-((5:Int) - ((5 + p : Int) - q))).toNat = p - q from by omega]
    rw [show (10:Nat) ^ q * 10 ^ (p - q) = 10 ^ p from by
      rw [← pow_add]
      congr 1
      omega]
    rw [roundNat_exact M (10 ^ p) (pow_pos (by norm_num) _)]
    rw [if_neg (by omega : ¬ M = 10 ^ 6)]
    cases neg <;> simp [numTokSign]

/-- `qexpPos N D` is the decimal exponent: `10 ^ e ≤ N / D < 10 ^ (e+1)`
as exact rationals, stated multiplicatively on both sign ranges. -/
theorem qexpPos_spec (N D : Nat) (hN : 0 < N) (hD : 0 < D) :
    (0 ≤ qexpPos N D →
      D * 10 ^ (qexpPos N D).toNat ≤ N ∧
        N < D * 10 ^ ((qexpPos N D).toNat + 1)) ∧
    (qexpPos N D < 0 →
      D ≤ N * 10 ^ (-(qexpPos N D)).toNat ∧
        N * 10 ^ ((-(qexpPos N D)).toNat - 1) < D) := by
  by_cases hDN : D ≤ N
  · rw [qexpPos, if_pos hDN]
    have hF1 : 1 ≤ N / D := (Nat.one_le_div_iff hD).mpr hDN
    have hge := natToDigits_val_ge hF1
    have hlt := natToDigits_val_lt (N / D)
    have hl1 : 1 ≤ (natToDigits (N / D)).length :=
      List.length_pos.mpr (natToDigits_ne_nil _)
    constructor
    · intro _
      simp only [Int.ofNat_eq_coe, Int.toNat_ofNat]
      constructor
      · calc D * 10 ^ ((natToDigits (N / D)).length - 1) ≤
            D * (N / D) := Nat.mul_le_mul_left _ hge
          _ ≤ N := by
              rw [mul_comm]
              exact Nat.div_mul_le_self N D
      · have hmod := Nat.mod_lt N hD
        have hdm := Nat.div_add_mod N D
        calc N = D * (N / D) + N % D := hdm.symm
          _ < D * (N / D + 1) := by
              rw [Nat.mul_add]
              omega
          _ ≤ D * 10 ^ ((natToDigits (N / D)).length - 1 + 1) := by
              refine Nat.mul_le_mul_left _ ?_
              rw [show (natToDigits (N / D)).length - 1 + 1 =
                (natToDigits (N / D)).length from by omega]
              omega
    · intro hneg
      simp only [Int.ofNat_eq_coe] at hneg
      omega
  · rw [qexpPos, if_neg hDN]
    have hND : N < D := by omega
    have hF1 : 1 ≤ D / N := (Nat.one_le_div_iff (by omega)).mpr (by omega)
    have hge := natToDigits_val_ge hF1
    have hlt := natToDigits_val_lt (D / N)
    have hl1 : 1 ≤ (natToDigits (D / N)).length :=
      List.length_pos.mpr (natToDigits_ne_nil _)
    have hDF : N * (D / N) ≤ D := by
      rw [mul_comm]
      exact Nat.div_mul_le_self D N
    by_cases hbr : D ≤ 10 ^ ((natToDigits (D / N)).length - 1) * N
    · rw [if_pos hbr]
      have hd2 : 2 ≤ (natToDigits (D / N)).length := by
        by_contra hcon
        push_neg at hcon
        have hl : (natToDigits (D / N)).length = 1 := by omega
        rw [hl] at hbr
        simp at hbr
        omega
      constructor
      · intro hpos
        simp only [Int.ofNat_eq_coe] at hpos
        omega
      · intro _
        simp only [Int.ofNat_eq_coe, neg_neg, Int.toNat_ofNat]
        constructor
        · rw [mul_comm]
          exact hbr
        · have hchain : N * 10 ^ ((natToDigits (D / N)).length - 1) ≤ D :=
            le_trans (Nat.mul_le_mul_left _ hge) hDF
          have hsplit : (10:Nat) ^ ((natToDigits (D / N)).length - 1) =
              10 * 10 ^ ((natToDigits (D / N)).length - 1 - 1) := by
            rw [← pow_succ']
            congr 1
            omega
          rw [hsplit] at hchain
          have hx : 1 ≤ N * 10 ^ ((natToDigits (D / N)).length - 1 - 1) :=
            Nat.mul_pos (by omega) (pow_pos (by norm_num) _)
          have hmul : N * (10 *
              10 ^ ((natToDigits (D / N)).length - 1 - 1)) =
              10 * (N * 10 ^ ((natToDigits (D / N)).length - 1 - 1)) := by
            ring
          rw [hmul] at hchain
          omega
    · rw [if_neg hbr]
      push_neg at hbr
      constructor
      · intro hpos
        simp only [Int.ofNat_eq_coe] at hpos
        omega
      · intro _
        simp only [Int.ofNat_eq_coe, neg_neg, Int.toNat_ofNat]
        constructor
        · refine le_of_lt ?_
          have hdm := Nat.div_add_mod D N
          have hmod := Nat.mod_lt D (show 0 < N from hN)
          calc D = N * (D / N) + D % N := hdm.symm
            _ < N * (D / N + 1) := by
                rw [Nat.mul_add]
                omega
            _ ≤ N * 10 ^ (natToDigits (D / N)).length := by
                refine Nat.mul_le_mul_left _ ?_
                omega
        · rw [mul_comm]
          exact hbr

theorem roundNat_bounds {X D : Nat} (hD : 0 < D)
    (hlow : 10 ^ 5 * D ≤ X) (hhigh : X < 10 ^ 6 * D) :
    10 ^ 5 ≤ roundNat X D ∧ roundNat X D ≤ 10 ^ 6 := by
  have hf1 : 10 ^ 5 ≤ X / D := (Nat.le_div_iff_mul_le hD).mpr hlow
  have hf2 : X / D < 10 ^ 6 := (Nat.div_lt_iff_lt_mul hD).mpr hhigh
  have hg := roundNat_ge X D
  have hl := roundNat_le X D
  omega

/-- The `%g` mantissa of a nonzero number with a nonzero denominator has
exactly six digits. -/
theorem fmtM_bounds (q : NumberValue) (hn : q.num ≠ 0) (hd : 0 < q.den) :
    10 ^ 5 ≤ fmtM q ∧ fmtM q < 10 ^ 6 := by
  have hN : 0 < q.num.natAbs := Int.natAbs_pos.mpr hn
  obtain ⟨hs1, hs2⟩ := qexpPos_spec q.num.natAbs q.den hN hd
  rw [fmtM]
  have hbound : 10 ^ 5 ≤ (if (0:Int) ≤ 5 - qexpPos q.num.natAbs q.den then
      roundNat (q.num.natAbs * 10 ^ ((5:Int) -
        qexpPos q.num.natAbs q.den).toNat) q.den
      else roundNat q.num.natAbs (q.den *
        10 ^ (-((5:Int) - qexpPos q.num.natAbs q.den)).toNat)) ∧
      (if (0:Int) ≤ 5 - qexpPos q.num.natAbs q.den then
      roundNat (q.num.natAbs * 10 ^ ((5:Int) -
        qexpPos q.num.natAbs q.den).toNat) q.den
      else roundNat q.num.natAbs (q.den *
        10 ^ (-((5:Int) - qexpPos q.num.natAbs q.den)).toNat)) ≤ 10 ^ 6
      := by
    by_cases hk : (0:Int) ≤ 5 - qexpPos q.num.natAbs q.den
    · rw [if_pos hk]
      refine roundNat_bounds hd ?_ ?_
      · by_cases he : 0 ≤ qexpPos q.num.natAbs q.den
        · obtain ⟨hlo, _⟩ := hs1 he
          have htn : ((5:Int) - qexpPos q.num.natAbs q.den).toNat =
              5 - (qexpPos q.num.natAbs q.den).toNat := by omega
          rw [htn]
          calc 10 ^ 5 * q.den =
              q.den * 10 ^ (qexpPos q.num.natAbs q.den).toNat *
                10 ^ (5 - (qexpPos q.num.natAbs q.den).toNat) := by
                rw [mul_assoc, ← pow_add]
                rw [show (qexpPos q.num.natAbs q.den).toNat +
                  (5 - (qexpPos q.num.natAbs q.den).toNat) = 5 from by
                    omega]
                ring
            _ ≤ q.num.natAbs *
                10 ^ (5 - (qexpPos q.num.natAbs q.den).toNat) :=
                Nat.mul_le_mul_right _ hlo
        · push_neg at he
          obtain ⟨hlo, _⟩ := hs2 he
          have htn : ((5:Int) - qexpPos q.num.natAbs q.den).toNat =
              5 + (-(qexpPos q.num.natAbs q.den)).toNat := by omega
          rw [htn]
          calc 10 ^ 5 * q.den ≤ 10 ^ 5 * (q.num.natAbs *
              10 ^ (-(qexpPos q.num.natAbs q.den)).toNat) :=
              Nat.mul_le_mul_left _ hlo
            _ = q.num.natAbs * 10 ^ (5 +
                (-(qexpPos q.num.natAbs q.den)).toNat) := by
                rw [pow_add]
                ring
      · by_cases he : 0 ≤ qexpPos q.num.natAbs q.den
        · obtain ⟨_, hhi⟩ := hs1 he
          have htn : ((5:Int) - qexpPos q.num.natAbs q.den).toNat =
              5 - (qexpPos q.num.natAbs q.den).toNat := by omega
          rw [htn]
          calc q.num.natAbs *
              10 ^ (5 - (qexpPos q.num.natAbs q.den).toNat) <
              q.den * 10 ^ ((qexpPos q.num.natAbs q.den).toNat + 1) *
                10 ^ (5 - (qexpPos q.num.natAbs q.den).toNat) :=
              (mul_lt_mul_right (pow_pos (by norm_num) _)).mpr hhi
            _ = 10 ^ 6 * q.den := by
                rw [mul_assoc, ← pow_add]
                rw [show (qexpPos q.num.natAbs q.den).toNat + 1 +
                  (5 - (qexpPos q.num.natAbs q.den).toNat) = 6 from by
                    omega]
                ring
        · push_neg at he
          obtain ⟨_, hhi⟩ := hs2 he
          have hu1 : 1 ≤ (-(qexpPos q.num.natAbs q.den)).toNat := by omega
          have htn : ((5:Int) - qexpPos q.num.natAbs q.den).toNat =
              ((-(qexpPos q.num.natAbs q.den)).toNat - 1) + 6 := by omega
          rw [htn]
          calc q.num.natAbs *
              10 ^ (((-(qexpPos q.num.natAbs q.den)).toNat - 1) + 6) =
              q.num.natAbs *
                10 ^ ((-(qexpPos q.num.natAbs q.den)).toNat - 1) *
                10 ^ 6 := by
                rw [mul_assoc, ← pow_add]
            _ < q.den * 10 ^ 6 :=
                (mul_lt_mul_right (pow_pos (by norm_num) _)).mpr hhi
            _ = 10 ^ 6 * q.den := by ring
    · rw [if_neg hk]
      push_neg at hk
      have he : 0 ≤ qexpPos q.num.natAbs q.den := by omega
      obtain ⟨hlo, hhi⟩ := hs1 he
      have hu6 : 6 ≤ (qexpPos q.num.natAbs q.den).toNat := by omega
      have htn : (-((5:Int) - qexpPos q.num.natAbs q.den)).toNat =
          (qexpPos q.num.natAbs q.den).toNat - 5 := by omega
      rw [htn]
      refine roundNat_bounds
        (Nat.mul_pos hd (pow_pos (by norm_num) _)) ?_ ?_
      · calc 10 ^ 5 * (q.den *
            10 ^ ((qexpPos q.num.natAbs q.den).toNat - 5)) =
            q.den * 10 ^ (qexpPos q.num.natAbs q.den).toNat := by
              rw [← mul_assoc, mul_comm (10 ^ 5) q.den, mul_assoc,
                ← pow_add]
              rw [show 5 + ((qexpPos q.num.natAbs q.den).toNat - 5) =
                (qexpPos q.num.natAbs q.den).toNat from by omega]
          _ ≤ q.num.natAbs := hlo
      · calc q.num.natAbs <
            q.den * 10 ^ ((qexpPos q.num.natAbs q.den).toNat + 1) := hhi
          _ = 10 ^ 6 * (q.den *
              10 ^ ((qexpPos q.num.natAbs q.den).toNat - 5)) := by
              rw [← mul_assoc, mul_comm (10 ^ 6) q.den, mul_assoc,
                ← pow_add]
              rw [show 6 + ((qexpPos q.num.natAbs q.den).toNat - 5) =
                (qexpPos q.num.natAbs q.den).toNat + 1 from by omega]
  by_cases hm6 : (if (0:Int) ≤ 5 - qexpPos q.num.natAbs q.den then
      roundNat (q.num.natAbs * 10 ^ ((5:Int) -
        qexpPos q.num.natAbs q.den).toNat) q.den
      else roundNat q.num.natAbs (q.den *
        10 ^ (-((5:Int) - qexpPos q.num.natAbs q.den)).toNat)) = 10 ^ 6
  · rw [if_pos hm6]
    norm_num
  · rw [if_neg hm6]
    omega

/-- Exponent value encoded by the optional exponent segment of a
numeric token. -/
def numTokExVal : Option Bool → Str → Int
  | Option.none, _ => 0
  | some true, eD => -(Int.ofNat (digitsVal eD))
  | some false, eD => Int.ofNat (digitsVal eD)

/-- `std::stod` on the rendering of a numeric token made of digit
segments: the literal denotes the exact rational
`± (I . F) * 10 ^ (± eD)`. -/
theorem litVal_bytes (neg : Bool) (I F : Str) (eS : Option Bool) (eD : Str)
    (hI : I ≠ []) (hId : ∀ c ∈ I, isdigit c = true)
    (hFd : ∀ c ∈ F, isdigit c = true) (hEd : ∀ c ∈ eD, isdigit c = true) :
    litVal (numTokSign neg ++ I ++ numTokFrac F ++ numTokExp eS eD) =
      (if 0 ≤ numTokExVal eS eD - Int.ofNat F.length then
        mkNum ((if neg then
            -(Int.ofNat (digitsVal I * 10 ^ F.length + digitsVal F))
          else Int.ofNat (digitsVal I * 10 ^ F.length + digitsVal F)) *
          10 ^ (numTokExVal eS eD - Int.ofNat F.length).toNat) 1
      else
        mkNum (if neg then
            -(Int.ofNat (digitsVal I * 10 ^ F.length + digitsVal F))
          else Int.ofNat (digitsVal I * 10 ^ F.length + digitsVal F))
          (10 ^ (-(numTokExVal eS eD - Int.ofNat F.length)).toNat)) := by
  obtain ⟨c0, I0, rfl⟩ : ∃ c0 I0, I = c0 :: I0 := by
    cases I with
    | nil => exact absurd rfl hI
    | cons a l => exact ⟨a, l, rfl⟩
  have hc0d : isdigit c0 = true := hId c0 (List.mem_cons_self _ _)
  have hc0b : 48 ≤ c0 ∧ c0 ≤ 57 := by
    rw [isdigit] at hc0d
    simp only [Bool.and_eq_true, decide_eq_true_eq] at hc0d
    exact hc0d
  rw [show numTokSign neg ++ (c0 :: I0) ++ numTokFrac F ++ numTokExp eS eD =
    numTokSign neg ++ ((c0 :: I0) ++ (numTokFrac F ++ numTokExp eS eD))
    from by simp [List.append_assoc]]
  have hsgn : ((numTokSign neg ++ ((c0 :: I0) ++
      (numTokFrac F ++ numTokExp eS eD))).head? == some 45) = neg := by
    cases neg
    · simp only [numTokSign, List.nil_append, List.cons_append,
        List.head?_cons]
      rw [beq_eq_false_iff_ne]
      intro hcon
      have := Option.some.inj hcon
      omega
    · rfl
  have h43 : ((numTokSign neg ++ ((c0 :: I0) ++
      (numTokFrac F ++ numTokExp eS eD))).head? == some 43) = false := by
    cases neg
    · simp only [numTokSign, List.nil_append, List.cons_append,
        List.head?_cons]
      rw [beq_eq_false_iff_ne]
      intro hcon
      have := Option.some.inj hcon
      omega
    · rfl
  have hs1 : (if ((numTokSign neg ++ ((c0 :: I0) ++ (numTokFrac F ++
        numTokExp eS eD))).head? == some 45 ||
        (numTokSign neg ++ ((c0 :: I0) ++ (numTokFrac F ++
        numTokExp eS eD))).head? == some 43) = true then
      (numTokSign neg ++ ((c0 :: I0) ++ (numTokFrac F ++
        numTokExp eS eD))).drop 1
      else numTokSign neg ++ ((c0 :: I0) ++ (numTokFrac F ++
        numTokExp eS eD))) =
      (c0 :: I0) ++ (numTokFrac F ++ numTokExp eS eD) := by
    simp only [hsgn, h43, Bool.or_false]
    cases neg
    · rw [if_neg (by simp)]
      simp [numTokSign]
    · rw [if_pos rfl]
      rfl
  have htail2 : (numTokExp eS eD).takeWhile (fun c => isdigit c) = [] := by
    cases eS with
    | none => rfl
    | some b => rfl
  have htail : (numTokFrac F ++ numTokExp eS eD).takeWhile
      (fun c => isdigit c) = [] := by
    cases F with
    | nil =>
      rw [numTokFrac, List.nil_append]
      exact htail2
    | cons f fs => rfl
  have h_ip : ((c0 :: I0) ++ (numTokFrac F ++ numTokExp eS eD)).takeWhile
      (fun c => isdigit c) = c0 :: I0 := by
    rw [takeWhile_append_all _ hId, htail, List.append_nil]
  simp only [litVal]
  simp only [hs1]
  simp only [hsgn]
  simp only [h_ip]
  simp only [List.drop_left]
  cases F with
  | nil =>
    simp only [numTokFrac, List.nil_append]
    cases eS with
    | none =>
      simp only [numTokExp, List.head?_nil,
        show ∀ x : Nat, ((Option.none : Option Nat) == some x) = false
          from fun x => rfl,
        show ((false : Bool) = true) = False from eq_false (by decide),
        Bool.or_false, if_false, numTokExVal,
        show digitsVal [] = 0 from rfl, Int.ofNat_zero, List.length_nil]
      norm_num
    | some b =>
      have h_ed : List.takeWhile (fun c => isdigit c) eD = eD :=
        takeWhile_all hEd
      cases b
      · simp only [numTokExp,
          show (if false then (45:Nat) else 43) = 43 from rfl,
          List.head?_cons,
          show ((some (101:Nat) == some 46) : Bool) = false from rfl,
          show ((some (101:Nat) == some 101) : Bool) = true from rfl,
          show ((some (43:Nat) == some 45) : Bool) = false from rfl,
          show ((some (43:Nat) == some 43) : Bool) = true from rfl,
          Bool.true_or, Bool.false_or,
          show ((false : Bool) = true) = False from eq_false (by decide),
          show ((true : Bool) = true) = True from eq_true rfl,
          if_true, if_false, List.drop_one, List.tail_cons, h_ed,
          numTokExVal, List.length_nil]
      · simp only [numTokExp,
          show (if true then (45:Nat) else 43) = 45 from rfl,
          List.head?_cons,
          show ((some (101:Nat) == some 46) : Bool) = false from rfl,
          show ((some (101:Nat) == some 101) : Bool) = true from rfl,
          show ((some (45:Nat) == some 45) : Bool) = true from rfl,
          Bool.true_or,
          show ((false : Bool) = true) = False from eq_false (by decide),
          show ((true : Bool) = true) = True from eq_true rfl,
          if_true, if_false, List.drop_one, List.tail_cons, h_ed,
          numTokExVal, List.length_nil]
  | cons f fs =>
    have h_fp : List.takeWhile (fun c => isdigit c)
        (f :: (fs ++ numTokExp eS eD)) = f :: fs := by
      have hx := takeWhile_append_all (a := f :: fs) (numTokExp eS eD) hFd
      rw [List.cons_append] at hx
      rw [hx, htail2, List.append_nil]
    simp only [numTokFrac, List.cons_append, List.head?_cons,
      show ((some (46:Nat) == some 46) : Bool) = true from rfl,
      show ((true : Bool) = true) = True from eq_true rfl,
      if_true, List.drop_one, List.tail_cons, List.drop_zero, h_fp,
      List.length_cons, List.drop_succ_cons, List.drop_left]
    cases eS with
    | none =>
      simp only [numTokExp, List.head?_nil,
        show ∀ x : Nat, ((Option.none : Option Nat) == some x) = false
          from fun x => rfl,
        show ((false : Bool) = true) = False from eq_false (by decide),
        Bool.or_false, if_false, numTokExVal, List.drop_zero,
        show digitsVal [] = 0 from rfl, Int.ofNat_zero]
      norm_num
    | some b =>
      have h_ed : List.takeWhile (fun c => isdigit c) eD = eD :=
        takeWhile_all hEd
      cases b
      · simp only [numTokExp,
          show (if false then (45:Nat) else 43) = 43 from rfl,
          List.head?_cons,
          show ((some (101:Nat) == some 46) : Bool) = false from rfl,
          show ((some (101:Nat) == some 101) : Bool) = true from rfl,
          show ((some (43:Nat) == some 45) : Bool) = false from rfl,
          show ((some (43:Nat) == some 43) : Bool) = true from rfl,
          Bool.true_or, Bool.false_or,
          show ((false : Bool) = true) = False from eq_false (by decide),
          show ((true : Bool) = true) = True from eq_true rfl,
          if_true, if_false, List.drop_one, List.tail_cons, h_ed,
          numTokExVal]
      · simp only [numTokExp,
          show (if true then (45:Nat) else 43) = 45 from rfl,
          List.head?_cons,
          show ((some (101:Nat) == some 46) : Bool) = false from rfl,
          show ((some (101:Nat) == some 101) : Bool) = true from rfl,
          show ((some (45:Nat) == some 45) : Bool) = true from rfl,
          Bool.true_or,
          show ((false : Bool) = true) = False from eq_false (by decide),
          show ((true : Bool) = true) = True from eq_true rfl,
          if_true, if_false, List.drop_one, List.tail_cons, h_ed,
          numTokExVal]

theorem fmt_pow_scaled (mant w z q0 M : Nat) (neg : Bool)
    (hMz : mant * 10 ^ z = M) (h5 : 10 ^ 5 ≤ M) (h6 : M < 10 ^ 6) :
    fmtNumber ⟨(if neg then -((mant * 10 ^ w : Nat) : Int)
        else ((mant * 10 ^ w : Nat) : Int)), 10 ^ q0⟩ =
      numTokSign neg ++ fmtDigits6 M ((5 + (w : Int)) - ((q0 + z : Nat) : Int))
      := by
  have hc : 0 < (10:Nat) ^ z := pow_pos (by norm_num) _
  have hnum : (if neg then -((mant * 10 ^ w : Nat) : Int)
      else ((mant * 10 ^ w : Nat) : Int)) * (((10 ^ z : Nat) : Int)) =
      (if neg then -((M * 10 ^ w : Nat) : Int)
        else ((M * 10 ^ w : Nat) : Int)) := by
    cases neg
    · simp only [show ((false : Bool) = true) = False from
        eq_false (by decide), if_false]
      rw [← hMz]
      push_cast
      ring
    · simp only [show ((true : Bool) = true) = True from eq_true rfl,
        if_true]
      rw [← hMz]
      push_cast
      ring
  have hstep := fmt_scale (if neg then -((mant * 10 ^ w : Nat) : Int)
      else ((mant * 10 ^ w : Nat) : Int)) (10 ^ q0) (10 ^ z) hc
  rw [← hstep, hnum]
  rw [show (10:Nat) ^ q0 * 10 ^ z = 10 ^ (q0 + z) from (pow_add 10 q0 z).symm]
  exact fmt_pow M w (q0 + z) neg h5 h6

theorem numTokFrac_of_ne {X : Str} (hX : X ≠ []) : numTokFrac X = 46 :: X := by
  cases X with
  | nil => exact absurd rfl hX
  | cons a l => rfl

/-- Formatting is idempotent on canonical six-digit renderings: parsing
`±(fmtDigits6 M E)` back as a literal and re-rendering it reproduces the
same bytes. -/
theorem fmt_litVal_canon (M : Nat) (E : Int) (neg : Bool)
    (h5 : 10 ^ 5 ≤ M) (h6 : M < 10 ^ 6) :
    fmtNumber (litVal (numTokSign neg ++ fmtDigits6 M E)) =
      numTokSign neg ++ fmtDigits6 M E := by
  have hds0 : natToDigits M ≠ [] := natToDigits_ne_nil M
  have hlen : (natToDigits M).length = 6 := by
    have := natToDigits_len_eq (n := M) (L := 5) h5 (by simpa using h6)
    simpa using this
  by_cases hsci : E < -4 ∨ 6 ≤ E
  · -- scientific branch
    have harg : numTokSign neg ++ fmtDigits6 M E =
        numTokSign neg ++ (natToDigits M).take 1 ++
          numTokFrac (stripZeros ((natToDigits M).drop 1)) ++
          numTokExp (some (decide (E < 0)))
            (if (natToDigits E.natAbs).length < 2 then
              48 :: natToDigits E.natAbs else natToDigits E.natAbs) := by
      have h2 : numTokExp (some (decide (E < 0)))
          (if (natToDigits E.natAbs).length < 2 then
            48 :: natToDigits E.natAbs else natToDigits E.natAbs) =
          101 :: expDigits E := by
        by_cases hE : E < 0
        · rw [show decide (E < 0) = true from decide_eq_true hE]
          simp [numTokExp, expDigits, hE]
        · rw [show decide (E < 0) = false from decide_eq_false hE]
          simp [numTokExp, expDigits, hE]
      have h1 : numTokFrac (stripZeros ((natToDigits M).drop 1)) =
          (if (stripZeros ((natToDigits M).drop 1)).isEmpty then []
            else 46 :: stripZeros ((natToDigits M).drop 1)) := by
        cases hh : stripZeros ((natToDigits M).drop 1) <;> simp [numTokFrac]
      rw [h2, h1]
      rw [show fmtDigits6 M E = (natToDigits M).take 1 ++
          ((if (stripZeros ((natToDigits M).drop 1)).isEmpty then []
            else 46 :: stripZeros ((natToDigits M).drop 1)) ++
            (101 :: expDigits E)) from by
        simp only [fmtDigits6]
        rw [if_pos hsci]
        simp [List.append_assoc]]
      simp [List.append_assoc]
    have hEDd : ∀ c ∈ (if (natToDigits E.natAbs).length < 2 then
        48 :: natToDigits E.natAbs else natToDigits E.natAbs),
        isdigit c = true := by
      intro c hc
      by_cases hp : (natToDigits E.natAbs).length < 2
      · rw [if_pos hp] at hc
        rcases List.mem_cons.mp hc with h | h
        · subst h
          decide
        · exact natToDigits_digits h
      · rw [if_neg hp] at hc
        exact natToDigits_digits hc
    have hdEval : digitsVal (if (natToDigits E.natAbs).length < 2 then
        48 :: natToDigits E.natAbs else natToDigits E.natAbs) = E.natAbs := by
      by_cases hp : (natToDigits E.natAbs).length < 2
      · rw [if_pos hp, digitsVal_cons, digitsVal_natToDigits]
        norm_num
      · rw [if_neg hp]
        exact digitsVal_natToDigits _
    have hexval : numTokExVal (some (decide (E < 0)))
        (if (natToDigits E.natAbs).length < 2 then
          48 :: natToDigits E.natAbs else natToDigits E.natAbs) = E := by
      by_cases hE : E < 0
      · rw [show decide (E < 0) = true from decide_eq_true hE]
        simp only [numTokExVal, hdEval, Int.ofNat_eq_coe]
        omega
      · rw [show decide (E < 0) = false from decide_eq_false hE]
        simp only [numTokExVal, hdEval, Int.ofNat_eq_coe]
        omega
    obtain ⟨z, hz⟩ := stripZeros_spec ((natToDigits M).drop 1)
    have hfl : (stripZeros ((natToDigits M).drop 1)).length + z = 5 := by
      have hc := congrArg List.length hz
      rw [List.length_append, List.length_replicate, List.length_drop, hlen]
        at hc
      omega
    have hkey : (digitsVal ((natToDigits M).take 1) *
        10 ^ (stripZeros ((natToDigits M).drop 1)).length +
        digitsVal (stripZeros ((natToDigits M).drop 1))) * 10 ^ z = M := by
      have e1 : digitsVal ((natToDigits M).drop 1) =
          digitsVal (stripZeros ((natToDigits M).drop 1)) * 10 ^ z := by
        conv_lhs => rw [hz]
        rw [digitsVal_append, digitsVal_rep48, List.length_replicate]
        omega
      have e2 := digitsVal_append ((natToDigits M).take 1)
        ((natToDigits M).drop 1)
      rw [List.take_append_drop, digitsVal_natToDigits] at e2
      rw [List.length_drop, hlen] at e2
      rw [e1] at e2
      have hp : (10:Nat) ^ (stripZeros ((natToDigits M).drop 1)).length *
          10 ^ z = 10 ^ 5 := by
        rw [← pow_add, hfl]
      calc (digitsVal ((natToDigits M).take 1) *
          10 ^ (stripZeros ((natToDigits M).drop 1)).length +
          digitsVal (stripZeros ((natToDigits M).drop 1))) * 10 ^ z =
          digitsVal ((natToDigits M).take 1) *
            (10 ^ (stripZeros ((natToDigits M).drop 1)).length * 10 ^ z) +
            digitsVal (stripZeros ((natToDigits M).drop 1)) * 10 ^ z := by
            ring
        _ = digitsVal ((natToDigits M).take 1) * 10 ^ (6 - 1) +
            digitsVal (stripZeros ((natToDigits M).drop 1)) * 10 ^ z := by
            rw [hp]
        _ = M := e2.symm
    rw [harg]
    rw [litVal_bytes neg ((natToDigits M).take 1)
      (stripZeros ((natToDigits M).drop 1))
      (some (decide (E < 0)))
      (if (natToDigits E.natAbs).length < 2 then 48 :: natToDigits E.natAbs
        else natToDigits E.natAbs)
      (take_succ_ne_nil hds0 0)
      (fun c hc => natToDigits_digits (List.take_subset _ _ hc))
      (fun c hc => natToDigits_digits
        (List.drop_subset _ _ (stripZeros_subset hc)))
      hEDd]
    rw [hexval]
    rcases hsci with hEneg | hEge
    · rw [if_neg (show ¬ (0:Int) ≤ E - Int.ofNat
          (List.length (stripZeros ((natToDigits M).drop 1))) from by
        simp only [Int.ofNat_eq_coe]
        omega)]
      rw [fmtNumber_mkNum _ _ (pow_pos (by norm_num) _)]
      have hcall := fmt_pow_scaled
        (digitsVal ((natToDigits M).take 1) *
          10 ^ (stripZeros ((natToDigits M).drop 1)).length +
          digitsVal (stripZeros ((natToDigits M).drop 1)))
        0 z
        ((-(E - Int.ofNat (List.length (stripZeros
          ((natToDigits M).drop 1))))).toNat)
        M neg hkey h5 h6
      refine Eq.trans (congrArg fmtNumber ?_)
        (Eq.trans hcall (Eq.trans ?_ harg))
      · cases neg
        · norm_num
        · norm_num
      · congr 1
        congr 1
        simp only [Int.ofNat_eq_coe]
        omega
    · rw [if_pos (show (0:Int) ≤ E - Int.ofNat
          (List.length (stripZeros ((natToDigits M).drop 1))) from by
        simp only [Int.ofNat_eq_coe]
        omega)]
      rw [fmtNumber_mkNum _ _ (by norm_num : (0:Nat) < 1)]
      have hcall := fmt_pow_scaled
        (digitsVal ((natToDigits M).take 1) *
          10 ^ (stripZeros ((natToDigits M).drop 1)).length +
          digitsVal (stripZeros ((natToDigits M).drop 1)))
        ((E - Int.ofNat (List.length (stripZeros
          ((natToDigits M).drop 1)))).toNat)
        z 0 M neg hkey h5 h6
      refine Eq.trans (congrArg fmtNumber ?_)
        (Eq.trans hcall (Eq.trans ?_ harg))
      · cases neg
        · norm_num
        · norm_num
          push_cast
          ring
      · congr 1
        congr 1
        simp only [Int.ofNat_eq_coe]
        omega
  · -- fixed-point branches
    by_cases hE0 : 0 ≤ E
    · have harg : numTokSign neg ++ fmtDigits6 M E =
          numTokSign neg ++ (natToDigits M).take (E.toNat + 1) ++
            numTokFrac (stripZeros ((natToDigits M).drop (E.toNat + 1))) ++
            numTokExp Option.none [] := by
        have h1 : numTokFrac (stripZeros ((natToDigits M).drop
            (E.toNat + 1))) =
            (if (stripZeros ((natToDigits M).drop (E.toNat + 1))).isEmpty
              then []
              else 46 :: stripZeros ((natToDigits M).drop (E.toNat + 1)))
            := by
          cases hh : stripZeros ((natToDigits M).drop (E.toNat + 1)) <;>
            simp [numTokFrac]
        rw [h1, show numTokExp Option.none ([] : Str) = [] from rfl]
        rw [show fmtDigits6 M E = (natToDigits M).take (E.toNat + 1) ++
            (if (stripZeros ((natToDigits M).drop (E.toNat + 1))).isEmpty
              then []
              else 46 :: stripZeros ((natToDigits M).drop (E.toNat + 1)))
            from by
          simp only [fmtDigits6]
          rw [if_neg hsci, if_pos hE0]]
        simp [List.append_assoc]
      obtain ⟨z, hz⟩ := stripZeros_spec ((natToDigits M).drop (E.toNat + 1))
      have hE5 : E.toNat ≤ 5 := by omega
      have hfl : (stripZeros ((natToDigits M).drop (E.toNat + 1))).length +
          z = 5 - E.toNat := by
        have hc := congrArg List.length hz
        rw [List.length_append, List.length_replicate, List.length_drop,
          hlen] at hc
        omega
      have hkey : (digitsVal ((natToDigits M).take (E.toNat + 1)) *
          10 ^ (stripZeros ((natToDigits M).drop (E.toNat + 1))).length +
          digitsVal (stripZeros ((natToDigits M).drop (E.toNat + 1)))) *
          10 ^ z = M := by
        have e1 : digitsVal ((natToDigits M).drop (E.toNat + 1)) =
            digitsVal (stripZeros ((natToDigits M).drop (E.toNat + 1))) *
              10 ^ z := by
          conv_lhs => rw [hz]
          rw [digitsVal_append, digitsVal_rep48, List.length_replicate]
          omega
        have e2 := digitsVal_append ((natToDigits M).take (E.toNat + 1))
          ((natToDigits M).drop (E.toNat + 1))
        rw [List.take_append_drop, digitsVal_natToDigits] at e2
        rw [List.length_drop, hlen] at e2
        rw [e1] at e2
        have hp : (10:Nat) ^ (stripZeros ((natToDigits M).drop
            (E.toNat + 1))).length * 10 ^ z = 10 ^ (6 - (E.toNat + 1)) := by
          rw [← pow_add]
          congr 1
          omega
        calc (digitsVal ((natToDigits M).take (E.toNat + 1)) *
            10 ^ (stripZeros ((natToDigits M).drop (E.toNat + 1))).length +
            digitsVal (stripZeros ((natToDigits M).drop (E.toNat + 1)))) *
            10 ^ z =
            digitsVal ((natToDigits M).take (E.toNat + 1)) *
              (10 ^ (stripZeros ((natToDigits M).drop
                (E.toNat + 1))).length * 10 ^ z) +
              digitsVal (stripZeros ((natToDigits M).drop (E.toNat + 1))) *
                10 ^ z := by
              ring
          _ = digitsVal ((natToDigits M).take (E.toNat + 1)) *
              10 ^ (6 - (E.toNat + 1)) +
              digitsVal (stripZeros ((natToDigits M).drop (E.toNat + 1))) *
                10 ^ z := by
              rw [hp]
          _ = M := e2.symm
      rw [harg]
      rw [litVal_bytes neg ((natToDigits M).take (E.toNat + 1))
        (stripZeros ((natToDigits M).drop (E.toNat + 1)))
        Option.none []
        (take_succ_ne_nil hds0 E.toNat)
        (fun c hc => natToDigits_digits (List.take_subset _ _ hc))
        (fun c hc => natToDigits_digits
          (List.drop_subset _ _ (stripZeros_subset hc)))
        (fun c hc => absurd hc (List.not_mem_nil c))]
      rw [show numTokExVal Option.none ([] : Str) = 0 from rfl]
      by_cases hflz : List.length (stripZeros ((natToDigits M).drop
          (E.toNat + 1))) = 0
      · rw [if_pos (show (0:Int) ≤ 0 - Int.ofNat (List.length (stripZeros
            ((natToDigits M).drop (E.toNat + 1)))) from by
          simp only [Int.ofNat_eq_coe]
          omega)]
        rw [fmtNumber_mkNum _ _ (by norm_num : (0:Nat) < 1)]
        have hcall := fmt_pow_scaled
          (digitsVal ((natToDigits M).take (E.toNat + 1)) *
            10 ^ (stripZeros ((natToDigits M).drop
              (E.toNat + 1))).length +
            digitsVal (stripZeros ((natToDigits M).drop (E.toNat + 1))))
          ((0 - Int.ofNat (List.length (stripZeros ((natToDigits M).drop
            (E.toNat + 1))))).toNat)
          z 0 M neg hkey h5 h6
        refine Eq.trans (congrArg fmtNumber ?_)
          (Eq.trans hcall (Eq.trans ?_ harg))
        · cases neg
          · norm_num
          · norm_num
        · congr 1
          congr 1
          simp only [Int.ofNat_eq_coe]
          omega
      · rw [if_neg (show ¬ (0:Int) ≤ 0 - Int.ofNat (List.length (stripZeros
            ((natToDigits M).drop (E.toNat + 1)))) from by
          simp only [Int.ofNat_eq_coe]
          omega)]
        rw [fmtNumber_mkNum _ _ (pow_pos (by norm_num) _)]
        have hcall := fmt_pow_scaled
          (digitsVal ((natToDigits M).take (E.toNat + 1)) *
            10 ^ (stripZeros ((natToDigits M).drop
              (E.toNat + 1))).length +
            digitsVal (stripZeros ((natToDigits M).drop (E.toNat + 1))))
          0 z
          ((-(0 - Int.ofNat (List.length (stripZeros ((natToDigits M).drop
            (E.toNat + 1)))))).toNat)
          M neg hkey h5 h6
        refine Eq.trans (congrArg fmtNumber ?_)
          (Eq.trans hcall (Eq.trans ?_ harg))
        · cases neg
          · norm_num
          · norm_num
        · congr 1
          congr 1
          simp only [Int.ofNat_eq_coe]
          omega
    · -- negative fixed-point branch
      obtain ⟨z6, hz6⟩ := stripZeros_spec (natToDigits M)
      have hsZne : stripZeros (natToDigits M) ≠ [] := by
        intro hnil
        rw [hnil, List.nil_append] at hz6
        have hv := digitsVal_natToDigits M
        rw [hz6, digitsVal_rep48] at hv
        rw [← hv] at h5
        norm_num at h5
      have hFne : List.replicate (E.natAbs - 1) 48 ++
          stripZeros (natToDigits M) ≠ [] := by
        intro hcon
        exact hsZne (List.append_eq_nil.mp hcon).2
      have harg : numTokSign neg ++ fmtDigits6 M E =
          numTokSign neg ++ [48] ++
            numTokFrac (List.replicate (E.natAbs - 1) 48 ++
              stripZeros (natToDigits M)) ++
            numTokExp Option.none [] := by
        rw [numTokFrac_of_ne hFne,
          show numTokExp Option.none ([] : Str) = [] from rfl]
        rw [show fmtDigits6 M E = [48, 46] ++
            List.replicate (E.natAbs - 1) 48 ++ stripZeros (natToDigits M)
            from by
          simp only [fmtDigits6]
          rw [if_neg hsci, if_neg hE0]]
        simp [List.append_assoc]
      have hfl6 : (stripZeros (natToDigits M)).length + z6 = 6 := by
        have hc := congrArg List.length hz6
        rw [List.length_append, List.length_replicate, hlen] at hc
        omega
      have hsZlen : 1 ≤ (stripZeros (natToDigits M)).length :=
        List.length_pos.mpr hsZne
      have hkey : (digitsVal [48] *
          10 ^ (List.replicate (E.natAbs - 1) 48 ++
            stripZeros (natToDigits M)).length +
          digitsVal (List.replicate (E.natAbs - 1) 48 ++
            stripZeros (natToDigits M))) * 10 ^ z6 = M := by
        rw [show digitsVal [48] = 0 from rfl, digitsVal_append,
          digitsVal_rep48]
        have hv := digitsVal_natToDigits M
        conv_rhs => rw [← hv]
        conv_rhs => rw [hz6]
        rw [digitsVal_append, digitsVal_rep48, List.length_replicate]
        ring
      rw [harg]
      rw [litVal_bytes neg [48]
        (List.replicate (E.natAbs - 1) 48 ++ stripZeros (natToDigits M))
        Option.none []
        (by simp)
        (by
          intro c hc
          rw [List.mem_singleton] at hc
          subst hc
          decide)
        (by
          intro c hc
          rcases List.mem_append.mp hc with h | h
          · rw [List.eq_of_mem_replicate h]
            decide
          · exact natToDigits_digits (stripZeros_subset h))
        (fun c hc => absurd hc (List.not_mem_nil c))]
      rw [show numTokExVal Option.none ([] : Str) = 0 from rfl]
      have hFlen : (List.replicate (E.natAbs - 1) 48 ++
          stripZeros (natToDigits M)).length =
          (E.natAbs - 1) + (stripZeros (natToDigits M)).length := by
        rw [List.length_append, List.length_replicate]
      rw [if_neg (show ¬ (0:Int) ≤ 0 - Int.ofNat (List.length
          (List.replicate (E.natAbs - 1) 48 ++
            stripZeros (natToDigits M))) from by
        simp only [Int.ofNat_eq_coe, hFlen]
        omega)]
      rw [fmtNumber_mkNum _ _ (pow_pos (by norm_num) _)]
      have hcall := fmt_pow_scaled
        (digitsVal [48] *
          10 ^ (List.replicate (E.natAbs - 1) 48 ++
            stripZeros (natToDigits M)).length +
          digitsVal (List.replicate (E.natAbs - 1) 48 ++
            stripZeros (natToDigits M)))
        0 z6
        ((-(0 - Int.ofNat (List.length (List.replicate (E.natAbs - 1) 48 ++
          stripZeros (natToDigits M))))).toNat)
        M neg hkey h5 h6
      refine Eq.trans (congrArg fmtNumber ?_)
        (Eq.trans hcall (Eq.trans ?_ harg))
      · cases neg
        · norm_num
        · norm_num
      · congr 1
        congr 1
        simp only [Int.ofNat_eq_coe, hFlen]
        omega

/-- Rendering a number with a zero denominator (an infinity produced by
division by zero) prints `1` or `-1`: the exponent scan sees `N / 0 = 0`
and the rounding of `N / 0` yields mantissa `1`. -/
theorem fmtNumber_den0 (q : NumberValue) (hn : q.num ≠ 0) (hd : q.den = 0) :
    fmtNumber q = (if q.num < 0 then [45] else []) ++ [49] := by
  have hN : 0 < q.num.natAbs := Int.natAbs_pos.mpr hn
  rw [fmtNumber, if_neg hn, hd]
  simp only []
  rw [qexpPos_den0]
  norm_num
  rw [show Int.toNat 5 = 5 from rfl]
  rw [roundNat_den0 (Nat.mul_pos hN (pow_pos (by norm_num) 5))]
  norm_num
  rw [show fmtDigits6 1 0 = [49] from by decide]

/-- Requantization of a rendered number is idempotent: rendering the
exact rational denoted by `fmtNumber q` reproduces the same bytes. -/
theorem fmtNumber_litVal (q : NumberValue) :
    fmtNumber (litVal (fmtNumber q)) = fmtNumber q := by
  by_cases hz : q.num = 0
  · rw [show fmtNumber q = [48] from by rw [fmtNumber, if_pos hz]]
    decide
  · by_cases hd : q.den = 0
    · rw [show fmtNumber q = (if q.num < 0 then [45] else []) ++ [49] from
        fmtNumber_den0 q hz hd]
      by_cases hneg : q.num < 0
      · rw [if_pos hneg]
        decide
      · rw [if_neg hneg]
        decide
    · have hd' : 0 < q.den := Nat.pos_of_ne_zero hd
      obtain ⟨hM5, hM6⟩ := fmtM_bounds q hz hd'
      have heq := fmtNumber_eq q hz
      by_cases hneg : q.num < 0
      · rw [show fmtNumber q =
            numTokSign true ++ fmtDigits6 (fmtM q) (fmtE q) from by
          rw [heq, if_pos hneg]
          rfl]
        exact fmt_litVal_canon (fmtM q) (fmtE q) true hM5 hM6
      · rw [show fmtNumber q =
            numTokSign false ++ fmtDigits6 (fmtM q) (fmtE q) from by
          rw [heq, if_neg hneg]
          rfl]
        exact fmt_litVal_canon (fmtM q) (fmtE q) false hM5 hM6

mutual

/-- The non-`EMPTY` skeleton of a tree: drop the container members that
are in the `EMPTY` state — exactly the members `json::_dump` skips. -/
def prune : ValueTree → ValueTree
  | .empty => .empty
  | .value v => .value v
  | .array xs => .array (pruneL xs)
  | .object es => .object (pruneM es)

def pruneL : List ValueTree → List ValueTree
  | [] => []
  | t :: rest => if t.isEmpty then pruneL rest else prune t :: pruneL rest

def pruneM : List (Str × ValueTree) → List (Str × ValueTree)
  | [] => []
  | (k, t) :: rest =>
      if t.isEmpty then pruneM rest else (k, prune t) :: pruneM rest

end

theorem prune_isEmpty (t : ValueTree) : (prune t).isEmpty = t.isEmpty := by
  cases t with
  | empty => rfl
  | value v => rfl
  | array xs => rfl
  | object es => rfl

theorem reQ_isEmpty (t : ValueTree) : (reQ t).isEmpty = t.isEmpty := by
  cases t with
  | empty => rfl
  | value v => cases v <;> rfl
  | array xs => rfl
  | object es => rfl

mutual

/-- Compact dumping ignores `EMPTY` members, so a tree and its pruned
skeleton dump identically. -/
theorem dump_pruneT : ∀ (t : ValueTree) (a b : Nat),
    jsonDumpTree false a b (prune t) = jsonDumpTree false a b t
  | .empty, a, b => rfl
  | .value v, a, b => rfl
  | .array xs, a, b => by
      simp only [prune, jsonDumpTree, Bool.false_and,
        show ((false : Bool) = true) = False from eq_false (by decide),
        if_false]
      rw [dump_pruneL xs (a + b) b true]
  | .object es, a, b => by
      simp only [prune, jsonDumpTree, Bool.false_and,
        show ((false : Bool) = true) = False from eq_false (by decide),
        if_false]
      rw [dump_pruneM es (a + b) b true]

theorem dump_pruneL : ∀ (ts : List ValueTree) (a b : Nat) (f : Bool),
    jsonDumpElems false a b f (pruneL ts) = jsonDumpElems false a b f ts
  | [], _, _, _ => rfl
  | t :: rest, a, b, f => by
      rw [pruneL]
      by_cases he : t.isEmpty = true
      · rw [if_pos he, jsonDumpElems, if_pos he]
        exact dump_pruneL rest a b f
      · rw [if_neg he]
        simp only [jsonDumpElems]
        rw [prune_isEmpty]
        rw [if_neg he, if_neg he]
        rw [dump_pruneT t a b, dump_pruneL rest a b false]

theorem dump_pruneM : ∀ (ms : List (Str × ValueTree)) (a b : Nat)
    (f : Bool), jsonDumpMembers false a b f (pruneM ms) =
      jsonDumpMembers false a b f ms
  | [], _, _, _ => rfl
  | (k, t) :: rest, a, b, f => by
      rw [pruneM]
      by_cases he : t.isEmpty = true
      · rw [if_pos he, jsonDumpMembers, if_pos he]
        exact dump_pruneM rest a b f
      · rw [if_neg he]
        simp only [jsonDumpMembers]
        rw [prune_isEmpty]
        rw [if_neg he, if_neg he]
        rw [dump_pruneT t a b, dump_pruneM rest a b false]

end

mutual

/-- Requantization is invisible to the compact dump: re-rendering each
number's parsed value reproduces its original rendering byte for byte
(`fmtNumber_litVal`), so `reQ` preserves the dump of every tree. -/
theorem dump_reQT : ∀ (t : ValueTree) (a b : Nat),
    jsonDumpTree false a b (reQ t) = jsonDumpTree false a b t
  | .empty, _, _ => rfl
  | .value (.number q), _, _ => fmtNumber_litVal q
  | .value .none, _, _ => rfl
  | .value (.bool c), _, _ => rfl
  | .value (.string s), _, _ => rfl
  | .array xs, a, b => by
      simp only [reQ, jsonDumpTree, Bool.false_and,
        show ((false : Bool) = true) = False from eq_false (by decide),
        if_false]
      rw [dump_reQL xs (a + b) b true]
  | .object es, a, b => by
      simp only [reQ, jsonDumpTree, Bool.false_and,
        show ((false : Bool) = true) = False from eq_false (by decide),
        if_false]
      rw [dump_reQM es (a + b) b true]

theorem dump_reQL : ∀ (ts : List ValueTree) (a b : Nat) (f : Bool),
    jsonDumpElems false a b f (reQL ts) = jsonDumpElems false a b f ts
  | [], _, _, _ => rfl
  | t :: rest, a, b, f => by
      rw [reQL]
      simp only [jsonDumpElems]
      rw [reQ_isEmpty]
      by_cases he : t.isEmpty = true
      · rw [if_pos he, if_pos he]
        exact dump_reQL rest a b f
      · rw [if_neg he, if_neg he]
        rw [dump_reQT t a b, dump_reQL rest a b false]

theorem dump_reQM : ∀ (ms : List (Str × ValueTree)) (a b : Nat) (f : Bool),
    jsonDumpMembers false a b f (reQM ms) = jsonDumpMembers false a b f ms
  | [], _, _, _ => rfl
  | (k, t) :: rest, a, b, f => by
      rw [reQM]
      simp only [jsonDumpMembers]
      rw [reQ_isEmpty]
      by_cases he : t.isEmpty = true
      · rw [if_pos he, if_pos he]
        exact dump_reQM rest a b f
      · rw [if_neg he, if_neg he]
        rw [dump_reQT t a b, dump_reQM rest a b false]

end

/-- Claim C2 (amended): for every tree built from scalars, arrays and
objects with no `EMPTY` children, whose object keys are in `std::map`
order and escape-neutral, and whose numbers denote their own
6-significant-digit `%g` rendering exactly, `json::parse (json::dump t)`
returns the original tree (and no diagnostics). -/
theorem claim_C2 (t : ValueTree) (hc : cleanT t = true)
    (hn : numsStable t = true) :
    jsonParse (jsonDump t) = (t, []) :=
  jsonParse_jsonDump hc hn

theorem claim_C2_witness :
    cleanT (.object [([97], .array [.value (.bool true),
        .value (.number (mkNum 5 1))]),
      ([98], .value (.string [120]))]) = true ∧
    numsStable (.object [([97], .array [.value (.bool true),
        .value (.number (mkNum 5 1))]),
      ([98], .value (.string [120]))]) = true ∧
    jsonParse (jsonDump (.object [([97], .array [.value (.bool true),
        .value (.number (mkNum 5 1))]),
      ([98], .value (.string [120]))])) =
      (.object [([97], .array [.value (.bool true),
          .value (.number (mkNum 5 1))]),
        ([98], .value (.string [120]))], []) :=
  ⟨by decide, by decide,
    claim_C2 (.object [([97], .array [.value (.bool true),
        .value (.number (mkNum 5 1))]),
      ([98], .value (.string [120]))]) (by decide) (by decide)⟩

/-- Claim C2, counterexample to the original wording: the integer
1234567 (denominator 1, well below `2^53`, so exactly representable in
the engine's `double` scalar) is not reproduced by the round trip — the
`%g` dump keeps 6 significant digits, so the reparse yields 1234570. -/
theorem claim_C2_counterexample :
    (mkNum 1234567 1).den = 1 ∧ (mkNum 1234567 1).num.natAbs < 2 ^ 53 ∧
    (jsonParse (jsonDump (.value (.number (mkNum 1234567 1))))).1 ≠
      .value (.number (mkNum 1234567 1)) := by
  decide

/-- Claim C6 (amended): compact dump-parse-dump is byte-identical for
every tree that is either in the `EMPTY` state (both dumps are empty)
or whose non-`EMPTY` skeleton has its object keys escape-neutral and in
`std::map` order: numbers requantize to the same rendering and `EMPTY`
members are skipped by both dumps, so only keys that the dump writes
raw but the reparse would unescape break idempotence. -/
theorem claim_C6 (t : ValueTree)
    (hk : t.isEmpty = true ∨ cleanT (prune t) = true) :
    jsonDump (jsonParse (jsonDump t)).1 = jsonDump t := by
  rcases hk with he | hc
  · have ht : t = .empty := by
      cases t with
      | empty => rfl
      | value v => simp [ValueTree.isEmpty, ValueTree.state] at he
      | array xs => simp [ValueTree.isEmpty, ValueTree.state] at he
      | object es => simp [ValueTree.isEmpty, ValueTree.state] at he
    subst ht
    decide
  · have hdp : jsonDump (prune t) = jsonDump t := dump_pruneT t 0 2
    rw [← hdp, jsonParse_dump hc]
    exact dump_reQT (prune t) 0 2

theorem claim_C6_witness :
    ((.object [([97], .value (.number (mkNum 1234567 1))),
        ([98], .empty)] : ValueTree).isEmpty = true ∨
      cleanT (prune (.object [([97], .value (.number (mkNum 1234567 1))),
        ([98], .empty)])) = true) ∧
    jsonDump (jsonParse (jsonDump (.object [([97],
        .value (.number (mkNum 1234567 1))), ([98], .empty)]))).1 =
      jsonDump (.object [([97], .value (.number (mkNum 1234567 1))),
        ([98], .empty)]) :=
  ⟨Or.inr (by decide),
    claim_C6 (.object [([97], .value (.number (mkNum 1234567 1))),
      ([98], .empty)]) (Or.inr (by decide))⟩

/-- Claim C6, counterexample to the original wording: a key holding a
quote byte is written raw by the compact dump, so the reparse fails and
the second dump is empty, not byte-identical to the first. -/
theorem claim_C6_counterexample :
    jsonDump ((jsonParse (jsonDump
        (.object [([97, 34], .value .none)]))).1) ≠
      jsonDump (.object [([97, 34], .value .none)]) := by
  decide

/-- Claim C7: inside an INI quoted string, a backslash-`u` escape with
exactly 4 hex digits (here between surrounding content bytes `A` and
`B`) decodes the digits' hex value as a code point and appends its full
UTF-8 encoding to the result; backslash-`U` with exactly 8 hex digits
does the same; a quoted value containing the `u`-escape of 0x40 decodes
to `"@"`; and when the line ends before the required digit count, the
parse fails. -/
theorem claim_C7 :
    (∀ h1 h2 h3 h4 : Nat, isxdigit h1 = true → isxdigit h2 = true →
      isxdigit h3 = true → isxdigit h4 = true →
      iniParseQuotedString
          (mkContext [34, 65, 92, 117, h1, h2, h3, h4, 66, 34]) (posAt 10 0)
        = some (65 :: unicodeToUtf8 (4096 * hexDigitVal h1
              + 256 * hexDigitVal h2 + 16 * hexDigitVal h3 + hexDigitVal h4)
            ++ [66], posAt 10 9))
    ∧ (∀ h1 h2 h3 h4 h5 h6 h7 h8 : Nat, isxdigit h1 = true →
        isxdigit h2 = true → isxdigit h3 = true → isxdigit h4 = true →
        isxdigit h5 = true → isxdigit h6 = true → isxdigit h7 = true →
        isxdigit h8 = true →
        iniParseQuotedString
            (mkContext [34, 92, 85, h1, h2, h3, h4, h5, h6, h7, h8, 34])
            (posAt 12 0)
          = some (unicodeToUtf8 (268435456 * hexDigitVal h1
                + 16777216 * hexDigitVal h2 + 1048576 * hexDigitVal h3
                + 65536 * hexDigitVal h4 + 4096 * hexDigitVal h5
                + 256 * hexDigitVal h6 + 16 * hexDigitVal h7
                + hexDigitVal h8), posAt 12 11))
    ∧ (∀ h1 h2 : Nat, isxdigit h1 = true → isxdigit h2 = true →
        iniParseQuotedString (mkContext [34, 92, 117, h1, h2]) (posAt 5 0)
          = Option.none)
    ∧ iniParse (strBytes "k=\"\\u0040\"")
        = .object [(strBytes "k", .value (.string [64]))] := by
  refine ⟨?_, ?_, ?_, by decide⟩
  · intro h1 h2 h3 h4 hx1 hx2 hx3 hx4
    have b1 := isxdigit_ne_break hx1
    have b2 := isxdigit_ne_break hx2
    have b3 := isxdigit_ne_break hx3
    have b4 := isxdigit_ne_break hx4
    set s0 : Str := [34, 65, 92, 117, h1, h2, h3, h4, 66, 34] with hs0
    have hnb : ∀ c ∈ s0, c ≠ 10 ∧ c ≠ 13 := by
      intro c hc
      rw [hs0] at hc
      simp only [List.mem_cons, List.not_mem_nil, or_false] at hc
      rcases hc with rfl | rfl | rfl | rfl | rfl | rfl | rfl | rfl | rfl | rfl
      all_goals first
        | exact b1 | exact b2 | exact b3 | exact b4 | exact ⟨by omega, by omega⟩
    have hL : splitLines s0 = [⟨0, s0.length, s0.length⟩] :=
      splitLines_nobreak _ hnb (by rw [hs0]; simp)
    have hlen : s0.length = 10 := by rw [hs0]; rfl
    have c1 : charAt s0 1 = 65 := by rw [hs0]; rfl
    have c2 : charAt s0 2 = 92 := by rw [hs0]; rfl
    have c3 : charAt s0 3 = 117 := by rw [hs0]; rfl
    have c8 : charAt s0 8 = 66 := by rw [hs0]; rfl
    have c9 : charAt s0 9 = 34 := by rw [hs0]; rfl
    have hhex : ∀ j, 2 ≤ j → j ≤ 5 → isxdigit (charAt s0 (2 + j)) = true := by
      intro j hj1 hj2
      interval_cases j
      · rw [show charAt s0 (2 + 2) = h1 by rw [hs0]; rfl]; exact hx1
      · rw [show charAt s0 (2 + 3) = h2 by rw [hs0]; rfl]; exact hx2
      · rw [show charAt s0 (2 + 4) = h3 by rw [hs0]; rfl]; exact hx3
      · rw [show charAt s0 (2 + 5) = h4 by rw [hs0]; rfl]; exact hx4
    have e0 := ol_moveForwardInLine hL 0
    rw [hlen] at e0
    norm_num at e0
    have r1 := qsl_raw hL 1 (by omega) (by rw [c1]; omega) (by rw [c1]; omega)
      11 []
    rw [hlen, c1] at r1
    norm_num at r1
    have r2 := qsl_u hL 2 (by omega) c2 c3 hhex (by omega) 10 [65]
    rw [hlen] at r2
    norm_num at r2
    have hdrop : (s0.drop 4).take 4 = [h1, h2, h3, h4] := by rw [hs0]; rfl
    rw [hdrop] at r2
    have r3 := qsl_raw hL 8 (by omega) (by rw [c8]; omega) (by rw [c8]; omega)
      9 ([65] ++ unicodeToUtf8 (stoulHex [h1, h2, h3, h4]))
    rw [hlen, c8] at r3
    norm_num at r3
    have r4 := qsl_exit 9 (by omega) c9 8
      (65 :: (unicodeToUtf8 (stoulHex [h1, h2, h3, h4]) ++ [66]))
    rw [hlen] at r4
    norm_num at r4
    have e9 := ol_moveForwardInLine hL 9
    rw [hlen] at e9
    norm_num at e9
    have hp9 : (posAt 10 9).pos = 9 := by norm_num [posAt]
    rw [iniParseQuotedString]
    simp only [mkContext_text, hlen, e0]
    norm_num
    rw [r1, r2, r3, r4]
    simp only [mkContext_text, hp9, c9, e9]
    norm_num [stoulHex_four]
  · intro h1 h2 h3 h4 h5 h6 h7 h8 hx1 hx2 hx3 hx4 hx5 hx6 hx7 hx8
    have b1 := isxdigit_ne_break hx1
    have b2 := isxdigit_ne_break hx2
    have b3 := isxdigit_ne_break hx3
    have b4 := isxdigit_ne_break hx4
    have b5 := isxdigit_ne_break hx5
    have b6 := isxdigit_ne_break hx6
    have b7 := isxdigit_ne_break hx7
    have b8 := isxdigit_ne_break hx8
    set s0 : Str := [34, 92, 85, h1, h2, h3, h4, h5, h6, h7, h8, 34] with hs0
    have hnb : ∀ c ∈ s0, c ≠ 10 ∧ c ≠ 13 := by
      intro c hc
      rw [hs0] at hc
      simp only [List.mem_cons, List.not_mem_nil, or_false] at hc
      rcases hc with rfl | rfl | rfl | rfl | rfl | rfl | rfl | rfl | rfl | rfl
        | rfl | rfl
      all_goals first
        | exact b1 | exact b2 | exact b3 | exact b4 | exact b5 | exact b6
        | exact b7 | exact b8 | exact ⟨by omega, by omega⟩
    have hL : splitLines s0 = [⟨0, s0.length, s0.length⟩] :=
      splitLines_nobreak _ hnb (by rw [hs0]; simp)
    have hlen : s0.length = 12 := by rw [hs0]; rfl
    have c1 : charAt s0 1 = 92 := by rw [hs0]; rfl
    have c2 : charAt s0 2 = 85 := by rw [hs0]; rfl
    have c11 : charAt s0 11 = 34 := by rw [hs0]; rfl
    have hhex : ∀ j, 2 ≤ j → j ≤ 9 → isxdigit (charAt s0 (1 + j)) = true := by
      intro j hj1 hj2
      interval_cases j
      · rw [show charAt s0 (1 + 2) = h1 by rw [hs0]; rfl]; exact hx1
      · rw [show charAt s0 (1 + 3) = h2 by rw [hs0]; rfl]; exact hx2
      · rw [show charAt s0 (1 + 4) = h3 by rw [hs0]; rfl]; exact hx3
      · rw [show charAt s0 (1 + 5) = h4 by rw [hs0]; rfl]; exact hx4
      · rw [show charAt s0 (1 + 6) = h5 by rw [hs0]; rfl]; exact hx5
      · rw [show charAt s0 (1 + 7) = h6 by rw [hs0]; rfl]; exact hx6
      · rw [show charAt s0 (1 + 8) = h7 by rw [hs0]; rfl]; exact hx7
      · rw [show charAt s0 (1 + 9) = h8 by rw [hs0]; rfl]; exact hx8
    have e0 := ol_moveForwardInLine hL 0
    rw [hlen] at e0
    norm_num at e0
    have r1 := qsl_U hL 1 (by omega) c1 c2 hhex (by omega) 13 []
    rw [hlen] at r1
    norm_num at r1
    have hdrop : (s0.drop 3).take 8 = [h1, h2, h3, h4, h5, h6, h7, h8] := by
      rw [hs0]; rfl
    rw [hdrop] at r1
    have r4 := qsl_exit 11 (by omega) c11 12
      (unicodeToUtf8 (stoulHex [h1, h2, h3, h4, h5, h6, h7, h8]))
    rw [hlen] at r4
    norm_num at r4
    have e11 := ol_moveForwardInLine hL 11
    rw [hlen] at e11
    norm_num at e11
    have hp11 : (posAt 12 11).pos = 11 := by norm_num [posAt]
    rw [iniParseQuotedString]
    simp only [mkContext_text, hlen, e0]
    norm_num
    rw [r1, r4]
    simp only [mkContext_text, hp11, c11, e11]
    norm_num [stoulHex_eight]
  · intro h1 h2 hx1 hx2
    have b1 := isxdigit_ne_break hx1
    have b2 := isxdigit_ne_break hx2
    set s0 : Str := [34, 92, 117, h1, h2] with hs0
    have hnb : ∀ c ∈ s0, c ≠ 10 ∧ c ≠ 13 := by
      intro c hc
      rw [hs0] at hc
      simp only [List.mem_cons, List.not_mem_nil, or_false] at hc
      rcases hc with rfl | rfl | rfl | rfl | rfl
      all_goals first
        | exact b1 | exact b2 | exact ⟨by omega, by omega⟩
    have hL : splitLines s0 = [⟨0, s0.length, s0.length⟩] :=
      splitLines_nobreak _ hnb (by rw [hs0]; simp)
    have hlen : s0.length = 5 := by rw [hs0]; rfl
    have c1 : charAt s0 1 = 92 := by rw [hs0]; rfl
    have c2 : charAt s0 2 = 117 := by rw [hs0]; rfl
    have e0 := ol_moveForwardInLine hL 0
    rw [hlen] at e0
    norm_num at e0
    have r1 := qsl_u_fail hL 1 (by omega) c1 c2 (by omega) 6 []
    rw [hlen] at r1
    norm_num at r1
    rw [iniParseQuotedString]
    simp only [mkContext_text, hlen, e0]
    norm_num
    rw [r1]

/-- Witness for C7: the general escape clauses instantiated at the hex
digits of 0x00e9 and 0x0001f600, and at the truncated escape `\u00`. -/
theorem claim_C7_witness :
    isxdigit 48 = true ∧ isxdigit 101 = true ∧ isxdigit 57 = true
    ∧ iniParseQuotedString
        (mkContext [34, 65, 92, 117, 48, 48, 101, 57, 66, 34]) (posAt 10 0)
      = some ([65, 195, 169, 66], posAt 10 9)
    ∧ iniParseQuotedString
        (mkContext [34, 92, 85, 48, 48, 48, 49, 102, 54, 48, 48, 34])
        (posAt 12 0)
      = some ([240, 159, 152, 128], posAt 12 11)
    ∧ iniParseQuotedString (mkContext [34, 92, 117, 48, 48]) (posAt 5 0)
      = Option.none := by
  refine ⟨by decide, by decide, by decide, ?_, ?_, ?_⟩
  · rw [claim_C7.1 48 48 101 57 (by decide) (by decide) (by decide)
      (by decide)]
    decide
  · rw [claim_C7.2.1 48 48 48 49 102 54 48 48 (by decide) (by decide)
      (by decide) (by decide) (by decide) (by decide) (by decide) (by decide)]
    decide
  · exact claim_C7.2.2.1 48 48 (by decide) (by decide)

mutual

/-- Containment of a list-valued (`ARRAY`-state) node anywhere in a
tree. -/
def ValueTree.hasArray : ValueTree → Bool
  | .empty => false
  | .value _ => false
  | .array _ => true
  | .object es => ValueTree.hasArrayO es

/-- Containment of an `ARRAY`-state node under any entry of an object
entry list. -/
def ValueTree.hasArrayO : List (Str × ValueTree) → Bool
  | [] => false
  | (_, v) :: rest => ValueTree.hasArray v || ValueTree.hasArrayO rest

end

theorem hasArrayO_exists {es : List (Str × ValueTree)}
    (h : ValueTree.hasArrayO es = true) :
    ∃ kv ∈ es, ValueTree.hasArray kv.2 = true := by
  induction es with
  | nil => simp [ValueTree.hasArrayO] at h
  | cons hd tl ih =>
    rw [ValueTree.hasArrayO, Bool.or_eq_true] at h
    rcases h with h | h
    · exact ⟨hd, List.mem_cons_self _ _, h⟩
    · obtain ⟨kv, hmem, hkv⟩ := ih h
      exact ⟨kv, List.mem_cons_of_mem _ hmem, hkv⟩

theorem iniDumpGlobals_none_of_array {es : List (Str × ValueTree)}
    (h : ∃ kv ∈ es, kv.2.state = .ARRAY) :
    iniDumpGlobals es = Option.none := by
  induction es with
  | nil => simp at h
  | cons hd tl ih =>
    obtain ⟨kv, hmem, hst⟩ := h
    obtain ⟨k, v⟩ := hd
    rcases List.mem_cons.mp hmem with heq | hmem1
    · subst heq
      cases v <;> simp_all [ValueTree.state, iniDumpGlobals]
    · have htl := ih ⟨kv, hmem1, hst⟩
      cases v <;> simp [iniDumpGlobals, htl]

theorem iniDumpSectionBody_none {ces : List (Str × ValueTree)}
    (h : ∃ e ∈ ces, e.2.state = .ARRAY ∨ e.2.state = .OBJECT) :
    iniDumpSectionBody ces = Option.none := by
  induction ces with
  | nil => simp at h
  | cons hd tl ih =>
    obtain ⟨e, hmem, hst⟩ := h
    obtain ⟨k, v⟩ := hd
    rcases List.mem_cons.mp hmem with heq | hmem1
    · subst heq
      rcases hst with hst | hst <;> cases v <;>
        simp_all [ValueTree.state, iniDumpSectionBody]
    · have htl := ih ⟨e, hmem1, hst⟩
      cases v <;> simp [iniDumpSectionBody, htl]

theorem iniDumpSections_none {secs : List (Str × List (Str × ValueTree))}
    {k : Str} {ces : List (Str × ValueTree)} (hmem : (k, ces) ∈ secs)
    (h : iniDumpSectionBody ces = Option.none) :
    iniDumpSections secs = Option.none := by
  induction secs with
  | nil => simp at hmem
  | cons hd tl ih =>
    obtain ⟨h1, c1⟩ := hd
    rcases List.mem_cons.mp hmem with heq | hmem1
    · obtain ⟨hh, hc⟩ := Prod.mk.injEq .. ▸ heq
      subst hh; subst hc
      simp [iniDumpSections, h]
    · have htl := ih hmem1
      simp [iniDumpSections, htl]
      cases iniDumpSectionBody c1 <;> simp

theorem iniDumpGlobals_collects {es : List (Str × ValueTree)}
    {g : Str} {secs : List (Str × List (Str × ValueTree))} {k : Str}
    {m : List (Str × ValueTree)}
    (hg : iniDumpGlobals es = some (g, secs))
    (hmem : (k, ValueTree.object m) ∈ es) : (k, m) ∈ secs := by
  induction es generalizing g secs with
  | nil => simp at hmem
  | cons hd tl ih =>
    obtain ⟨k1, v1⟩ := hd
    rcases List.mem_cons.mp hmem with heq | hmem1
    · injection heq with hk hv
      subst hk; subst hv
      rw [iniDumpGlobals] at hg
      rcases htl : iniDumpGlobals tl with _ | ⟨g1, secs1⟩ <;>
        rw [htl] at hg
      · exact absurd hg (by simp)
      · obtain ⟨hgg, hss⟩ := Prod.mk.injEq .. ▸ Option.some.injEq .. ▸ hg
        rw [← hss]
        exact List.mem_cons_self _ _
    · cases v1 with
      | empty =>
          rw [iniDumpGlobals] at hg
          exact ih hg hmem1
      | value sc =>
          rw [iniDumpGlobals] at hg
          rcases htl : iniDumpGlobals tl with _ | ⟨g1, secs1⟩ <;>
            rw [htl] at hg
          · exact absurd hg (by simp)
          · obtain ⟨hgg, hss⟩ := Prod.mk.injEq .. ▸ Option.some.injEq .. ▸ hg
            rw [← hss]
            exact ih htl hmem1
      | array xs => simp [iniDumpGlobals] at hg
      | object ces =>
          rw [iniDumpGlobals] at hg
          rcases htl : iniDumpGlobals tl with _ | ⟨g1, secs1⟩ <;>
            rw [htl] at hg
          · exact absurd hg (by simp)
          · obtain ⟨hgg, hss⟩ := Prod.mk.injEq .. ▸ Option.some.injEq .. ▸ hg
            rw [← hss]
            exact List.mem_cons_of_mem _ (ih htl hmem1)

theorem iniDump_section_bad {es : List (Str × ValueTree)} {k : Str}
    {m : List (Str × ValueTree)} (hmem : (k, ValueTree.object m) ∈ es)
    (hbad : ∃ e ∈ m, e.2.state = .ARRAY ∨ e.2.state = .OBJECT) :
    iniDump (.object es) = [] := by
  rcases hg : iniDumpGlobals es with _ | ⟨g, secs⟩
  · simp [iniDump, hg]
  · have hsecs := iniDumpSections_none (iniDumpGlobals_collects hg hmem)
      (iniDumpSectionBody_none hbad)
    simp [iniDump, hg, hsecs]

/-- Claim C3: a tree containing a list-valued node anywhere, or a
root-level section whose members include an array- or object-state
entry (i.e. a non-flat section — `EMPTY` members are skipped by the
dumper, exactly as the JSON dumper skips them), makes `ini::dump`
return the empty string; in particular the scenario tree
`(list : [1, (s : (x : 1))])` dumps to the empty string. -/
theorem claim_C3 (t : ValueTree) :
    (ValueTree.hasArray t = true → iniDump t = [])
    ∧ (∀ es k m, t = .object es → (k, ValueTree.object m) ∈ es →
        (∃ e ∈ m, e.2.state = .ARRAY ∨ e.2.state = .OBJECT) →
        iniDump t = [])
    ∧ iniDump (.object [(strBytes "list",
        .array [.value (.number (mkNum 1 1)),
          .object [(strBytes "s",
            .object [(strBytes "x", .value (.number (mkNum 1 1)))])]])])
      = [] := by
  refine ⟨?_, ?_, by decide⟩
  · intro h
    cases t with
    | empty => simp [ValueTree.hasArray] at h
    | value v => simp [ValueTree.hasArray] at h
    | array xs => rfl
    | object es =>
        rw [ValueTree.hasArray] at h
        obtain ⟨⟨k, v⟩, hmem, hv⟩ := hasArrayO_exists h
        cases v with
        | empty => simp [ValueTree.hasArray] at hv
        | value sc => simp [ValueTree.hasArray] at hv
        | array xs =>
            rw [iniDump,
              iniDumpGlobals_none_of_array ⟨(k, .array xs), hmem, rfl⟩]
        | object ces =>
            rw [ValueTree.hasArray] at hv
            obtain ⟨⟨k2, v2⟩, hmem2, hv2⟩ := hasArrayO_exists hv
            have hst : (ValueTree.state v2 = .ARRAY ∨
                ValueTree.state v2 = .OBJECT) := by
              cases v2 <;> simp_all [ValueTree.hasArray, ValueTree.state]
            exact iniDump_section_bad hmem ⟨(k2, v2), hmem2, hst⟩
  · intro es k m ht hmem hbad
    subst ht
    exact iniDump_section_bad hmem hbad

/-- Witness for C3 at the scenario tree: it contains a list, and the
dump is empty. -/
theorem claim_C3_witness :
    ValueTree.hasArray (.object [(strBytes "list",
        .array [.value (.number (mkNum 1 1)),
          .object [(strBytes "s",
            .object [(strBytes "x", .value (.number (mkNum 1 1)))])]])])
        = true
      ∧ iniDump (.object [(strBytes "list",
          .array [.value (.number (mkNum 1 1)),
            .object [(strBytes "s",
              .object [(strBytes "x", .value (.number (mkNum 1 1)))])]])])
        = [] :=
  ⟨by decide,
    (claim_C3 (.object [(strBytes "list",
        .array [.value (.number (mkNum 1 1)),
          .object [(strBytes "s",
            .object [(strBytes "x", .value (.number (mkNum 1 1)))])]])])).1
      (by decide)⟩

/-- Claim C9: re-opening a section re-uses the existing map node.
Processing a header line whose name `h` already maps to an object `m`
leaves the tree's lookup table unchanged (the slot is found, not
re-created, and `asObject` on an object is the identity); a subsequent
entry is inserted into that same map, where it overwrites only its own
key and preserves every entry with a different key.  Concretely,
re-opening `[s]` keeps `a=1` while adding `b=2`, and only a repeated
key `a` is overwritten. -/
theorem claim_C9 :
    (∀ (es : List (Str × ValueTree)) (h : Str) (m : List (Str × ValueTree)),
      mapFind h es = some (.object m) →
        iniOpenSection (.object es) h = .object (mapInsert h (.object m) es)
        ∧ ∀ k', mapFind k' (mapInsert h (.object m) es) = mapFind k' es)
    ∧ (∀ (es : List (Str × ValueTree)) (h k : Str)
        (m : List (Str × ValueTree)) (v : Str),
        mapFind h es = some (.object m) →
          iniInsertEntry (.object es) (some h) k v
            = .object (mapInsert h
                (.object (mapInsert k (.value (.string v)) m)) es))
    ∧ (∀ (m : List (Str × ValueTree)) (k : Str) (v : Str),
        mapFind k (mapInsert k (.value (.string v)) m)
            = some (.value (.string v))
        ∧ ∀ j, j ≠ k →
            mapFind j (mapInsert k (.value (.string v)) m) = mapFind j m)
    ∧ iniParse (strBytes "[s]\na=1\n[s]\nb=2\n")
        = .object [(strBytes "s",
            .object [(strBytes "a", .value (.string (strBytes "1"))),
              (strBytes "b", .value (.string (strBytes "2")))])]
    ∧ iniParse (strBytes "[s]\na=1\n[s]\na=2\n")
        = .object [(strBytes "s",
            .object [(strBytes "a", .value (.string (strBytes "2")))])] := by
  refine ⟨?_, ?_, ?_, by decide, by decide⟩
  · intro es h m hfind
    constructor
    · simp [iniOpenSection, ValueTree.asObject, hfind]
    · intro k'
      by_cases hk : k' = h
      · subst hk
        rw [mapFind_insert_self, hfind]
      · exact mapFind_insert_of_ne _ _ _ hk es
  · intro es h k m v hfind
    simp [iniInsertEntry, ValueTree.asObject, hfind]
  · intro m k v
    exact ⟨mapFind_insert_self _ _ _, fun j hj => mapFind_insert_of_ne _ _ _ hj m⟩

/-- Witness for C9: the preservation clauses applied at a concrete
one-entry section map. -/
theorem claim_C9_witness :
    mapFind (strBytes "s")
        [(strBytes "s",
          ValueTree.object [(strBytes "a", .value (.string (strBytes "1")))])]
      = some (.object [(strBytes "a", .value (.string (strBytes "1")))])
    ∧ iniOpenSection
        (.object [(strBytes "s",
          .object [(strBytes "a", .value (.string (strBytes "1")))])])
        (strBytes "s")
      = .object [(strBytes "s",
          .object [(strBytes "a", .value (.string (strBytes "1")))])] :=
  ⟨by decide, by
    have h := (claim_C9.1
      [(strBytes "s",
        ValueTree.object [(strBytes "a", .value (.string (strBytes "1")))])]
      (strBytes "s")
      [(strBytes "a", ValueTree.value (.string (strBytes "1")))]
      (by decide)).1
    rw [h]
    decide⟩

/-- Claim C1: whenever the inner value parse of `json::parse` fails, or
the line loop of `ini::parse` fails on any line, the top-level call
returns an empty `ValueTree` — never a partially built tree. -/
theorem claim_C1 (s : Str) :
    (jsonParseValue (mkContext s) (3 * s.length + 8) .empty
        (jsonSkipWhitespace (mkContext s) ⟨true, 0, 0, 0⟩) = Option.none →
      (jsonParse s).1 = .empty)
    ∧ (iniParseLoop (mkContext s) (s.length + 2) ⟨true, 0, 0, 0⟩ .empty
          Option.none = Option.none →
        iniParse s = .empty) := by
  constructor
  · intro h
    by_cases hs : s.isEmpty
    · simp [jsonParse, hs]
    · simp [jsonParse, hs, h]
  · intro h
    by_cases hs : s.isEmpty
    · simp [iniParse, hs]
    · simp [iniParse, hs, h]

/-- Witness for C1: the malformed JSON document from scenario 5 and a
malformed INI line both abort to an empty tree. -/
theorem claim_C1_witness :
    (jsonParseValue (mkContext (strBytes "\x7b\"a\":\x7d"))
        (3 * (strBytes "\x7b\"a\":\x7d").length + 8) .empty
        (jsonSkipWhitespace (mkContext (strBytes "\x7b\"a\":\x7d"))
          ⟨true, 0, 0, 0⟩) = Option.none
      ∧ (jsonParse (strBytes "\x7b\"a\":\x7d")).1 = .empty)
    ∧ (iniParseLoop (mkContext (strBytes "k\n"))
          ((strBytes "k\n").length + 2) ⟨true, 0, 0, 0⟩ .empty Option.none
          = Option.none
        ∧ iniParse (strBytes "k\n") = .empty) :=
  ⟨⟨by decide, (claim_C1 (strBytes "\x7b\"a\":\x7d")).1 (by decide)⟩,
    ⟨by decide, (claim_C1 (strBytes "k\n")).2 (by decide)⟩⟩

theorem take_append_len (a b : Str) : (a ++ b).take a.length = a :=
  List.take_left a b

theorem drop_entry_prefix (k : Str) (X : Str) :
    (k ++ 61 :: X).drop (k.length + 1) = X := by
  rw [show k ++ 61 :: X = (k ++ [61]) ++ X from by simp,
    show k.length + 1 = (k ++ [61]).length from by simp]
  exact List.drop_left _ _

/-- Claim C8: on an INI entry line with an unquoted key, a `=` followed
by nothing or only whitespace up to the end of the line yields the key
bound to the empty string — `key=`, `key= ` and their newline-terminated
forms all parse to the same tree; and an unquoted value has trailing
whitespace (immediately before the end of the line or before a comment
marker) trimmed while its interior bytes, whitespace included, are kept
verbatim. -/
theorem claim_C8 (k w : Str) (hk0 : k ≠ [])
    (hkb : ∀ c ∈ k, isspace c = false ∧ c ≠ 61 ∧ c ≠ 59 ∧ c ≠ 35)
    (hk34 : k.headI ≠ 34) (hk91 : k.headI ≠ 91)
    (hwb : ∀ c ∈ w, isspace c = true ∧ c ≠ 10 ∧ c ≠ 13) :
    (iniParse (k ++ 61 :: w) = .object [(k, .value (.string []))]
      ∧ iniParse (k ++ 61 :: (w ++ [10])) =
          .object [(k, .value (.string []))])
    ∧ ∀ v : Str, v ≠ [] →
        (∀ c ∈ v, c ≠ 59 ∧ c ≠ 35 ∧ c ≠ 10 ∧ c ≠ 13) →
        isspace v.headI = false → v.headI ≠ 34 →
        isspace (v.getLastD 0) = false →
        (iniParse (k ++ 61 :: (v ++ (w ++ [10]))) =
            .object [(k, .value (.string v))]
          ∧ ∀ cm : Str, (∀ c ∈ cm, c ≠ 10 ∧ c ≠ 13) →
              iniParse (k ++ 61 :: (v ++ (w ++ 59 :: cm))) =
                .object [(k, .value (.string v))]) := by
  have hkl : 0 < k.length := List.length_pos.mpr hk0
  have hkh := hkb k.headI (headI_mem_self k hk0)
  refine ⟨⟨?_, ?_⟩, ?_⟩
  · -- key= followed by in-line whitespace only, no line break
    obtain ⟨hkf, heq, h0⟩ := entry_charAt_facts k w hk0 hkb
    have hnb : ∀ c ∈ k ++ 61 :: w, c ≠ 10 ∧ c ≠ 13 :=
      entry_nobreak k w hkb (fun c hc => (hwb c hc).2)
    have hsne : (k ++ 61 :: w) ≠ [] := by simp
    have h := splitLines_nobreak (k ++ 61 :: w) hnb hsne
    have hslen : (k ++ 61 :: w).length = k.length + 1 + w.length := by
      simp
      omega
    have hE1 := iniEntry_empty h k.length hkl (by omega)
      (by rw [h0]; exact hk34) hkf heq
      (fun l h1 h2 => by
        rw [hslen] at h2
        rw [show l = k.length + 1 + (l - k.length - 1) from by omega,
          charAt_shift k 61 w _ (by omega)]
        exact (hwb _ (charAt_mem w _ (by omega))).1)
    have hres := iniParse_one_entry h _ _ _
      ⟨by rw [h0]; exact hkh.1, by rw [h0]; exact hkh.2.2.1,
        by rw [h0]; exact hkh.2.2.2, by rw [h0]; exact hk91⟩ hE1
    rw [hres, take_append_len k (61 :: w)]
  · -- key= followed by in-line whitespace and a line break
    obtain ⟨hkf, heq, h0⟩ := entry_charAt_facts k (w ++ [10]) hk0 hkb
    have hnb : ∀ c ∈ k ++ 61 :: w, c ≠ 10 ∧ c ≠ 13 :=
      entry_nobreak k w hkb (fun c hc => (hwb c hc).2)
    have h0' := splitLines_nobreak_nl (k ++ 61 :: w) hnb
    have hshape : k ++ 61 :: (w ++ [10]) = (k ++ 61 :: w) ++ [10] := by simp
    have hslen : (k ++ 61 :: (w ++ [10])).length =
        k.length + 1 + w.length + 1 := by
      simp
      omega
    have h : splitLines (k ++ 61 :: (w ++ [10])) =
        [⟨0, (k ++ 61 :: (w ++ [10])).length, (k ++ 61 :: w).length⟩] := by
      rw [hshape, h0']
      have : (k ++ 61 :: w).length + 1 = ((k ++ 61 :: w) ++ [10]).length := by
        simp
        omega
      rw [this]
    have hE1 := iniEntry_empty h k.length hkl (by omega)
      (by rw [h0]; exact hk34) hkf heq
      (fun l h1 h2 => by
        rw [hslen] at h2
        rw [show l = k.length + 1 + (l - k.length - 1) from by omega,
          charAt_shift k 61 _ _ (by simp; omega)]
        rcases Nat.lt_or_ge (l - k.length - 1) w.length with hlw | hlw
        · rw [charAt_append_left w _ _ hlw]
          exact (hwb _ (charAt_mem w _ hlw)).1
        · rw [show l - k.length - 1 = w.length from by omega,
            charAt_at_append w 10 []]
          rfl)
    have hres := iniParse_one_entry h _ _ _
      ⟨by rw [h0]; exact hkh.1, by rw [h0]; exact hkh.2.2.1,
        by rw [h0]; exact hkh.2.2.2, by rw [h0]; exact hk91⟩ hE1
    rw [hres, take_append_len k (61 :: (w ++ [10]))]
  · intro v hv0 hvb hvh hvh34 hvlast
    have hvl : 0 < v.length := List.length_pos.mpr hv0
    constructor
    · -- unquoted value, trailing whitespace, line break
      obtain ⟨hkf, heq, h0⟩ := entry_charAt_facts k (v ++ (w ++ [10])) hk0 hkb
      have hnb : ∀ c ∈ k ++ 61 :: (v ++ w), c ≠ 10 ∧ c ≠ 13 :=
        entry_nobreak k (v ++ w) hkb (fun c hc => by
          rcases List.mem_append.mp hc with hc | hc
          · exact ⟨(hvb c hc).2.2.1, (hvb c hc).2.2.2⟩
          · exact ⟨(hwb c hc).2.1, (hwb c hc).2.2⟩)
      have hshape : k ++ 61 :: (v ++ (w ++ [10])) =
          (k ++ 61 :: (v ++ w)) ++ [10] := by simp
      have hslen : (k ++ 61 :: (v ++ (w ++ [10]))).length =
          k.length + 1 + v.length + (w.length + 1) := by
        simp
        omega
      have h : splitLines (k ++ 61 :: (v ++ (w ++ [10]))) =
          [⟨0, (k ++ 61 :: (v ++ (w ++ [10]))).length,
            (k ++ 61 :: (v ++ w)).length⟩] := by
        rw [hshape, splitLines_nobreak_nl _ hnb]
        have : (k ++ 61 :: (v ++ w)).length + 1 =
            ((k ++ 61 :: (v ++ w)) ++ [10]).length := by
          simp
          omega
        rw [this]
      have hvfact : ∀ l, l < v.length →
          charAt (k ++ 61 :: (v ++ (w ++ [10]))) (k.length + 1 + l) =
            charAt v l :=
        fun l hl => by
          rw [charAt_shift k 61 _ l (by simp; omega),
            charAt_append_left v _ l hl]
      have hwfact : ∀ l, l < w.length + 1 →
          isspace (charAt (k ++ 61 :: (v ++ (w ++ [10])))
            (k.length + 1 + v.length + l)) = true :=
        fun l hl => by
          rw [show k.length + 1 + v.length + l = k.length + 1 + (v.length + l)
              from by omega,
            charAt_shift k 61 _ _ (by simp; omega),
            charAt_append_right v _ l (by simp; omega)]
          rcases Nat.lt_or_ge l w.length with hlw | hlw
          · rw [charAt_append_left w _ l hlw]
            exact (hwb _ (charAt_mem w _ hlw)).1
          · rw [show l = w.length from by omega, charAt_at_append w 10 []]
            rfl
      have hE2 := iniEntry_value_eol h k.length v.length (w.length + 1)
        hkl hvl (by omega) (by rw [hslen]) (by rw [h0]; exact hk34) hkf heq
        (fun l hl => by
          rw [hvfact l hl]
          exact ⟨(hvb _ (charAt_mem v _ hl)).1, (hvb _ (charAt_mem v _ hl)).2.1⟩)
        (by
          have hq := hvfact 0 hvl
          rw [Nat.add_zero] at hq
          rw [hq, charAt_headI]
          exact hvh)
        (by
          have hq := hvfact 0 hvl
          rw [Nat.add_zero] at hq
          rw [hq, charAt_headI]
          exact hvh34)
        (by
          have hq := hvfact (v.length - 1) (by omega)
          rw [show k.length + 1 + (v.length - 1) = k.length + v.length
            from by omega] at hq
          rw [hq, charAt_getLast v hv0]
          exact hvlast)
        hwfact
      have hres := iniParse_one_entry h _ _ _
        ⟨by rw [h0]; exact hkh.1, by rw [h0]; exact hkh.2.2.1,
          by rw [h0]; exact hkh.2.2.2, by rw [h0]; exact hk91⟩ hE2
      rw [hres, take_append_len k (61 :: (v ++ (w ++ [10]))),
        drop_entry_prefix k (v ++ (w ++ [10])), take_append_len v (w ++ [10])]
    · -- unquoted value, optional whitespace, comment marker
      intro cm hcmb
      obtain ⟨hkf, heq, h0⟩ :=
        entry_charAt_facts k (v ++ (w ++ 59 :: cm)) hk0 hkb
      have hnb : ∀ c ∈ k ++ 61 :: (v ++ (w ++ 59 :: cm)),
          c ≠ 10 ∧ c ≠ 13 :=
        entry_nobreak k _ hkb (fun c hc => by
          rcases List.mem_append.mp hc with hc | hc
          · exact ⟨(hvb c hc).2.2.1, (hvb c hc).2.2.2⟩
          · rcases List.mem_append.mp hc with hc | hc
            · exact ⟨(hwb c hc).2.1, (hwb c hc).2.2⟩
            · rcases List.mem_cons.mp hc with rfl | hc
              · exact ⟨by omega, by omega⟩
              · exact hcmb c hc)
      have h := splitLines_nobreak _ hnb (by simp)
      have hslen : (k ++ 61 :: (v ++ (w ++ 59 :: cm))).length =
          k.length + 1 + v.length + w.length + 1 + cm.length := by
        simp
        omega
      have hvfact : ∀ l, l < v.length →
          charAt (k ++ 61 :: (v ++ (w ++ 59 :: cm))) (k.length + 1 + l) =
            charAt v l :=
        fun l hl => by
          rw [charAt_shift k 61 _ l (by simp; omega),
            charAt_append_left v _ l hl]
      have hwfact : ∀ l, l < w.length →
          isspace (charAt (k ++ 61 :: (v ++ (w ++ 59 :: cm)))
            (k.length + 1 + v.length + l)) = true :=
        fun l hl => by
          rw [show k.length + 1 + v.length + l = k.length + 1 + (v.length + l)
              from by omega,
            charAt_shift k 61 _ _ (by simp; omega),
            charAt_append_right v _ l (by simp; omega),
            charAt_append_left w _ l hl]
          exact (hwb _ (charAt_mem w _ hl)).1
      have hcmf : charAt (k ++ 61 :: (v ++ (w ++ 59 :: cm)))
          (k.length + 1 + v.length + w.length) = 59 := by
        rw [show k.length + 1 + v.length + w.length =
            k.length + 1 + (v.length + w.length) from by omega,
          charAt_shift k 61 _ _ (by simp),
          charAt_append_right v _ w.length (by simp),
          charAt_at_append w 59 cm]
      have hE3 := iniEntry_value_comment h k.length v.length w.length
        hkl hvl (by rw [hslen]; omega) (Or.inl hcmf)
        (by rw [h0]; exact hk34) hkf heq
        (fun l hl => by
          rw [hvfact l hl]
          exact ⟨(hvb _ (charAt_mem v _ hl)).1, (hvb _ (charAt_mem v _ hl)).2.1⟩)
        (by
          have hq := hvfact 0 hvl
          rw [Nat.add_zero] at hq
          rw [hq, charAt_headI]
          exact hvh)
        (by
          have hq := hvfact 0 hvl
          rw [Nat.add_zero] at hq
          rw [hq, charAt_headI]
          exact hvh34)
        (by
          have hq := hvfact (v.length - 1) (by omega)
          rw [show k.length + 1 + (v.length - 1) = k.length + v.length
            from by omega] at hq
          rw [hq, charAt_getLast v hv0]
          exact hvlast)
        hwfact
      have hres := iniParse_one_entry h _ _ _
        ⟨by rw [h0]; exact hkh.1, by rw [h0]; exact hkh.2.2.1,
          by rw [h0]; exact hkh.2.2.2, by rw [h0]; exact hk91⟩ hE3
      rw [hres, take_append_len k (61 :: (v ++ (w ++ 59 :: cm))),
        drop_entry_prefix k (v ++ (w ++ 59 :: cm)),
        take_append_len v (w ++ 59 :: cm)]

theorem claim_C8_witness :
    (iniParse [107, 61] = .object [([107], .value (.string []))]
      ∧ iniParse [107, 61, 32] = .object [([107], .value (.string []))]
      ∧ iniParse [107, 61, 32, 10] = .object [([107], .value (.string []))])
    ∧ iniParse [107, 61, 118, 32, 118, 32, 10] =
        .object [([107], .value (.string [118, 32, 118]))]
    ∧ iniParse [107, 61, 118, 32, 118, 32, 59, 99] =
        .object [([107], .value (.string [118, 32, 118]))] := by
  have H1 := claim_C8 [107] [] (by decide) (by decide) (by decide) (by decide)
    (by decide)
  have H2 := claim_C8 [107] [32] (by decide) (by decide) (by decide)
    (by decide) (by decide)
  have HV := H2.2 [118, 32, 118] (by decide) (by decide) (by decide)
    (by decide) (by decide)
  exact ⟨⟨H1.1.1, H2.1.1, H2.1.2⟩, HV.1, HV.2 [99] (by decide)⟩

end C2P
